import Mathlib

/-!
# Verification development for `pr` (src/main.go)

The program lists the open pull requests of every repository of a GitHub
organisation.  It is embedded here as a sequential program over an abstract API
client: every API call and every logged line is recorded, in order, in a trace.

Conventions of the embedding:
* a Go `string` is a Lean `String` (Unicode text); `<` compares the UTF-8 bytes;
* a Go `int` that is only compared or printed is an `Int`, a loop index a `Nat`;
* a nullable field is an `Option`, read through the nil-safe getters of the library;
* a logged line is the expanded format string, without the prefix the logger adds;
* the pagination loop has no bound in the source, so its model takes a fuel and a run
  that uses it up ends with `Outcome.timeout`;
* `sort.Sort` is the pattern-defeating quicksort of Go's package `sort`, embedded routine
  by routine over the methods `Len`, `Less` and `Swap` of `byRepoName`.
-/

namespace PR

/-! ## Go strings -/

/-- UTF-8 encoding of one character, as a list of byte values.  Go strings are byte
sequences and `<` on strings compares them byte by byte. -/
def utf8Bytes (c : Char) : List Nat :=
  let n := c.toNat
  if n < 0x80 then [n]
  else if n < 0x800 then [0xC0 + n / 64, 0x80 + n % 64]
  else if n < 0x10000 then [0xE0 + n / 4096, 0x80 + n / 64 % 64, 0x80 + n % 64]
  else [0xF0 + n / 262144, 0x80 + n / 4096 % 64, 0x80 + n / 64 % 64, 0x80 + n % 64]

/-- The bytes of a Go string. -/
def goBytes (s : String) : List Nat :=
  s.data.flatMap utf8Bytes

/-- Lexicographic comparison of byte sequences (a proper prefix is smaller). -/
def bytesLess : List Nat → List Nat → Bool
  | [], [] => false
  | [], _ :: _ => true
  | _ :: _, [] => false
  | a :: as, b :: bs => if a < b then true else if b < a then false else bytesLess as bs

/-- Go's `s < t` on strings. -/
def stringLess (s t : String) : Bool :=
  bytesLess (goBytes s) (goBytes t)

/-! ## The data of the go-github library that the program reads -/

/-- A `github.User`; `Login` is a nullable field. -/
structure User where
  Login : Option String
deriving DecidableEq, Repr

/-- A `github.Repository`: its name, and its id standing for the fields the program
never reads. -/
structure Repository where
  ID : Option Int
  Name : Option String
deriving DecidableEq, Repr

/-- A `github.PullRequest`. -/
structure PullRequest where
  Number : Option Int
  Title : Option String
  User : Option PR.User
  Assignee : Option PR.User
deriving DecidableEq, Repr

/-- A `github.Reviewers` answer. -/
structure Reviewers where
  Users : List User
  Teams : List String
deriving DecidableEq, Repr

/-- A `github.ListOptions`. -/
structure ListOptions where
  Page : Int
  PerPage : Int
deriving DecidableEq, Repr

/-- A `github.RepositoryListByOrgOptions`. -/
structure RepositoryListByOrgOptions where
  ListOptions : ListOptions
deriving DecidableEq, Repr

/-- A `github.Response`; only the pagination field is read. -/
structure Response where
  NextPage : Int
deriving DecidableEq, Repr

/-- Nil-safe getter `(*User).GetLogin`, also used on a nil user. -/
def GetLogin (u : Option User) : String :=
  match u with
  | none => ""
  | some v => v.Login.getD ""

/-- Nil-safe getter `(*Repository).GetName`. -/
def Repository.GetName (r : Repository) : String :=
  r.Name.getD ""

/-- Nil-safe getter `(*PullRequest).GetNumber`. -/
def PullRequest.GetNumber (p : PullRequest) : Int :=
  p.Number.getD 0

/-- Nil-safe getter `(*PullRequest).GetTitle`. -/
def PullRequest.GetTitle (p : PullRequest) : String :=
  p.Title.getD ""

/-- Nil-safe getter `(*PullRequest).GetUser`. -/
def PullRequest.GetUser (p : PullRequest) : Option PR.User :=
  p.User

/-- Nil-safe getter `(*PullRequest).GetAssignee`. -/
def PullRequest.GetAssignee (p : PullRequest) : Option PR.User :=
  p.Assignee

/-! ## The API client and the program monad -/

/-- The three API calls the program issues, over a hidden state `σ` of the remote
service.  A call answers a value or an error (its message). -/
structure Client (σ : Type) where
  RepositoriesListByOrg :
    String → RepositoryListByOrgOptions → σ → Except String (List Repository × Response) × σ
  PullRequestsList : String → String → σ → Except String (List PullRequest) × σ
  PullRequestsListReviewers : String → String → Int → σ → Except String Reviewers × σ

/-- A request sent to the API. -/
inductive Call where
  | RepositoriesListByOrg (org : String) (opts : RepositoryListByOrgOptions)
  | PullRequestsList (org repo : String)
  | PullRequestsListReviewers (org repo : String) (number : Int)
deriving DecidableEq, Repr

/-- What an observer of the process sees, in order: a request together with the error
it came back with (if any), or a line written to the standard logger. -/
inductive Event where
  | call (c : Call) (err : Option String)
  | log (line : String)
deriving DecidableEq, Repr

/-- How a computation ends: with a value, by `os.Exit code`, or (pagination loop only)
without having finished within the fuel of the model. -/
inductive Outcome (α : Type) where
  | ok (a : α)
  | exit (code : Int)
  | timeout
deriving DecidableEq, Repr

/-- The result of running a computation: how it ended, the state of the service and the
events it produced, oldest first. -/
structure Run (σ α : Type) where
  outcome : Outcome α
  api : σ
  trace : List Event

/-- A sequential computation over the service state. -/
def Prog (σ α : Type) : Type :=
  σ → Run σ α

/-- Return a value without any effect. -/
def Prog.pure {σ α : Type} (a : α) : Prog σ α :=
  fun s => ⟨.ok a, s, []⟩

/-- Sequencing: the second computation runs only if the first one ended with a value. -/
def Prog.bind {σ α β : Type} (m : Prog σ α) (f : α → Prog σ β) : Prog σ β :=
  fun s =>
    match m s with
    | ⟨.ok a, s1, t1⟩ =>
      match f a s1 with
      | ⟨o, s2, t2⟩ => ⟨o, s2, t1 ++ t2⟩
    | ⟨.exit c, s1, t1⟩ => ⟨.exit c, s1, t1⟩
    | ⟨.timeout, s1, t1⟩ => ⟨.timeout, s1, t1⟩

instance Prog.instMonad {σ : Type} : Monad (Prog σ) where
  pure := Prog.pure
  bind := Prog.bind

/-- The fuel of the model ran out. -/
def Prog.timeout {σ α : Type} : Prog σ α :=
  fun s => ⟨.timeout, s, []⟩

/-- Go's `os.Exit(code)`. -/
def osExit {σ α : Type} (code : Int) : Prog σ α :=
  fun s => ⟨.exit code, s, []⟩

/-- Go's `log.Printf` with the format already expanded to `line`. -/
def logPrintf {σ : Type} (line : String) : Prog σ Unit :=
  fun s => ⟨.ok (), s, [.log line]⟩

/-- Go's `log.Fatalf`: `log.Printf` followed by `os.Exit(1)`. -/
def logFatalf {σ α : Type} (line : String) : Prog σ α :=
  fun s => ⟨.exit 1, s, [.log line]⟩

/-- The error message of an answer, if it is an error. -/
def errorOf {α : Type} (r : Except String α) : Option String :=
  match r with
  | .error e => some e
  | .ok _ => none

/-- Issue `client.Repositories.ListByOrg(ctx, org, opts)`. -/
def callRepositoriesListByOrg {σ : Type} (client : Client σ) (org : String)
    (opts : RepositoryListByOrgOptions) : Prog σ (Except String (List Repository × Response)) :=
  fun s =>
    match client.RepositoriesListByOrg org opts s with
    | (r, s1) => ⟨.ok r, s1, [.call (.RepositoriesListByOrg org opts) (errorOf r)]⟩

/-- Issue `client.PullRequests.List(ctx, org, repo, &github.PullRequestListOptions{})`. -/
def callPullRequestsList {σ : Type} (client : Client σ) (org repo : String) :
    Prog σ (Except String (List PullRequest)) :=
  fun s =>
    match client.PullRequestsList org repo s with
    | (r, s1) => ⟨.ok r, s1, [.call (.PullRequestsList org repo) (errorOf r)]⟩

/-- Issue `client.PullRequests.ListReviewers(ctx, org, repo, number, &github.ListOptions{})`. -/
def callPullRequestsListReviewers {σ : Type} (client : Client σ) (org repo : String)
    (number : Int) : Prog σ (Except String Reviewers) :=
  fun s =>
    match client.PullRequestsListReviewers org repo number s with
    | (r, s1) => ⟨.ok r, s1, [.call (.PullRequestsListReviewers org repo number) (errorOf r)]⟩

/-- The lines written to the logger, in order. -/
def logsOf : List Event → List String
  | [] => []
  | .log line :: t => line :: logsOf t
  | .call _ _ :: t => logsOf t

/-- The requests issued, in order. -/
def callsOf : List Event → List Call
  | [] => []
  | .log _ :: t => callsOf t
  | .call c _ :: t => c :: callsOf t

/-- The event is a request that came back with an error. -/
def Event.isFailure : Event → Bool
  | .call _ (some _) => true
  | _ => false

/-- The format `"\tError: %s\n"` applied to an error message. -/
def errorLine (msg : String) : String :=
  "\tError: " ++ msg ++ "\n"

/-! ## `byRepoName` and `sort.Sort`

The routines of Go's package `sort` that `sort.Sort` runs (the pattern-defeating quicksort
of `zsortinterface.go`), acting on the data only through the three methods of `byRepoName`. -/

/-- The method `byRepoName.Len`. -/
def byRepoName.Len (r : List Repository) : Nat :=
  r.length

/-- The method `byRepoName.Swap`: `r[i], r[j] = r[j], r[i]` (out of range: unchanged). -/
def byRepoName.Swap (r : List Repository) (i j : Nat) : List Repository :=
  match r[i]?, r[j]? with
  | some a, some b => (r.set i b).set j a
  | _, _ => r

/-- The method `byRepoName.Less`: `r[i].GetName() < r[j].GetName()`. -/
def byRepoName.Less (r : List Repository) (i j : Nat) : Bool :=
  match r[i]?, r[j]? with
  | some a, some b => stringLess a.GetName b.GetName
  | _, _ => false

/-- The inner loop of `insertionSort`, started at index `j`:
`for ; j > a && data.Less(j, j-1); j-- { data.Swap(j, j-1) }`. -/
def insertionSort.inner (a : Nat) : Nat → List Repository → List Repository
  | 0, data => data
  | j + 1, data =>
    if a < j + 1 && byRepoName.Less data (j + 1) j then
      insertionSort.inner a j (byRepoName.Swap data (j + 1) j)
    else data

/-- The outer loop of `insertionSort`, `count` iterations from index `i`:
`for ; i < b; i++ { inner loop from j := i }`. -/
def insertionSort.outer (a : Nat) : Nat → Nat → List Repository → List Repository
  | 0, _, data => data
  | count + 1, i, data => insertionSort.outer a count (i + 1) (insertionSort.inner a i data)

/-- The routine `insertionSort(data, a, b)` of Go's package `sort`, driven only through
the methods of `byRepoName`. -/
def insertionSort (data : List Repository) (a b : Nat) : List Repository :=
  insertionSort.outer a (b - (a + 1)) (a + 1) data

/-- The routine `siftDown(data, lo, hi, first)` of Go's package `sort`, from `root`:
`for { child := 2*root + 1; if child >= hi { return }; if child+1 < hi &&
data.Less(first+child, first+child+1) { child++ }; if !data.Less(first+root, first+child)
{ return }; data.Swap(first+root, first+child); root = child }`.  The first argument
bounds the iterations; `root` grows at every iteration and stays below `hi`. -/
def siftDown.loop (hi first : Nat) : Nat → Nat → List Repository → List Repository
  | 0, _, data => data
  | fuel + 1, root, data =>
    let child := 2 * root + 1
    if child ≥ hi then data
    else
      let child := if child + 1 < hi && byRepoName.Less data (first + child) (first + child + 1)
        then child + 1 else child
      if !byRepoName.Less data (first + root) (first + child) then data
      else siftDown.loop hi first fuel child (byRepoName.Swap data (first + root) (first + child))

/-- The routine `siftDown(data, lo, hi, first)`. -/
def siftDown (data : List Repository) (lo hi first : Nat) : List Repository :=
  siftDown.loop hi first hi lo data

/-- The first loop of `heapSort`: `for i := (hi - 1) / 2; i >= 0; i-- { siftDown(data, i,
hi, first) }`, with `count` the number of iterations left (`i = count - 1`). -/
def heapSort.build (hi first : Nat) : Nat → List Repository → List Repository
  | 0, data => data
  | i + 1, data => heapSort.build hi first i (siftDown data i hi first)

/-- The second loop of `heapSort`: `for i := hi - 1; i >= 0; i-- { data.Swap(first,
first+i); siftDown(data, lo, i, first) }`, with `lo = 0`. -/
def heapSort.pop (first : Nat) : Nat → List Repository → List Repository
  | 0, data => data
  | i + 1, data =>
    heapSort.pop first i (siftDown (byRepoName.Swap data first (first + i)) 0 i first)

/-- The routine `heapSort(data, a, b)`. -/
def heapSort (data : List Repository) (a b : Nat) : List Repository :=
  let first := a
  let hi := b - a
  heapSort.pop first hi (heapSort.build hi first ((hi - 1) / 2 + 1) data)

/-- The scan `for i <= j && data.Less(i, a) { i++ }` of `partition`, over the `n = j + 1 - i`
positions left. -/
def partition.scanUp (data : List Repository) (a : Nat) : Nat → Nat → Nat
  | 0, i => i
  | n + 1, i => if byRepoName.Less data i a then partition.scanUp data a n (i + 1) else i

/-- The scan `for i <= j && !data.Less(j, a) { j-- }` of `partition`, over the
`n = j + 1 - i` positions left. -/
def partition.scanDown (data : List Repository) (a : Nat) : Nat → Nat → Nat
  | 0, j => j
  | n + 1, j => if !byRepoName.Less data j a then partition.scanDown data a n (j - 1) else j

/-- The loop `for { scan up; scan down; if i > j { break }; data.Swap(i, j); i++; j-- }` of
`partition`; it returns the data and `j`.  The first argument bounds the iterations (every
iteration but the last brings `i` and `j` closer by two). -/
def partition.loop (a : Nat) : Nat → List Repository → Nat → Nat → List Repository × Nat
  | 0, data, _, j => (data, j)
  | fuel + 1, data, i, j =>
    let i := partition.scanUp data a (j + 1 - i) i
    let j := partition.scanDown data a (j + 1 - i) j
    if i > j then (data, j)
    else partition.loop a fuel (byRepoName.Swap data i j) (i + 1) (j - 1)

/-- The routine `partition(data, a, b, pivot)`: the data, the new position of the pivot
and whether the range was already partitioned. -/
def partition (data : List Repository) (a b pivot : Nat) : List Repository × Nat × Bool :=
  let data := byRepoName.Swap data a pivot
  let i := a + 1
  let j := b - 1
  let i := partition.scanUp data a (j + 1 - i) i
  let j := partition.scanDown data a (j + 1 - i) j
  if i > j then (byRepoName.Swap data j a, j, true)
  else
    let r := partition.loop a (b - a) (byRepoName.Swap data i j) (i + 1) (j - 1)
    (byRepoName.Swap r.1 r.2 a, r.2, false)

/-- The scan `for i <= j && !data.Less(a, i) { i++ }` of `partitionEqual`. -/
def partitionEqual.scanUp (data : List Repository) (a : Nat) : Nat → Nat → Nat
  | 0, i => i
  | n + 1, i => if !byRepoName.Less data a i then partitionEqual.scanUp data a n (i + 1) else i

/-- The scan `for i <= j && data.Less(a, j) { j-- }` of `partitionEqual`. -/
def partitionEqual.scanDown (data : List Repository) (a : Nat) : Nat → Nat → Nat
  | 0, j => j
  | n + 1, j => if byRepoName.Less data a j then partitionEqual.scanDown data a n (j - 1) else j

/-- The loop of `partitionEqual`; it returns the data and `i`. -/
def partitionEqual.loop (a : Nat) : Nat → List Repository → Nat → Nat → List Repository × Nat
  | 0, data, i, _ => (data, i)
  | fuel + 1, data, i, j =>
    let i := partitionEqual.scanUp data a (j + 1 - i) i
    let j := partitionEqual.scanDown data a (j + 1 - i) j
    if i > j then (data, i)
    else partitionEqual.loop a fuel (byRepoName.Swap data i j) (i + 1) (j - 1)

/-- The routine `partitionEqual(data, a, b, pivot)`: the data and the first position after
the elements equal to the pivot. -/
def partitionEqual (data : List Repository) (a b pivot : Nat) : List Repository × Nat :=
  partitionEqual.loop a (b - a) (byRepoName.Swap data a pivot) (a + 1) (b - 1)

/-- The scan `for i < b && !data.Less(i, i-1) { i++ }` of `partialInsertionSort`, over the
`n = b - i` positions left. -/
def partialInsertionSort.scan (data : List Repository) : Nat → Nat → Nat
  | 0, i => i
  | n + 1, i =>
    if !byRepoName.Less data i (i - 1) then partialInsertionSort.scan data n (i + 1) else i

/-- The loop `for j := i - 1; j >= 1; j-- { if !data.Less(j, j-1) { break };
data.Swap(j, j-1) }` of `partialInsertionSort`, from `j`. -/
def partialInsertionSort.shiftLeft : Nat → List Repository → List Repository
  | 0, data => data
  | j + 1, data =>
    if !byRepoName.Less data (j + 1) j then data
    else partialInsertionSort.shiftLeft j (byRepoName.Swap data (j + 1) j)

/-- The loop `for j := i + 1; j < b; j++ { if !data.Less(j, j-1) { break };
data.Swap(j, j-1) }` of `partialInsertionSort`, over the `n = b - j` positions left. -/
def partialInsertionSort.shiftRight : Nat → Nat → List Repository → List Repository
  | 0, _, data => data
  | n + 1, j, data =>
    if !byRepoName.Less data j (j - 1) then data
    else partialInsertionSort.shiftRight n (j + 1) (byRepoName.Swap data j (j - 1))

/-- The loop `for j := 0; j < maxSteps; j++` of `partialInsertionSort`, with `steps` the
number of iterations left and `shortestShifting = 50`. -/
def partialInsertionSort.steps (a b : Nat) :
    Nat → Nat → List Repository → List Repository × Bool
  | 0, _, data => (data, false)
  | steps + 1, i, data =>
    let i := partialInsertionSort.scan data (b - i) i
    if i == b then (data, true)
    else if b - a < 50 then (data, false)
    else
      let data := byRepoName.Swap data i (i - 1)
      let data := if i - a ≥ 2 then partialInsertionSort.shiftLeft (i - 1) data else data
      let data := if b - i ≥ 2 then partialInsertionSort.shiftRight (b - (i + 1)) (i + 1) data
        else data
      partialInsertionSort.steps a b steps i data

/-- The routine `partialInsertionSort(data, a, b)` (`maxSteps = 5`): the data and whether
the range is sorted at the end. -/
def partialInsertionSort (data : List Repository) (a b : Nat) : List Repository × Bool :=
  partialInsertionSort.steps a b 5 (a + 1) data

/-- The number of bits of `n`, with `fuel` bounding the halvings. -/
def bitsLen.go : Nat → Nat → Nat
  | 0, _ => 0
  | fuel + 1, n => if n = 0 then 0 else bitsLen.go fuel (n / 2) + 1

/-- Go's `bits.Len(uint(n))`: the number of bits needed to write `n`. -/
def bitsLen (n : Nat) : Nat :=
  bitsLen.go n n

/-- The method `(*xorshift).Next` on a 64-bit state: `r ^= r << 13; r ^= r >> 7;
r ^= r << 17`. -/
def xorshift.Next (r : Nat) : Nat :=
  let r := r ^^^ (r <<< 13 % 2 ^ 64)
  let r := r ^^^ (r >>> 7)
  r ^^^ (r <<< 17 % 2 ^ 64)

/-- The function `nextPowerOfTwo(length)`: `1 << bits.Len(uint(length))`. -/
def nextPowerOfTwo (length : Nat) : Nat :=
  1 <<< bitsLen length

/-- The loop `for i := 0; i < 3; i++` of `breakPatterns`, with `n` the number of iterations
left and `random` the state of the generator. -/
def breakPatterns.loop (a length modulus idx : Nat) :
    Nat → Nat → Nat → List Repository → List Repository
  | 0, _, _, data => data
  | n + 1, i, random, data =>
    let random := xorshift.Next random
    let other := random &&& (modulus - 1)
    let other := if other ≥ length then other - length else other
    breakPatterns.loop a length modulus idx n (i + 1) random
      (byRepoName.Swap data (idx - 1 + i) (a + other))

/-- The routine `breakPatterns(data, a, b)`. -/
def breakPatterns (data : List Repository) (a b : Nat) : List Repository :=
  let length := b - a
  if length ≥ 8 then
    breakPatterns.loop a length (nextPowerOfTwo length) (a + (length / 4) * 2 - 1) 3 0 length data
  else data

/-- The type `sortedHint` of Go's package `sort`. -/
inductive sortedHint where
  | unknownHint | increasingHint | decreasingHint
deriving DecidableEq, Repr

/-- The function `order2(data, a, b, swaps)`; the counter `*swaps` is returned. -/
def order2 (data : List Repository) (a b swaps : Nat) : Nat × Nat × Nat :=
  if byRepoName.Less data b a then (b, a, swaps + 1) else (a, b, swaps)

/-- The function `median(data, a, b, c, swaps)`; the counter `*swaps` is returned. -/
def median (data : List Repository) (a b c swaps : Nat) : Nat × Nat :=
  match order2 data a b swaps with
  | (a, b, swaps) =>
    match order2 data b c swaps with
    | (b, _, swaps) =>
      match order2 data a b swaps with
      | (_, b, swaps) => (b, swaps)

/-- The function `medianAdjacent(data, a, swaps)`. -/
def medianAdjacent (data : List Repository) (a swaps : Nat) : Nat × Nat :=
  median data (a - 1) a (a + 1) swaps

/-- The choice of `choosePivot` among the positions `i`, `j`, `k` for a range of length
`l` (`shortestNinther = 50`): the chosen position and the number of swaps counted. -/
def choosePivot.pick (data : List Repository) (l i j k : Nat) : Nat × Nat :=
  if l ≥ 8 then
    if l ≥ 50 then
      match medianAdjacent data i 0 with
      | (i, swaps) =>
        match medianAdjacent data j swaps with
        | (j, swaps) =>
          match medianAdjacent data k swaps with
          | (k, swaps) => median data i j k swaps
    else median data i j k 0
  else (j, 0)

/-- The routine `choosePivot(data, a, b)` (`maxSwaps = 4 * 3`). -/
def choosePivot (data : List Repository) (a b : Nat) : Nat × sortedHint :=
  let l := b - a
  let r := choosePivot.pick data l (a + l / 4 * 1) (a + l / 4 * 2) (a + l / 4 * 3)
  if r.2 = 0 then (r.1, .increasingHint)
  else if r.2 = 12 then (r.1, .decreasingHint)
  else (r.1, .unknownHint)

/-- The loop `for i < j { data.Swap(i, j); i++; j-- }` of `reverseRange`; the first
argument bounds the iterations. -/
def reverseRange.loop : Nat → Nat → Nat → List Repository → List Repository
  | 0, _, _, data => data
  | n + 1, i, j, data =>
    if i < j then reverseRange.loop n (i + 1) (j - 1) (byRepoName.Swap data i j) else data

/-- The routine `reverseRange(data, a, b)`. -/
def reverseRange (data : List Repository) (a b : Nat) : List Repository :=
  reverseRange.loop (b - a) a (b - 1) data

/-- The part of one iteration of the loop of `pdqsort` that comes before partitioning:
`breakPatterns` (with `limit--`) after an unbalanced partition, `choosePivot`, the reversal
of a decreasing range, `partialInsertionSort` of a range that looks sorted.  It returns the
data, the pivot, the limit and whether `partialInsertionSort` found the range sorted. -/
def pdqsort.prepare (data : List Repository) (a b limit : Nat)
    (wasBalanced wasPartitioned : Bool) : List Repository × Nat × Nat × Bool :=
  let data := if !wasBalanced then breakPatterns data a b else data
  let limit := if !wasBalanced then limit - 1 else limit
  let ph := choosePivot data a b
  let data := if ph.2 = .decreasingHint then reverseRange data a b else data
  let pivot := if ph.2 = .decreasingHint then (b - 1) - (ph.1 - a) else ph.1
  let hint := if ph.2 = .decreasingHint then sortedHint.increasingHint else ph.2
  let ps := if wasBalanced && wasPartitioned && hint = .increasingHint
    then partialInsertionSort data a b else (data, false)
  (ps.1, pivot, limit, ps.2)

/-- The routine `pdqsort(data, a, b, limit)` (`maxInsertion = 12`), with the two local
flags of its loop as arguments: a call of the source starts with both flags true, the next
iteration of its loop is the call with the new bounds and flags.  The first argument bounds
the nesting of calls and iterations; every one of them works on a shorter range. -/
def pdqsort : Nat → List Repository → Nat → Nat → Nat → Bool → Bool → List Repository
  | 0, data, _, _, _, _, _ => data
  | fuel + 1, data, a, b, limit, wasBalanced, wasPartitioned =>
    if b - a ≤ 12 then insertionSort data a b
    else if limit = 0 then heapSort data a b
    else
      let p := pdqsort.prepare data a b limit wasBalanced wasPartitioned
      if p.2.2.2 then p.1
      else if a > 0 && !byRepoName.Less p.1 (a - 1) p.2.1 then
        let pe := partitionEqual p.1 a b p.2.1
        pdqsort fuel pe.1 pe.2 b p.2.2.1 wasBalanced wasPartitioned
      else
        let pt := partition p.1 a b p.2.1
        if pt.2.1 - a < b - pt.2.1 then
          pdqsort fuel (pdqsort fuel pt.1 a pt.2.1 p.2.2.1 true true) (pt.2.1 + 1) b p.2.2.1
            (decide (pt.2.1 - a ≥ (b - a) / 8)) pt.2.2
        else
          pdqsort fuel (pdqsort fuel pt.1 (pt.2.1 + 1) b p.2.2.1 true true) a pt.2.1 p.2.2.1
            (decide (b - pt.2.1 ≥ (b - a) / 8)) pt.2.2

/-- Go's `sort.Sort(byRepoName(data))` (the pattern-defeating quicksort of Go 1.19 and
later): `n := data.Len(); if n <= 1 { return }; limit := bits.Len(uint(n));
pdqsort(data, 0, n, limit)`. -/
def sortSort (data : List Repository) : List Repository :=
  let n := byRepoName.Len data
  if n ≤ 1 then data else pdqsort (n + 1) data 0 n (bitsLen n) true true

/-! ## The program -/

/-- The pagination loop of `getGithubRepositories` (lines 40-53); `fuel` bounds the number
of iterations the model follows. -/
def getGithubRepositories.loop {σ : Type} (client : Client σ) (org : String) :
    Nat → RepositoryListByOrgOptions → List Repository → Prog σ (List Repository)
  | 0, _, _ => Prog.timeout
  | fuel + 1, repoListOpts, repositories => do
    let r ← callRepositoriesListByOrg client org repoListOpts
    match r with
    | .error err => logFatalf (errorLine err)
    | .ok (out, resp) =>
      let repositories := repositories ++ out
      if resp.NextPage == 0 then
        pure repositories
      else
        getGithubRepositories.loop client org fuel
          ⟨⟨resp.NextPage, repoListOpts.ListOptions.PerPage⟩⟩ repositories

/-- The function `getGithubRepositories`. -/
def getGithubRepositories {σ : Type} (fuel : Nat) (client : Client σ) (org : String) :
    Prog σ (List Repository) := do
  let repositories ← getGithubRepositories.loop client org fuel ⟨⟨0, 100⟩⟩ []
  pure (sortSort repositories)

/-- The reviewer loop of `printPullRequests` (lines 106-111); `ownerPipe` is the mutable
variable of that name and `k` the index of the head of the remaining reviewers. -/
def printPullRequests.reviewers {σ : Type} (basePipe userPipe assignee : String)
    (Users : List User) : Nat → List User → String → Prog σ String
  | _, [], ownerPipe => pure ownerPipe
  | k, reviewer :: rest, ownerPipe => do
    let ownerPipe :=
      if assignee == "" && (k : Int) == (Users.length : Int) - 1 then "└" else ownerPipe
    logPrintf (basePipe ++ " " ++ userPipe ++ " " ++ ownerPipe ++ " Reviewer "
      ++ toString (k + 1) ++ ": " ++ GetLogin (some reviewer) ++ "\n")
    printPullRequests.reviewers basePipe userPipe assignee Users (k + 1) rest ownerPipe

/-- The body of the pull-request loop of `printPullRequests` (lines 79-115) for the
pull request at index `j` of `pullRequests`. -/
def printPullRequests.pullRequest {σ : Type} (client : Client σ) (org : String)
    (repository : Repository) (basePipe : String) (pullRequests : List PullRequest)
    (j : Nat) (pullRequest : PullRequest) : Prog σ Unit := do
  let r ← callPullRequestsListReviewers client org repository.GetName pullRequest.GetNumber
  match r with
  | .error err => logFatalf (errorLine err)
  | .ok reviewers =>
    let last := (j : Int) == (pullRequests.length : Int) - 1
    let prPipe := if last then "└" else "├"
    let userPipe := if last then " " else "│"
    logPrintf (basePipe ++ " " ++ prPipe ++ " PR: " ++ pullRequest.GetTitle ++ "\n")
    let owner := GetLogin pullRequest.GetUser
    let assignee := GetLogin pullRequest.GetAssignee
    let ownerPipe := if assignee == "" && reviewers.Users.length == 0 then "└" else "├"
    if owner != "" then
      logPrintf (basePipe ++ " " ++ userPipe ++ " " ++ ownerPipe ++ " Owner: " ++ owner ++ "\n")
    let _ ← printPullRequests.reviewers basePipe userPipe assignee reviewers.Users 0
      reviewers.Users ownerPipe
    if assignee != "" then
      logPrintf (basePipe ++ " " ++ userPipe ++ " └ Assignee: " ++ assignee ++ "\n")

/-- The pull-request loop of `printPullRequests` (line 78), from index `j`. -/
def printPullRequests.pullRequests {σ : Type} (client : Client σ) (org : String)
    (repository : Repository) (basePipe : String) (pullRequests : List PullRequest) :
    Nat → List PullRequest → Prog σ Unit
  | _, [] => pure ()
  | j, pullRequest :: rest => do
    printPullRequests.pullRequest client org repository basePipe pullRequests j pullRequest
    printPullRequests.pullRequests client org repository basePipe pullRequests (j + 1) rest

/-- The body of the repository loop of `printPullRequests` (lines 62-117) for the
repository at index `i` of `repositories`. -/
def printPullRequests.repository {σ : Type} (client : Client σ) (org : String)
    (repositories : List Repository) (i : Nat) (repository : Repository) : Prog σ Unit := do
  let r ← callPullRequestsList client org repository.GetName
  match r with
  | .error err => logFatalf (errorLine err)
  | .ok pullRequests =>
    let last := (i : Int) == (repositories.length : Int) - 1
    let repoPipe := if last then "└" else "├"
    let basePipe := if last then " " else "│"
    if pullRequests.length > 0 then
      logPrintf (repoPipe ++ " " ++ repository.GetName ++ ":\n")
      printPullRequests.pullRequests client org repository basePipe pullRequests 0 pullRequests

/-- The repository loop of `printPullRequests` (line 61), from index `i`. -/
def printPullRequests.repositories {σ : Type} (client : Client σ) (org : String)
    (repositories : List Repository) : Nat → List Repository → Prog σ Unit
  | _, [] => pure ()
  | i, repository :: rest => do
    printPullRequests.repository client org repositories i repository
    printPullRequests.repositories client org repositories (i + 1) rest

/-- The function `printPullRequests`. -/
def printPullRequests {σ : Type} (client : Client σ) (org : String)
    (repositories : List Repository) : Prog σ Unit :=
  printPullRequests.repositories client org repositories 0 repositories

/-- A `context.Context`. -/
structure Context where
  background : Unit
deriving DecidableEq, Repr

/-- The function `setupClient`: wires the token into a client, without any request.
`NewClient` stands for the library constructors; both results are non-nil pointers. -/
def setupClient {σ : Type} (NewClient : String → Client σ) (apiKey : String) :
    Option Context × Option (Client σ) :=
  (some ⟨()⟩, some (NewClient apiKey))

/-- The function `main`, over the process arguments `osArgs` and the environment
`osGetenv`.  Ending with a value is exit status 0. -/
def main {σ : Type} (fuel : Nat) (NewClient : String → Client σ) (osArgs : List String)
    (osGetenv : String → String) : Prog σ Unit :=
  if osArgs.length < 2 then osExit 1
  else
    let org := osArgs.getD 1 ""
    if org.length == 0 then osExit 1
    else
      let apiKey := osGetenv "GITHUB_API_KEY"
      if apiKey.length == 0 then osExit 1
      else
        match setupClient NewClient apiKey with
        | (none, _) => osExit 1
        | (some _, none) => osExit 1
        | (some _, some client) => do
          let repositories ← getGithubRepositories fuel client org
          printPullRequests client org repositories

/-! ## Clients and inputs used to state the properties -/

/-- Non-decreasing order of repository names: the name of `b` is not smaller than the
name of `a`. -/
def nameLE (a b : Repository) : Prop :=
  stringLess b.GetName a.GetName = false

/-- A client that answers the repository-list requests from a script, one scripted answer
per request in order (an error once the script is used up); the service state is the rest
of the script.  The other two endpoints answer an empty list. -/
def scriptedClient : Client (List (Except String (List Repository × Response))) where
  RepositoriesListByOrg := fun _ _ s =>
    match s with
    | [] => (.error "no scripted answer left", [])
    | r :: rest => (r, rest)
  PullRequestsList := fun _ _ s => (.ok [], s)
  PullRequestsListReviewers := fun _ _ _ s => (.ok ⟨[], []⟩, s)

/-- A sequence of successfully fetched pages as the pagination loop can see it: not
empty, every page but the last with a non-zero next-page indicator, the last with 0. -/
def isPagination : List (List Repository × Response) → Bool
  | [] => false
  | [p] => p.2.NextPage == 0
  | p :: q :: rest => p.2.NextPage != 0 && isPagination (q :: rest)

/-- A client without state: every answer is a function of the request. -/
def statelessClient
    (repos : String → RepositoryListByOrgOptions → Except String (List Repository × Response))
    (prs : String → String → Except String (List PullRequest))
    (revs : String → String → Int → Except String Reviewers) : Client Unit where
  RepositoriesListByOrg := fun org opts s => (repos org opts, s)
  PullRequestsList := fun org repo s => (prs org repo, s)
  PullRequestsListReviewers := fun org repo number s => (revs org repo number, s)

/-- A stateless client all of whose answers are successful. -/
def successfulClient
    (repos : String → RepositoryListByOrgOptions → List Repository × Response)
    (prs : String → String → List PullRequest)
    (revs : String → String → Int → Reviewers) : Client Unit :=
  statelessClient (fun org opts => .ok (repos org opts)) (fun org repo => .ok (prs org repo))
    (fun org repo number => .ok (revs org repo number))

/-- The page number of the `k`-th request (from 0) when the repository-list endpoint
answers `f page` to a request for `page`: 0 for the first request, then the next-page
indicator of the previous answer. -/
def pageAt (f : Int → List Repository × Response) : Nat → Int
  | 0 => 0
  | k + 1 => (f (pageAt f k)).2.NextPage

/-- A repository with the given name. -/
def repoNamed (name : String) : Repository :=
  ⟨none, some name⟩

/-- A user with the given login. -/
def userNamed (login : String) : User :=
  ⟨some login⟩

/-! ## The tree as the specification words it -/

/-- The title line of a pull request. -/
def specTitleLine (basePipe prPipe title : String) : String :=
  basePipe ++ " " ++ prPipe ++ " PR: " ++ title ++ "\n"

/-- A line of the owner / reviewer / assignee level carrying `glyph`. -/
def specUserLine (basePipe userPipe glyph entry : String) : String :=
  basePipe ++ " " ++ userPipe ++ " " ++ glyph ++ " " ++ entry ++ "\n"

/-- What the owner / reviewer / assignee lines of a pull request say, in order: the owner
if its login is not empty, the reviewers numbered from 1 in the order of the answer, the
assignee if its login is not empty. -/
def specEntries (owner : String) (reviewers : List String) (assignee : String) : List String :=
  (if owner = "" then [] else ["Owner: " ++ owner])
    ++ (List.enumFrom 1 reviewers).map (fun kr => "Reviewer " ++ toString kr.1 ++ ": " ++ kr.2)
    ++ (if assignee = "" then [] else ["Assignee: " ++ assignee])

/-- The lines of one level: the last one carries the terminal glyph, every earlier one
the non-terminal glyph. -/
def specUserLines (basePipe userPipe : String) : List String → List String
  | [] => []
  | [e] => [specUserLine basePipe userPipe "└" e]
  | e :: f :: rest =>
    specUserLine basePipe userPipe "├" e :: specUserLines basePipe userPipe (f :: rest)

/-- The block of one pull request; `last` says whether it is the last pull request of
its repository. -/
def specPullRequestBlock (basePipe : String) (last : Bool) (pullRequest : PullRequest)
    (reviewers : Reviewers) : List String :=
  specTitleLine basePipe (if last then "└" else "├") pullRequest.GetTitle
    :: specUserLines basePipe (if last then " " else "│")
        (specEntries (GetLogin pullRequest.GetUser)
          (reviewers.Users.map (fun u => GetLogin (some u))) (GetLogin pullRequest.GetAssignee))

/-- The header line of a repository. -/
def specHeaderLine (repoPipe name : String) : String :=
  repoPipe ++ " " ++ name ++ ":\n"

/-- The block of one repository, given its pull requests and the reviewers of each pull
request; `last` says whether the repository is the last one of the list.  A repository
without pull requests has no line. -/
def specRepositoryBlock (last : Bool) (name : String) (pullRequests : List PullRequest)
    (reviewersOf : PullRequest → Reviewers) : List String :=
  match pullRequests with
  | [] => []
  | _ :: _ =>
    specHeaderLine (if last then "└" else "├") name
      :: (List.enumFrom 0 pullRequests).flatMap (fun jp =>
          specPullRequestBlock (if last then " " else "│")
            (decide (jp.1 + 1 = pullRequests.length)) jp.2 (reviewersOf jp.2))

/-! ## Failing runs -/

/-- No request of the trace came back with an error. -/
def noFailure (t : List Event) : Bool :=
  t.all (fun e => !e.isFailure)

/-- The fail-fast shape of a run: either no request failed, or the run ended by
`os.Exit(1)` and its trace ends with the first failed request followed by the logged
error message. -/
def Run.FailFast {σ α : Type} (r : Run σ α) : Prop :=
  noFailure r.trace = true ∨
    (r.outcome = .exit 1 ∧ ∃ pre c msg,
      r.trace = pre ++ [Event.call c (some msg), Event.log (errorLine msg)]
        ∧ noFailure pre = true)

/-- A computation all of whose runs have the fail-fast shape. -/
def Prog.FailFast {σ α : Type} (m : Prog σ α) : Prop :=
  ∀ s, (m s).FailFast

/-- The event is a repository-list request that came back without error. -/
def Event.isRepositoriesAnswer : Event → Bool
  | .call (.RepositoriesListByOrg _ _) none => true
  | _ => false

/-- The event is a repository-list request. -/
def Event.isRepositoriesCall : Event → Bool
  | .call (.RepositoriesListByOrg _ _) _ => true
  | _ => false

/-- The shape of a run of the repository lister: either its trace is made of successful
repository-list requests only, or the run ended by `os.Exit(1)` and its trace is made of
successful repository-list requests followed by a failed request and the logged error
message. -/
def Run.ListerShape {σ α : Type} (r : Run σ α) : Prop :=
  r.trace.all Event.isRepositoriesAnswer = true ∨
    (r.outcome = .exit 1 ∧ ∃ pre c msg,
      r.trace = pre ++ [Event.call c (some msg), Event.log (errorLine msg)]
        ∧ pre.all Event.isRepositoriesAnswer = true)

/-- A computation none of whose runs issues a repository-list request. -/
def Prog.NoRepositoriesCall {σ α : Type} (m : Prog σ α) : Prop :=
  ∀ s, (m s).trace.all (fun e => !e.isRepositoriesCall) = true

/-! ## Concrete inputs -/

/-- Two pages: `beta` first (next page 2), then `alpha` (no next page). -/
def twoPages : List (List Repository × Response) :=
  [([repoNamed "beta"], ⟨2⟩), ([repoNamed "alpha"], ⟨0⟩)]

/-- Two pages that both report the repository `a`. -/
def duplicatePages : List (List Repository × Response) :=
  [([repoNamed "a"], ⟨2⟩), ([repoNamed "a"], ⟨0⟩)]

/-- A repository-list endpoint with two pages: page 0 holds `beta` and points to page 2,
every other page holds `alpha` and is the last. -/
def twoPageEndpoint (page : Int) : List Repository × Response :=
  if page = 0 then ([repoNamed "beta"], ⟨2⟩) else ([repoNamed "alpha"], ⟨0⟩)

/-- Pull request 1: owner `alice`, no assignee. -/
def pullRequestOne : PullRequest :=
  ⟨some 1, some "one", some (userNamed "alice"), none⟩

/-- Pull request 2: owner `alice`, assignee `dave`. -/
def pullRequestTwo : PullRequest :=
  ⟨some 2, some "two", some (userNamed "alice"), some (userNamed "dave")⟩

/-- A service with the repositories `a` (pull requests 1 and 2) and `b` (none); pull
request 1 has the reviewers `bob` and `carol`, every other one the reviewer `bob`. -/
def exampleClient : Client Unit :=
  successfulClient (fun _ _ => ([repoNamed "a", repoNamed "b"], ⟨0⟩))
    (fun _ name => if name = "a" then [pullRequestOne, pullRequestTwo] else [])
    (fun _ _ number =>
      if number = 1 then ⟨[userNamed "bob", userNamed "carol"], []⟩ else ⟨[userNamed "bob"], []⟩)

/-- A service whose repository-list endpoint fails. -/
def failingRepositoriesClient : Client Unit :=
  statelessClient (fun _ _ => .error "boom") (fun _ _ => .ok []) (fun _ _ _ => .ok ⟨[], []⟩)

/-- A service with one repository `a` holding pull request 1, whose reviewers endpoint
fails. -/
def failingReviewersClient : Client Unit :=
  statelessClient (fun _ _ => .ok ([repoNamed "a"], ⟨0⟩)) (fun _ _ => .ok [pullRequestOne])
    (fun _ _ _ => .error "boom")

/-! ## The lines of one pull request as the code writes them -/

/-- The reviewer lines as the loop writes them, from index `k`. -/
def reviewerLines (basePipe userPipe assignee : String) (n : Nat) :
    Nat → List User → List String
  | _, [] => []
  | k, r :: rest =>
    (basePipe ++ " " ++ userPipe ++ " "
        ++ (if assignee = "" ∧ k + 1 = n then "└" else "├") ++ " Reviewer "
        ++ toString (k + 1) ++ ": " ++ GetLogin (some r) ++ "\n")
      :: reviewerLines basePipe userPipe assignee n (k + 1) rest

/-- The lines of one pull request as the loop body writes them. -/
def pullRequestLines (basePipe : String) (last : Bool) (pullRequest : PullRequest)
    (reviewers : Reviewers) : List String :=
  [basePipe ++ " " ++ (if last then "└" else "├") ++ " PR: " ++ pullRequest.GetTitle ++ "\n"]
    ++ (if GetLogin pullRequest.GetUser = "" then []
        else [basePipe ++ " " ++ (if last then " " else "│") ++ " "
          ++ (if GetLogin pullRequest.GetAssignee = "" ∧ reviewers.Users.length = 0
              then "└" else "├")
          ++ " Owner: " ++ GetLogin pullRequest.GetUser ++ "\n"])
    ++ reviewerLines basePipe (if last then " " else "│") (GetLogin pullRequest.GetAssignee)
        reviewers.Users.length 0 reviewers.Users
    ++ (if GetLogin pullRequest.GetAssignee = "" then []
        else [basePipe ++ " " ++ (if last then " " else "│") ++ " └ Assignee: "
          ++ GetLogin pullRequest.GetAssignee ++ "\n"])

/-- The entry of the reviewer numbered `kr.1` with login `kr.2`. -/
def reviewerEntry (kr : Nat × String) : String :=
  "Reviewer " ++ toString kr.1 ++ ": " ++ kr.2

/-! ## Notions used in the proofs about `sort.Sort` -/

/-- The element at index `i` (a nameless repository beyond the end). -/
def nth (d : List Repository) (i : Nat) : Repository :=
  (d[i]?).getD ⟨none, none⟩

/-- The name of `x` is strictly smaller than the name of `y`. -/
def nameLT (x y : Repository) : Prop :=
  stringLess x.GetName y.GetName = true

/-- The range `[a, b)` of `d` is sorted by name. -/
def SortedRange (a b : Nat) (d : List Repository) : Prop :=
  ∀ i j, a ≤ i → i < j → j < b → nameLE (nth d i) (nth d j)

/-- The list `d'` comes from `d` by swaps of positions inside `[a, b)`. -/
inductive Reach (a b : Nat) : List Repository → List Repository → Prop
  | refl (d : List Repository) : Reach a b d d
  | swap {d d1 : List Repository} (i j : Nat) : Reach a b d d1 → a ≤ i → i < b → a ≤ j →
      j < b → i < d1.length → j < d1.length → Reach a b d (byRepoName.Swap d1 i j)

/-- Scan upwards while the test holds, at most `n` positions. -/
def genScanUp (T : Nat → Bool) : Nat → Nat → Nat
  | 0, i => i
  | n + 1, i => if T i then genScanUp T n (i + 1) else i

/-- Scan downwards while the test fails, at most `n` positions. -/
def genScanDown (T : Nat → Bool) : Nat → Nat → Nat
  | 0, j => j
  | n + 1, j => if !T j then genScanDown T n (j - 1) else j

/-- The two-pointer loop shared by `partition` and `partitionEqual`. -/
def genLoop (T : List Repository → Nat → Bool) :
    Nat → List Repository → Nat → Nat → List Repository × Nat × Nat
  | 0, d, i, j => (d, i, j)
  | fuel + 1, d, i, j =>
    if genScanUp (T d) (j + 1 - i) i > genScanDown (T d) (j + 1 - genScanUp (T d) (j + 1 - i) i) j
    then (d, genScanUp (T d) (j + 1 - i) i,
      genScanDown (T d) (j + 1 - genScanUp (T d) (j + 1 - i) i) j)
    else genLoop T fuel
      (byRepoName.Swap d (genScanUp (T d) (j + 1 - i) i)
        (genScanDown (T d) (j + 1 - genScanUp (T d) (j + 1 - i) i) j))
      (genScanUp (T d) (j + 1 - i) i + 1)
      (genScanDown (T d) (j + 1 - genScanUp (T d) (j + 1 - i) i) j - 1)

/-- Position `c` is a child of position `r` in the implicit binary tree. -/
def IsChild (c r : Nat) : Prop :=
  c = 2 * r + 1 ∨ c = 2 * r + 2

/-- Every node from `lo` on is not smaller than its children below `hi`. -/
def Heap (first lo hi : Nat) (d : List Repository) : Prop :=
  ∀ r c, lo ≤ r → IsChild c r → c < hi → nameLE (nth d (first + c)) (nth d (first + r))

/-- The heap property from `lo` on, except between `root` and its children; the children
of `root` are not greater than the parent of `root`. -/
def HeapExcept (first lo hi root : Nat) (d : List Repository) : Prop :=
  (∀ r c, lo ≤ r → r ≠ root → IsChild c r → c < hi →
      nameLE (nth d (first + c)) (nth d (first + r)))
    ∧ (∀ r c, lo ≤ r → IsChild root r → IsChild c root → c < hi →
      nameLE (nth d (first + c)) (nth d (first + r)))

/-- The element before the range `[a, b)`, if there is one, is not greater than any
element of the range. -/
def Barrier (a b : Nat) (d : List Repository) : Prop :=
  a = 0 ∨ ∀ k, a ≤ k → k < b → nameLE (nth d (a - 1)) (nth d k)

/-! ## The header lines -/

/-- The header lines of a run of `printPullRequests` against a client without state, in
the order they are written: the first line the repository loop body writes for each
repository, when it writes any. -/
def headerLines (client : Client Unit) (org : String) (repositories : List Repository) :
    List String :=
  (List.enumFrom 0 repositories).filterMap (fun ir =>
    (logsOf (printPullRequests.repository client org repositories ir.1 ir.2 ()).trace).head?)

/-! # Theorems -/

/-! ## The order on names -/

theorem bytesLess_asymm : ∀ a b : List Nat, bytesLess a b = true → bytesLess b a = false
  | [], [], h => by simp [bytesLess] at h
  | [], _ :: _, _ => by simp [bytesLess]
  | _ :: _, [], h => by simp [bytesLess] at h
  | x :: as, y :: bs, h => by
    unfold bytesLess at h ⊢
    by_cases h1 : x < y
    · have h2 : ¬ y < x := by omega
      simp [h1, h2]
    · by_cases h2 : y < x
      · simp [h1, h2] at h
      · simp only [h1, h2, if_false] at h ⊢
        exact bytesLess_asymm as bs h

theorem bytesLess_nil_right (c : List Nat) : bytesLess c [] = false := by
  cases c <;> rfl

theorem bytesLess_negtrans : ∀ a b c : List Nat,
    bytesLess b a = false → bytesLess c b = false → bytesLess c a = false
  | [], _, c, _, _ => bytesLess_nil_right c
  | _ :: _, [], _, h1, _ => by simp [bytesLess] at h1
  | _ :: _, _ :: _, [], _, h2 => by simp [bytesLess] at h2
  | x :: as, y :: bs, z :: cs, h1, h2 => by
    unfold bytesLess at h1 h2 ⊢
    by_cases hyx : y < x
    · simp [hyx] at h1
    · by_cases hxy : x < y
      · by_cases hzy : z < y
        · simp [hzy] at h2
        · have h3 : ¬ z < x := by omega
          have h4 : x < z := by omega
          simp [h3, h4]
      · have hxy2 : x = y := by omega
        subst hxy2
        simp only [hyx, if_false] at h1
        by_cases hzx : z < x
        · simp [hzx] at h2
        · by_cases hxz : x < z
          · simp [hzx, hxz]
          · simp only [hzx, hxz, if_false] at h2 ⊢
            exact bytesLess_negtrans as bs cs h1 h2

theorem nameLE_of_less {a b : Repository} (h : stringLess a.GetName b.GetName = true) :
    nameLE a b :=
  bytesLess_asymm _ _ h

theorem nameLE_trans {a b c : Repository} (h1 : nameLE a b) (h2 : nameLE b c) : nameLE a c :=
  bytesLess_negtrans _ _ _ h1 h2

/-! ## `sort.Sort` sorts and permutes -/

theorem nth_of_lt {d : List Repository} {i : Nat} (h : i < d.length) :
    d[i]? = some (nth d i) := by
  simp [nth, List.getElem?_eq_getElem h]

theorem length_Swap (d : List Repository) (i j : Nat) :
    (byRepoName.Swap d i j).length = d.length := by
  unfold byRepoName.Swap
  split <;> simp

theorem nth_Swap {d : List Repository} {i j : Nat} (hi : i < d.length) (hj : j < d.length)
    (k : Nat) : nth (byRepoName.Swap d i j) k
      = if k = j then nth d i else if k = i then nth d j else nth d k := by
  unfold byRepoName.Swap
  rw [nth_of_lt hi, nth_of_lt hj]
  simp only [nth, List.getElem?_set, List.length_set]
  by_cases h1 : k = j
  · subst h1
    simp [hj, nth]
  · by_cases h2 : k = i
    · subst h2
      have h3 : ¬ j = k := fun h => h1 h.symm
      simp [h1, h3, hi, nth]
    · have h3 : ¬ j = k := fun h => h1 h.symm
      have h4 : ¬ i = k := fun h => h2 h.symm
      simp [h1, h2, h3, h4]

theorem Less_eq {d : List Repository} {i j : Nat} (hi : i < d.length) (hj : j < d.length) :
    byRepoName.Less d i j = stringLess (nth d i).GetName (nth d j).GetName := by
  unfold byRepoName.Less
  rw [nth_of_lt hi, nth_of_lt hj]

theorem Less_true_iff {d : List Repository} {i j : Nat} (hi : i < d.length)
    (hj : j < d.length) : byRepoName.Less d i j = true ↔ nameLT (nth d i) (nth d j) := by
  rw [Less_eq hi hj]
  rfl

theorem Less_false_iff {d : List Repository} {i j : Nat} (hi : i < d.length)
    (hj : j < d.length) : byRepoName.Less d i j = false ↔ nameLE (nth d j) (nth d i) := by
  rw [Less_eq hi hj]
  rfl

theorem nameLE_refl (x : Repository) : nameLE x x := by
  unfold nameLE stringLess
  cases h : bytesLess (goBytes x.GetName) (goBytes x.GetName)
  · rfl
  · have := bytesLess_asymm _ _ h
    rw [h] at this
    cases this

theorem nameLE_of_not_lt {x y : Repository} (h : ¬ nameLT x y) : nameLE y x := by
  unfold nameLT at h
  unfold nameLE
  simpa using h

theorem not_lt_of_nameLE {x y : Repository} (h : nameLE y x) : ¬ nameLT x y := by
  unfold nameLE at h
  unfold nameLT
  simp [h]

theorem nameLE_of_lt {x y : Repository} (h : nameLT x y) : nameLE x y :=
  nameLE_of_less h

theorem nameLE_total (x y : Repository) : nameLE x y ∨ nameLE y x := by
  by_cases h : nameLT x y
  · exact Or.inl (nameLE_of_lt h)
  · exact Or.inr (nameLE_of_not_lt h)

theorem nameLT_of_lt_of_le {x y z : Repository} (h1 : nameLT x y) (h2 : nameLE y z) :
    nameLT x z := by
  by_contra h
  exact not_lt_of_nameLE (nameLE_trans h2 (nameLE_of_not_lt h)) h1

theorem nameLT_of_le_of_lt {x y z : Repository} (h1 : nameLE x y) (h2 : nameLT y z) :
    nameLT x z := by
  by_contra h
  exact not_lt_of_nameLE (nameLE_trans (nameLE_of_not_lt h) h1) h2

/-! ### Swaps inside a range -/

theorem perm_set_of_getElem? : ∀ (t : List Repository) (j : Nat) (a b : Repository),
    t[j]? = some b → (b :: t.set j a).Perm (a :: t)
  | [], _, _, _, h => by simp at h
  | x :: t, 0, a, b, h => by
    have hx : x = b := by simpa using h
    subst hx
    simpa using List.Perm.swap a x t
  | x :: t, j + 1, a, b, h => by
    have ih := perm_set_of_getElem? t j a b (by simpa using h)
    simp only [List.set_cons_succ]
    exact (List.Perm.swap x b _).trans ((ih.cons x).trans (List.Perm.swap a x t))

theorem perm_set_set : ∀ (l : List Repository) (i j : Nat) (a b : Repository),
    l[i]? = some a → l[j]? = some b → ((l.set i b).set j a).Perm l
  | [], _, _, _, _, h, _ => by simp at h
  | x :: t, 0, 0, a, b, h1, h2 => by
    have hx : x = a := by simpa using h1
    simp [hx]
  | x :: t, 0, j + 1, a, b, h1, h2 => by
    have hx : x = a := by simpa using h1
    subst hx
    simpa using perm_set_of_getElem? t j x b (by simpa using h2)
  | x :: t, i + 1, 0, a, b, h1, h2 => by
    have hx : x = b := by simpa using h2
    subst hx
    simpa using perm_set_of_getElem? t i x a (by simpa using h1)
  | x :: t, i + 1, j + 1, a, b, h1, h2 => by
    simpa using perm_set_set t i j a b (by simpa using h1) (by simpa using h2)

theorem Swap_perm (d : List Repository) (i j : Nat) : (byRepoName.Swap d i j).Perm d := by
  unfold byRepoName.Swap
  split
  · next a b h1 h2 => exact perm_set_set d i j a b h1 h2
  · exact List.Perm.refl _

theorem Reach.length_eq {a b : Nat} {d d' : List Repository} (h : Reach a b d d') :
    d'.length = d.length := by
  induction h with
  | refl => rfl
  | swap i j _ _ _ _ _ _ _ ih => rw [length_Swap, ih]

theorem Reach.perm {a b : Nat} {d d' : List Repository} (h : Reach a b d d') : d'.Perm d := by
  induction h with
  | refl => exact List.Perm.refl _
  | swap i j _ _ _ _ _ _ _ ih => exact (Swap_perm _ i j).trans ih

theorem Reach.frame {a b : Nat} {d d' : List Repository} (h : Reach a b d d') (k : Nat)
    (hk : k < a ∨ b ≤ k) : nth d' k = nth d k := by
  induction h with
  | refl => rfl
  | swap i j _ hai hib haj hjb hi hj ih =>
    rw [nth_Swap hi hj, ← ih]
    have h1 : ¬ k = j := by omega
    have h2 : ¬ k = i := by omega
    simp [h1, h2]

theorem Reach.transfer {a b : Nat} {d d' : List Repository} (h : Reach a b d d')
    (P : Repository → Prop) (hP : ∀ k, a ≤ k → k < b → P (nth d k)) :
    ∀ k, a ≤ k → k < b → P (nth d' k) := by
  induction h with
  | refl => exact hP
  | swap i j _ hai hib haj hjb hi hj ih =>
    intro k hak hkb
    rw [nth_Swap hi hj]
    by_cases h1 : k = j
    · rw [if_pos h1]
      exact ih i hai hib
    · rw [if_neg h1]
      by_cases h2 : k = i
      · rw [if_pos h2]
        exact ih j haj hjb
      · rw [if_neg h2]
        exact ih k hak hkb

theorem Reach.mono {a b a' b' : Nat} {d d' : List Repository} (h : Reach a' b' d d')
    (ha : a ≤ a') (hb : b' ≤ b) : Reach a b d d' := by
  induction h with
  | refl => exact Reach.refl _
  | swap i j _ hai hib haj hjb hi hj ih =>
    exact Reach.swap i j ih (by omega) (by omega) (by omega) (by omega) hi hj

theorem Reach.trans {a b : Nat} {d d1 d2 : List Repository} (h1 : Reach a b d d1)
    (h2 : Reach a b d1 d2) : Reach a b d d2 := by
  induction h2 with
  | refl => exact h1
  | swap i j _ hai hib haj hjb hi hj ih => exact Reach.swap i j ih hai hib haj hjb hi hj

theorem Reach.single {a b : Nat} (d : List Repository) {i j : Nat} (hai : a ≤ i) (hib : i < b)
    (haj : a ≤ j) (hjb : j < b) (hi : i < d.length) (hj : j < d.length) :
    Reach a b d (byRepoName.Swap d i j) :=
  Reach.swap i j (Reach.refl d) hai hib haj hjb hi hj

theorem SortedRange.pairwise {d : List Repository} (h : SortedRange 0 d.length d) :
    List.Pairwise nameLE d := by
  rw [List.pairwise_iff_getElem]
  intro i j hi hj hij
  have := h i j (Nat.zero_le _) hij hj
  simpa [nth, List.getElem?_eq_getElem hi, List.getElem?_eq_getElem hj] using this

theorem nth_Swap_of_ne {d : List Repository} {i j k : Nat} (hi : i < d.length)
    (hj : j < d.length) (h1 : k ≠ i) (h2 : k ≠ j) : nth (byRepoName.Swap d i j) k = nth d k := by
  rw [nth_Swap hi hj, if_neg h2, if_neg h1]

theorem nth_Swap_left {d : List Repository} {i j : Nat} (hi : i < d.length)
    (hj : j < d.length) : nth (byRepoName.Swap d i j) i = nth d j := by
  rw [nth_Swap hi hj]
  by_cases h : i = j
  · rw [if_pos h, h]
  · rw [if_neg h, if_pos rfl]

theorem nth_Swap_right {d : List Repository} {i j : Nat} (hi : i < d.length)
    (hj : j < d.length) : nth (byRepoName.Swap d i j) j = nth d i := by
  rw [nth_Swap hi hj, if_pos rfl]

/-- The inner loop of the insertion sort, run from position `j` with loop bound `lo`,
inserts the element at `j` into the sorted range `[a, j)`, where either `a` is the loop
bound or the element before `a` is not greater than the inserted one. -/
theorem inner_spec (lo a i : Nat) : ∀ (j : Nat) (d : List Repository),
    lo ≤ a → a ≤ j → j ≤ i → i < d.length →
    (a = lo ∨ (0 < a ∧ nameLE (nth d (a - 1)) (nth d j))) →
    SortedRange a j d → SortedRange (j + 1) (i + 1) d →
    (∀ p q, a ≤ p → p < j → j < q → q ≤ i → nameLE (nth d p) (nth d q)) →
    (∀ q, j < q → q ≤ i → nameLT (nth d j) (nth d q)) →
    Reach a (i + 1) d (insertionSort.inner lo j d)
      ∧ SortedRange a (i + 1) (insertionSort.inner lo j d)
  | 0, d, _, _, _, _, _, _, hs2, _, hx => by
    refine ⟨Reach.refl _, ?_⟩
    intro p q hap hpq hq
    by_cases hp0 : p = 0
    · subst hp0
      exact nameLE_of_lt (hx q hpq (by omega))
    · exact hs2 p q (by omega) hpq hq
  | j + 1, d, hlo, haj, hji, hid, hbar, hs1, hs2, hcross, hx => by
    have hj1 : j + 1 < d.length := by omega
    have hj0 : j < d.length := by omega
    have hstay : (¬ (lo < j + 1 ∧ nameLT (nth d (j + 1)) (nth d j))) →
        SortedRange a (i + 1) d := by
      intro hno
      intro p q hap hpq hq
      by_cases hpj : p < j + 1
      · by_cases hqj : q < j + 1
        · exact hs1 p q hap hpq hqj
        · by_cases hqe : q = j + 1
          · subst hqe
            -- p ≤ j, so a ≤ j
            have hle : nameLE (nth d j) (nth d (j + 1)) := by
              by_cases hl : lo < j + 1
              · exact nameLE_of_not_lt (fun h => hno ⟨hl, h⟩)
              · omega
            by_cases hpe : p = j
            · subst hpe
              exact hle
            · exact nameLE_trans (hs1 p j hap (by omega) (by omega)) hle
          · exact hcross p q hap hpj (by omega) (by omega)
      · by_cases hpe : p = j + 1
        · subst hpe
          exact nameLE_of_lt (hx q hpq (by omega))
        · exact hs2 p q (by omega) hpq hq
    unfold insertionSort.inner
    by_cases hcond : lo < j + 1 ∧ nameLT (nth d (j + 1)) (nth d j)
    · have hless : byRepoName.Less d (j + 1) j = true := (Less_true_iff hj1 hj0).mpr hcond.2
      simp only [hcond.1, hless, decide_True, Bool.and_self, if_true]
      have haj' : a ≤ j := by
        rcases hbar with h | ⟨h0, h⟩
        · omega
        · by_contra hna
          have hae : a = j + 1 := by omega
          subst hae
          simp only [Nat.add_sub_cancel] at h
          exact not_lt_of_nameLE h hcond.2
      have hlen : (byRepoName.Swap d (j + 1) j).length = d.length := length_Swap _ _ _
      have hsw := fun k => nth_Swap hj1 hj0 (d := d) k
      obtain ⟨hreach, hsorted⟩ := inner_spec lo a i j (byRepoName.Swap d (j + 1) j) hlo haj'
        (by omega) (by omega)
        (by
          rcases hbar with h | ⟨h0, h⟩
          · exact Or.inl h
          · refine Or.inr ⟨h0, ?_⟩
            rw [nth_Swap_right hj1 hj0, nth_Swap_of_ne (k := a - 1) hj1 hj0 (by omega) (by omega)]
            exact h)
        (by
          intro p q hap hpq hq
          rw [nth_Swap_of_ne (k := p) hj1 hj0 (by omega) (by omega),
            nth_Swap_of_ne (k := q) hj1 hj0 (by omega) (by omega)]
          exact hs1 p q hap hpq (by omega))
        (by
          intro p q hap hpq hq
          rw [nth_Swap_of_ne (k := q) hj1 hj0 (by omega) (by omega)]
          by_cases hpe : p = j + 1
          · subst hpe
            rw [nth_Swap_left hj1 hj0]
            exact hcross j q haj' (by omega) (by omega) (by omega)
          · rw [nth_Swap_of_ne (k := p) hj1 hj0 (by omega) (by omega)]
            exact hs2 p q (by omega) hpq hq)
        (by
          intro p q hap hpj hjq hqi
          rw [nth_Swap_of_ne (k := p) hj1 hj0 (by omega) (by omega)]
          by_cases hqe : q = j + 1
          · subst hqe
            rw [nth_Swap_left hj1 hj0]
            exact hs1 p j hap hpj (by omega)
          · rw [nth_Swap_of_ne (k := q) hj1 hj0 (by omega) (by omega)]
            exact hcross p q hap (by omega) (by omega) hqi)
        (by
          intro q hjq hqi
          rw [nth_Swap_right hj1 hj0]
          by_cases hqe : q = j + 1
          · subst hqe
            rw [nth_Swap_left hj1 hj0]
            exact hcond.2
          · rw [nth_Swap_of_ne (k := q) hj1 hj0 (by omega) (by omega)]
            exact hx q (by omega) hqi)
      exact ⟨(Reach.single d (by omega) (by omega) haj' (by omega) hj1 hj0).trans hreach,
        hsorted⟩
    · have hif : (decide (lo < j + 1) && byRepoName.Less d (j + 1) j) = false := by
        by_cases hl : lo < j + 1
        · have : ¬ nameLT (nth d (j + 1)) (nth d j) := fun h => hcond ⟨hl, h⟩
          have h2 : byRepoName.Less d (j + 1) j = false := by
            rw [Less_false_iff hj1 hj0]
            exact nameLE_of_not_lt this
          simp [h2]
        · simp [hl]
      simp only [hif]
      exact ⟨Reach.refl _, hstay hcond⟩

theorem outer_spec (a b : Nat) : ∀ (count i : Nat) (d : List Repository),
    a < i → i + count = b → b ≤ d.length → SortedRange a i d →
    Reach a b d (insertionSort.outer a count i d)
      ∧ SortedRange a b (insertionSort.outer a count i d)
  | 0, i, d, _, hb, _, hs => by
    have : i = b := by omega
    subst this
    exact ⟨Reach.refl _, hs⟩
  | count + 1, i, d, hai, hb, hlen, hs => by
    obtain ⟨hr, hsorted⟩ := inner_spec a a i i d (Nat.le_refl _) (by omega) (Nat.le_refl _)
      (by omega) (Or.inl rfl) hs
      (fun p q _ hpq hq => by omega) (fun p q _ hpi hiq hqi => by omega)
      (fun q hiq hqi => by omega)
    have hlen' := hr.length_eq
    obtain ⟨hr2, hs2⟩ := outer_spec a b count (i + 1) (insertionSort.inner a i d) (by omega)
      (by omega) (by omega) hsorted
    unfold insertionSort.outer
    exact ⟨(hr.mono (Nat.le_refl _) (by omega)).trans hr2, hs2⟩

theorem insertionSort_spec (d : List Repository) (a b : Nat) (hb : b ≤ d.length) :
    Reach a b d (insertionSort d a b) ∧ SortedRange a b (insertionSort d a b) := by
  unfold insertionSort
  by_cases h : a + 1 < b
  · exact outer_spec a b (b - (a + 1)) (a + 1) d (by omega) (by omega) hb
      (fun p q hp hpq hq => by omega)
  · have h0 : b - (a + 1) = 0 := by omega
    rw [h0]
    exact ⟨Reach.refl _, fun p q hp hpq hq => by omega⟩

theorem genScanUp_spec (T : Nat → Bool) : ∀ (n i : Nat),
    i ≤ genScanUp T n i ∧ genScanUp T n i ≤ i + n
      ∧ (∀ k, i ≤ k → k < genScanUp T n i → T k = true)
      ∧ (genScanUp T n i < i + n → T (genScanUp T n i) = false)
  | 0, i => ⟨Nat.le_refl _, Nat.le_refl _, fun k h1 h2 => by simp [genScanUp] at h2; omega,
      fun h => by simp [genScanUp] at h⟩
  | n + 1, i => by
    unfold genScanUp
    by_cases hT : T i = true
    · obtain ⟨h1, h2, h3, h4⟩ := genScanUp_spec T n (i + 1)
      simp only [hT, if_true]
      refine ⟨by omega, by omega, ?_, fun h => h4 (by omega)⟩
      intro k hk1 hk2
      by_cases hki : k = i
      · subst hki
        exact hT
      · exact h3 k (by omega) hk2
    · have hF : T i = false := by simpa using hT
      simp only [hF, Bool.false_eq_true, if_false]
      exact ⟨Nat.le_refl _, by omega, fun k h1 h2 => by omega, fun _ => trivial⟩

theorem genScanDown_spec (T : Nat → Bool) : ∀ (n j : Nat), n ≤ j →
    genScanDown T n j ≤ j ∧ j ≤ genScanDown T n j + n
      ∧ (∀ k, genScanDown T n j < k → k ≤ j → T k = false)
      ∧ (j < genScanDown T n j + n → T (genScanDown T n j) = true)
  | 0, j, _ => ⟨Nat.le_refl _, Nat.le_refl _, fun k h1 h2 => by simp [genScanDown] at h1; omega,
      fun h => by simp [genScanDown] at h⟩
  | n + 1, j, hn => by
    unfold genScanDown
    by_cases hT : T j = true
    · simp only [hT, Bool.not_true, Bool.false_eq_true, if_false]
      exact ⟨Nat.le_refl _, by omega, fun k h1 h2 => by omega, fun _ => trivial⟩
    · have hF : T j = false := by simpa using hT
      obtain ⟨h1, h2, h3, h4⟩ := genScanDown_spec T n (j - 1) (by omega)
      simp only [hF, Bool.not_false, if_true]
      refine ⟨by omega, by omega, ?_, fun h => h4 (by omega)⟩
      intro k hk1 hk2
      by_cases hkj : k = j
      · subst hkj
        exact hF
      · exact h3 k hk1 (by omega)

/-- The two-pointer loop, started with everything before `i` passing the test and
everything after `j` failing it, ends with the two pointers crossed and the range split
between the positions that pass and the positions that fail. -/
theorem genLoop_spec (T : List Repository → Nat → Bool) (U : Repository → Prop) (a b : Nat)
    (d0 : List Repository)
    (hT : ∀ d' k, Reach (a + 1) b d0 d' → a + 1 ≤ k → k < b → (T d' k = true ↔ U (nth d' k))) :
    ∀ (fuel : Nat) (d : List Repository) (i j : Nat),
    Reach (a + 1) b d0 d → a + 1 ≤ i → i ≤ j + 1 → j < b → b ≤ d.length →
    j + 1 - i ≤ 2 * fuel →
    (∀ k, a + 1 ≤ k → k < i → U (nth d k)) → (∀ k, j < k → k < b → ¬ U (nth d k)) →
    Reach (a + 1) b d (genLoop T fuel d i j).1
      ∧ (genLoop T fuel d i j).2.1 = (genLoop T fuel d i j).2.2 + 1
      ∧ a + 1 ≤ (genLoop T fuel d i j).2.1 ∧ (genLoop T fuel d i j).2.1 ≤ b
      ∧ (∀ k, a + 1 ≤ k → k < (genLoop T fuel d i j).2.1 → U (nth (genLoop T fuel d i j).1 k))
      ∧ (∀ k, (genLoop T fuel d i j).2.1 ≤ k → k < b → ¬ U (nth (genLoop T fuel d i j).1 k))
  | 0, d, i, j, _, hai, hij, hjb, _, hfuel, hU, hV => by
    have hi : i = j + 1 := by omega
    simp only [genLoop]
    exact ⟨Reach.refl _, hi, hai, by omega, hU, fun k h1 h2 => hV k (by omega) h2⟩
  | fuel + 1, d, i, j, hr, hai, hij, hjb, hlen, hfuel, hU, hV => by
    obtain ⟨u1, u2, u3, u4⟩ := genScanUp_spec (T d) (j + 1 - i) i
    obtain ⟨v1, v2, v3, v4⟩ := genScanDown_spec (T d) (j + 1 - genScanUp (T d) (j + 1 - i) i) j
      (by omega)
    unfold genLoop
    generalize genScanUp (T d) (j + 1 - i) i = i1 at u1 u2 u3 u4 v1 v2 v3 v4 ⊢
    generalize genScanDown (T d) (j + 1 - i1) j = j1 at v1 v2 v3 v4 ⊢
    have hU1 : ∀ k, a + 1 ≤ k → k < i1 → U (nth d k) := by
      intro k h1 h2
      by_cases hk : k < i
      · exact hU k h1 hk
      · exact (hT d k hr h1 (by omega)).mp (u3 k (by omega) h2)
    have hV1 : ∀ k, j1 < k → k < b → ¬ U (nth d k) := by
      intro k h1 h2
      by_cases hk : j < k
      · exact hV k hk h2
      · intro hUk
        have := (hT d k hr (by omega) h2).mpr hUk
        rw [v3 k h1 (by omega)] at this
        cases this
    by_cases hcross : i1 > j1
    · simp only [hcross, if_true]
      have hij1 : i1 = j1 + 1 := by omega
      exact ⟨Reach.refl _, hij1, by omega, by omega, hU1,
        fun k h1 h2 => hV1 k (by omega) h2⟩
    · simp only [hcross, if_false]
      have hi1 : T d i1 = false := u4 (by omega)
      have hj1 : T d j1 = true := v4 (by omega)
      have hne : i1 ≠ j1 := by
        intro h
        rw [h, hj1] at hi1
        cases hi1
      have hi1len : i1 < d.length := by omega
      have hj1len : j1 < d.length := by omega
      have hr1 : Reach (a + 1) b d (byRepoName.Swap d i1 j1) :=
        Reach.single d (by omega) (by omega) (by omega) (by omega) hi1len hj1len
      have hUj : U (nth d j1) := (hT d j1 hr (by omega) (by omega)).mp hj1
      have hUi : ¬ U (nth d i1) := by
        intro h
        have := (hT d i1 hr (by omega) (by omega)).mpr h
        rw [hi1] at this
        cases this
      obtain ⟨g1, g2, g3, g4, g5, g6⟩ := genLoop_spec T U a b d0 hT fuel
        (byRepoName.Swap d i1 j1) (i1 + 1) (j1 - 1) (hr.trans hr1) (by omega) (by omega)
        (by omega) (by rw [length_Swap]; exact hlen) (by omega)
        (by
          intro k h1 h2
          by_cases hk : k = i1
          · subst hk
            rw [nth_Swap_left hi1len hj1len]
            exact hUj
          · rw [nth_Swap_of_ne hi1len hj1len hk (by omega)]
            exact hU1 k h1 (by omega))
        (by
          intro k h1 h2
          by_cases hk : k = j1
          · subst hk
            rw [nth_Swap_right hi1len hj1len]
            exact hUi
          · rw [nth_Swap_of_ne hi1len hj1len (by omega) hk]
            exact hV1 k (by omega) h2)
      exact ⟨hr1.trans g1, g2, g3, g4, g5, g6⟩

theorem partition_scanUp_eq (d : List Repository) (a : Nat) : ∀ (n i : Nat),
    partition.scanUp d a n i = genScanUp (fun k => byRepoName.Less d k a) n i
  | 0, _ => rfl
  | n + 1, i => by
    unfold partition.scanUp genScanUp
    rw [partition_scanUp_eq d a n (i + 1)]

theorem partition_scanDown_eq (d : List Repository) (a : Nat) : ∀ (n j : Nat),
    partition.scanDown d a n j = genScanDown (fun k => byRepoName.Less d k a) n j
  | 0, _ => rfl
  | n + 1, j => by
    unfold partition.scanDown genScanDown
    rw [partition_scanDown_eq d a n (j - 1)]

theorem partition_loop_eq (a : Nat) : ∀ (fuel : Nat) (d : List Repository) (i j : Nat),
    partition.loop a fuel d i j
      = ((genLoop (fun d' k => byRepoName.Less d' k a) fuel d i j).1,
          (genLoop (fun d' k => byRepoName.Less d' k a) fuel d i j).2.2)
  | 0, _, _, _ => rfl
  | fuel + 1, d, i, j => by
    unfold partition.loop genLoop
    simp only [partition_scanUp_eq, partition_scanDown_eq]
    split
    · rfl
    · exact partition_loop_eq a fuel _ _ _

theorem partitionEqual_scanUp_eq (d : List Repository) (a : Nat) : ∀ (n i : Nat),
    partitionEqual.scanUp d a n i = genScanUp (fun k => !byRepoName.Less d a k) n i
  | 0, _ => rfl
  | n + 1, i => by
    unfold partitionEqual.scanUp genScanUp
    rw [partitionEqual_scanUp_eq d a n (i + 1)]

theorem partitionEqual_scanDown_eq (d : List Repository) (a : Nat) : ∀ (n j : Nat),
    partitionEqual.scanDown d a n j = genScanDown (fun k => !byRepoName.Less d a k) n j
  | 0, _ => rfl
  | n + 1, j => by
    unfold partitionEqual.scanDown genScanDown
    rw [partitionEqual_scanDown_eq d a n (j - 1)]
    simp

theorem partitionEqual_loop_eq (a : Nat) : ∀ (fuel : Nat) (d : List Repository) (i j : Nat),
    partitionEqual.loop a fuel d i j
      = ((genLoop (fun d' k => !byRepoName.Less d' a k) fuel d i j).1,
          (genLoop (fun d' k => !byRepoName.Less d' a k) fuel d i j).2.1)
  | 0, _, _, _ => rfl
  | fuel + 1, d, i, j => by
    unfold partitionEqual.loop genLoop
    simp only [partitionEqual_scanUp_eq, partitionEqual_scanDown_eq]
    split
    · rfl
    · exact partitionEqual_loop_eq a fuel _ _ _

theorem partition_eq (d : List Repository) (a b pivot : Nat) :
    (partition d a b pivot).1
        = byRepoName.Swap
            (genLoop (fun d' k => byRepoName.Less d' k a) (b - a + 1)
              (byRepoName.Swap d a pivot) (a + 1) (b - 1)).1
            (genLoop (fun d' k => byRepoName.Less d' k a) (b - a + 1)
              (byRepoName.Swap d a pivot) (a + 1) (b - 1)).2.2 a
      ∧ (partition d a b pivot).2.1
        = (genLoop (fun d' k => byRepoName.Less d' k a) (b - a + 1)
              (byRepoName.Swap d a pivot) (a + 1) (b - 1)).2.2 := by
  unfold partition genLoop
  simp only [partition_scanUp_eq, partition_scanDown_eq, partition_loop_eq]
  split
  · exact ⟨rfl, rfl⟩
  · exact ⟨rfl, rfl⟩

/-- What `partition` guarantees: the pivot ends at the returned position, everything
before it in the range is smaller, nothing after it in the range is smaller. -/
theorem partition_spec (d : List Repository) (a b pivot : Nat) (hap : a ≤ pivot)
    (hpb : pivot < b) (hb : b ≤ d.length) :
    Reach a b d (partition d a b pivot).1
      ∧ a ≤ (partition d a b pivot).2.1 ∧ (partition d a b pivot).2.1 < b
      ∧ (∀ k, a ≤ k → k < (partition d a b pivot).2.1 →
          nameLT (nth (partition d a b pivot).1 k)
            (nth (partition d a b pivot).1 (partition d a b pivot).2.1))
      ∧ (∀ k, (partition d a b pivot).2.1 < k → k < b →
          nameLE (nth (partition d a b pivot).1 (partition d a b pivot).2.1)
            (nth (partition d a b pivot).1 k)) := by
  obtain ⟨e1, e2⟩ := partition_eq d a b pivot
  rw [e1, e2]
  have ha : a < d.length := by omega
  have hp : pivot < d.length := by omega
  have hr0 : Reach a b d (byRepoName.Swap d a pivot) :=
    Reach.single d (Nat.le_refl _) (by omega) hap hpb ha hp
  have hlen0 : (byRepoName.Swap d a pivot).length = d.length := length_Swap _ _ _
  have hT : ∀ d' k, Reach (a + 1) b (byRepoName.Swap d a pivot) d' → a + 1 ≤ k → k < b →
      ((fun d' k => byRepoName.Less d' k a) d' k = true
        ↔ nameLT (nth d' k) (nth (byRepoName.Swap d a pivot) a)) := by
    intro d' k hr hk1 hk2
    have hl := hr.length_eq
    have hf := hr.frame a (Or.inl (by omega))
    simp only []
    rw [Less_true_iff (by omega) (by omega), hf]
  obtain ⟨g1, g2, g3, g4, g5, g6⟩ := genLoop_spec (fun d' k => byRepoName.Less d' k a)
    (fun x => nameLT x (nth (byRepoName.Swap d a pivot) a)) a b (byRepoName.Swap d a pivot) hT
    (b - a + 1) (byRepoName.Swap d a pivot) (a + 1) (b - 1) (Reach.refl _) (Nat.le_refl _)
    (by omega) (by omega) (by omega) (by omega) (fun k h1 h2 => by omega)
    (fun k h1 h2 => by omega)
  generalize genLoop (fun d' k => byRepoName.Less d' k a) (b - a + 1)
    (byRepoName.Swap d a pivot) (a + 1) (b - 1) = g at g1 g2 g3 g4 g5 g6 ⊢
  obtain ⟨d', i', j'⟩ := g
  simp only [] at g1 g2 g3 g4 g5 g6 ⊢
  have hl' : d'.length = d.length := by rw [g1.length_eq, hlen0]
  have hfa : nth d' a = nth (byRepoName.Swap d a pivot) a := g1.frame a (Or.inl (by omega))
  have hj'len : j' < d'.length := by omega
  have halen : a < d'.length := by omega
  refine ⟨?_, by omega, by omega, ?_, ?_⟩
  · exact (hr0.trans (g1.mono (by omega) (Nat.le_refl _))).trans
      (Reach.single d' (by omega) (by omega) (Nat.le_refl _) (by omega) hj'len halen)
  · intro k h1 h2
    rw [nth_Swap_left hj'len halen, hfa]
    by_cases hk : k = a
    · subst hk
      rw [nth_Swap_right hj'len halen]
      exact g5 j' (by omega) (by omega)
    · rw [nth_Swap_of_ne hj'len halen (by omega) hk]
      exact g5 k (by omega) (by omega)
  · intro k h1 h2
    rw [nth_Swap_left hj'len halen, hfa, nth_Swap_of_ne hj'len halen (by omega) (by omega)]
    exact nameLE_of_not_lt (g6 k (by omega) h2)

/-- What `partitionEqual` guarantees: the range is split at the returned position between
the elements not greater than the pivot and the elements greater than it. -/
theorem partitionEqual_spec (d : List Repository) (a b pivot : Nat) (hap : a ≤ pivot)
    (hpb : pivot < b) (hb : b ≤ d.length) :
    Reach a b d (partitionEqual d a b pivot).1
      ∧ a + 1 ≤ (partitionEqual d a b pivot).2 ∧ (partitionEqual d a b pivot).2 ≤ b
      ∧ (∀ k, a ≤ k → k < (partitionEqual d a b pivot).2 →
          nameLE (nth (partitionEqual d a b pivot).1 k) (nth d pivot))
      ∧ (∀ k, (partitionEqual d a b pivot).2 ≤ k → k < b →
          nameLT (nth d pivot) (nth (partitionEqual d a b pivot).1 k)) := by
  unfold partitionEqual
  rw [partitionEqual_loop_eq]
  simp only []
  have ha : a < d.length := by omega
  have hp : pivot < d.length := by omega
  have hr0 : Reach a b d (byRepoName.Swap d a pivot) :=
    Reach.single d (Nat.le_refl _) (by omega) hap hpb ha hp
  have hlen0 : (byRepoName.Swap d a pivot).length = d.length := length_Swap _ _ _
  have hpv : nth (byRepoName.Swap d a pivot) a = nth d pivot := nth_Swap_left ha hp
  have hT : ∀ d' k, Reach (a + 1) b (byRepoName.Swap d a pivot) d' → a + 1 ≤ k → k < b →
      ((fun d' k => !byRepoName.Less d' a k) d' k = true ↔ nameLE (nth d' k) (nth d pivot)) := by
    intro d' k hr hk1 hk2
    have hl := hr.length_eq
    have hf := hr.frame a (Or.inl (by omega))
    simp only [Bool.not_eq_true']
    rw [Less_false_iff (by omega) (by omega), hf, hpv]
  obtain ⟨g1, g2, g3, g4, g5, g6⟩ := genLoop_spec (fun d' k => !byRepoName.Less d' a k)
    (fun x => nameLE x (nth d pivot)) a b (byRepoName.Swap d a pivot) hT
    (b - a) (byRepoName.Swap d a pivot) (a + 1) (b - 1) (Reach.refl _) (Nat.le_refl _)
    (by omega) (by omega) (by omega) (by omega) (fun k h1 h2 => by omega)
    (fun k h1 h2 => by omega)
  generalize genLoop (fun d' k => !byRepoName.Less d' a k) (b - a)
    (byRepoName.Swap d a pivot) (a + 1) (b - 1) = g at g1 g2 g3 g4 g5 g6 ⊢
  obtain ⟨d', i', j'⟩ := g
  simp only [] at g1 g2 g3 g4 g5 g6 ⊢
  have hfa : nth d' a = nth d pivot := by rw [g1.frame a (Or.inl (by omega)), hpv]
  refine ⟨hr0.trans (g1.mono (by omega) (Nat.le_refl _)), g3, g4, ?_, ?_⟩
  · intro k h1 h2
    by_cases hk : k = a
    · subst hk
      rw [hfa]
      exact nameLE_refl _
    · exact g5 k (by omega) h2
  · intro k h1 h2
    have := g6 k h1 h2
    unfold nameLE at this
    unfold nameLT
    simpa using this

theorem siftDown_loop_spec (first lo hi : Nat) : ∀ (fuel root : Nat) (d : List Repository),
    lo ≤ root → hi ≤ root + fuel → first + hi ≤ d.length → HeapExcept first lo hi root d →
    Reach (first + lo) (first + hi) d (siftDown.loop hi first fuel root d)
      ∧ Heap first lo hi (siftDown.loop hi first fuel root d)
  | 0, root, d, hlo, hfuel, hlen, hinv => by
    refine ⟨Reach.refl _, ?_⟩
    intro r c hr hc hchi
    by_cases hrr : r = root
    · rcases hc with h | h <;> omega
    · exact hinv.1 r c hr hrr hc hchi
  | fuel + 1, root, d, hlo, hfuel, hlen, hinv => by
    unfold siftDown.loop
    simp only []
    by_cases h1 : 2 * root + 1 ≥ hi
    · simp only [h1, if_true]
      refine ⟨Reach.refl _, ?_⟩
      intro r c hr hc hchi
      by_cases hrr : r = root
      · rcases hc with h | h <;> omega
      · exact hinv.1 r c hr hrr hc hchi
    · simp only [h1, if_false]
      have hc1 : 2 * root + 1 < hi := by omega
      -- the greater child
      have hpick : ∃ c', (if (decide (2 * root + 1 + 1 < hi)
            && byRepoName.Less d (first + (2 * root + 1)) (first + (2 * root + 1) + 1)) = true
          then 2 * root + 1 + 1 else 2 * root + 1) = c'
          ∧ IsChild c' root ∧ c' < hi
          ∧ ∀ c, IsChild c root → c < hi → nameLE (nth d (first + c)) (nth d (first + c')) := by
        by_cases h2 : 2 * root + 1 + 1 < hi
        · have hl1 : first + (2 * root + 1) < d.length := by omega
          have hl2 : first + (2 * root + 1) + 1 < d.length := by omega
          by_cases h3 : byRepoName.Less d (first + (2 * root + 1)) (first + (2 * root + 1) + 1)
              = true
          · refine ⟨2 * root + 2, by simp [h2, h3], Or.inr rfl, by omega, ?_⟩
            intro c hc hchi
            rcases hc with h | h
            · subst h
              exact nameLE_of_lt ((Less_true_iff hl1 hl2).mp h3)
            · subst h
              exact nameLE_refl _
          · have h3' : byRepoName.Less d (first + (2 * root + 1)) (first + (2 * root + 1) + 1)
                = false := by simpa using h3
            refine ⟨2 * root + 1, by simp [h3'], Or.inl rfl, hc1, ?_⟩
            intro c hc hchi
            rcases hc with h | h
            · subst h
              exact nameLE_refl _
            · subst h
              exact (Less_false_iff hl1 hl2).mp h3'
        · refine ⟨2 * root + 1, by simp [h2], Or.inl rfl, hc1, ?_⟩
          intro c hc hchi
          rcases hc with h | h
          · subst h
            exact nameLE_refl _
          · omega
      obtain ⟨c', hc'eq, hc'child, hc'hi, hc'max⟩ := hpick
      rw [hc'eq]
      have hlr : first + root < d.length := by rcases hc'child with h | h <;> omega
      have hlc : first + c' < d.length := by omega
      have hrc : root < c' := by rcases hc'child with h | h <;> omega
      by_cases h4 : byRepoName.Less d (first + root) (first + c') = true
      · simp only [h4, Bool.not_true, Bool.false_eq_true, if_false]
        have hlt : nameLT (nth d (first + root)) (nth d (first + c')) :=
          (Less_true_iff hlr hlc).mp h4
        have hinv' : HeapExcept first lo hi c' (byRepoName.Swap d (first + root) (first + c')) := by
          constructor
          · intro r c hr hrc' hc hchi
            have hcr : r < c := by rcases hc with h | h <;> omega
            by_cases hrr : r = root
            · subst hrr
              rw [nth_Swap_left hlr hlc]
              by_cases hcc : c = c'
              · subst hcc
                rw [nth_Swap_right hlr hlc]
                exact nameLE_of_lt hlt
              · rw [nth_Swap_of_ne hlr hlc (by omega) (by omega)]
                exact hc'max c hc hchi
            · have hcc : c ≠ c' := by
                intro h
                subst h
                rcases hc with h | h <;> rcases hc'child with h' | h' <;> omega
              rw [nth_Swap_of_ne (k := first + r) hlr hlc (by omega) (by omega)]
              by_cases hcroot : c = root
              · subst hcroot
                rw [nth_Swap_left hlr hlc]
                exact hinv.2 r c' hr hc hc'child hc'hi
              · rw [nth_Swap_of_ne hlr hlc (by omega) (by omega)]
                exact hinv.1 r c hr hrr hc hchi
          · intro r c hr hcr hcc hchi
            have hr' : r = root := by
              rcases hcr with h | h <;> rcases hc'child with h' | h' <;> omega
            subst hr'
            have hc'c : c' < c := by rcases hcc with h | h <;> omega
            rw [nth_Swap_left hlr hlc, nth_Swap_of_ne hlr hlc (by omega) (by omega)]
            exact hinv.1 c' c (by omega) (by omega) hcc hchi
        obtain ⟨hr, hh⟩ := siftDown_loop_spec first lo hi fuel c'
          (byRepoName.Swap d (first + root) (first + c')) (by omega) (by omega)
          (by rw [length_Swap]; exact hlen) hinv'
        exact ⟨(Reach.single d (by omega) (by omega) (by omega) (by omega) hlr hlc).trans hr, hh⟩
      · have h4' : byRepoName.Less d (first + root) (first + c') = false := by simpa using h4
        simp only [h4', Bool.not_false, if_true]
        refine ⟨Reach.refl _, ?_⟩
        have hle : nameLE (nth d (first + c')) (nth d (first + root)) :=
          (Less_false_iff hlr hlc).mp h4'
        intro r c hr hc hchi
        by_cases hrr : r = root
        · subst hrr
          exact nameLE_trans (hc'max c hc hchi) hle
        · exact hinv.1 r c hr hrr hc hchi

theorem siftDown_spec (d : List Repository) (lo hi first : Nat) (hlen : first + hi ≤ d.length)
    (hheap : Heap first (lo + 1) hi d) :
    Reach (first + lo) (first + hi) d (siftDown d lo hi first)
      ∧ Heap first lo hi (siftDown d lo hi first) := by
  unfold siftDown
  refine siftDown_loop_spec first lo hi hi lo d (Nat.le_refl _) (by omega) hlen ⟨?_, ?_⟩
  · intro r c hr hne hc hchi
    exact hheap r c (by omega) hc hchi
  · intro r c hr hcr hcc hchi
    rcases hcr with h | h <;> omega

theorem heap_root_max (first n : Nat) (d : List Repository) (h : Heap first 0 n d) :
    ∀ r, r < n → nameLE (nth d (first + r)) (nth d first) := by
  intro r
  induction r using Nat.strong_induction_on with
  | _ r ih =>
    intro hr
    by_cases h0 : r = 0
    · subst h0
      exact nameLE_refl _
    · have hchild : IsChild r ((r - 1) / 2) := by
        unfold IsChild
        omega
      have h1 := h ((r - 1) / 2) r (Nat.zero_le _) hchild hr
      have h2 := ih ((r - 1) / 2) (by omega) (by omega)
      exact nameLE_trans h1 h2

theorem build_spec (hi first : Nat) : ∀ (count : Nat) (d : List Repository),
    first + hi ≤ d.length → Heap first count hi d →
    Reach first (first + hi) d (heapSort.build hi first count d)
      ∧ Heap first 0 hi (heapSort.build hi first count d)
  | 0, d, _, h => ⟨Reach.refl _, h⟩
  | i + 1, d, hlen, h => by
    obtain ⟨hr, hh⟩ := siftDown_spec d i hi first hlen h
    obtain ⟨hr2, hh2⟩ := build_spec hi first i (siftDown d i hi first)
      (by rw [hr.length_eq]; exact hlen) hh
    unfold heapSort.build
    exact ⟨(hr.mono (by omega) (Nat.le_refl _)).trans hr2, hh2⟩

theorem pop_spec (hi first : Nat) : ∀ (i : Nat) (d : List Repository),
    i ≤ hi → first + hi ≤ d.length → Heap first 0 i d →
    SortedRange (first + i) (first + hi) d →
    (∀ p q, first ≤ p → p < first + i → first + i ≤ q → q < first + hi →
      nameLE (nth d p) (nth d q)) →
    Reach first (first + hi) d (heapSort.pop first i d)
      ∧ SortedRange first (first + hi) (heapSort.pop first i d)
  | 0, d, _, _, _, hs, _ => ⟨Reach.refl _, by simpa using hs⟩
  | i + 1, d, hi1, hlen, hheap, hs, hcross => by
    have hl0 : first < d.length := by omega
    have hli : first + i < d.length := by omega
    have hmax := heap_root_max first (i + 1) d hheap
    have hr1 : Reach first (first + hi) d (byRepoName.Swap d first (first + i)) :=
      Reach.single d (Nat.le_refl _) (by omega) (by omega) (by omega) hl0 hli
    have hlen1 : (byRepoName.Swap d first (first + i)).length = d.length := length_Swap _ _ _
    -- the heap below the root is untouched
    have hheap1 : Heap first (0 + 1) i (byRepoName.Swap d first (first + i)) := by
      intro r c hr hc hchi
      have hrc : r < c := by rcases hc with h | h <;> omega
      rw [nth_Swap_of_ne (k := first + c) hl0 hli (by omega) (by omega),
        nth_Swap_of_ne (k := first + r) hl0 hli (by omega) (by omega)]
      exact hheap r c (Nat.zero_le _) hc (by omega)
    have hs1 : SortedRange (first + i) (first + hi) (byRepoName.Swap d first (first + i)) := by
      intro p q hp hpq hq
      rw [nth_Swap_of_ne (k := q) hl0 hli (by omega) (by omega)]
      by_cases hpe : p = first + i
      · subst hpe
        rw [nth_Swap_right hl0 hli]
        exact hcross first q (Nat.le_refl _) (by omega) (by omega) hq
      · rw [nth_Swap_of_ne (k := p) hl0 hli (by omega) (by omega)]
        exact hs p q (by omega) hpq hq
    have hcross1 : ∀ p q, first ≤ p → p < first + i → first + i ≤ q → q < first + hi →
        nameLE (nth (byRepoName.Swap d first (first + i)) p)
          (nth (byRepoName.Swap d first (first + i)) q) := by
      intro p q hp1 hp2 hq1 hq2
      have hpval : ∃ r, r < i + 1 ∧ nth (byRepoName.Swap d first (first + i)) p
          = nth d (first + r) := by
        by_cases hpf : p = first
        · subst hpf
          exact ⟨i, by omega, nth_Swap_left hl0 hli⟩
        · refine ⟨p - first, by omega, ?_⟩
          rw [nth_Swap_of_ne hl0 hli hpf (by omega)]
          congr 1
          omega
      obtain ⟨r, hr, hpr⟩ := hpval
      rw [hpr]
      by_cases hqe : q = first + i
      · subst hqe
        rw [nth_Swap_right hl0 hli]
        exact hmax r hr
      · rw [nth_Swap_of_ne hl0 hli (by omega) hqe]
        exact hcross (first + r) q (by omega) (by omega) (by omega) hq2
    obtain ⟨hr2, hheap2⟩ := siftDown_spec (byRepoName.Swap d first (first + i)) 0 i first
      (by omega) hheap1
    have hr2' : Reach first (first + i) (byRepoName.Swap d first (first + i))
        (siftDown (byRepoName.Swap d first (first + i)) 0 i first) := by simpa using hr2
    have hs2 : SortedRange (first + i) (first + hi)
        (siftDown (byRepoName.Swap d first (first + i)) 0 i first) := by
      intro p q hp hpq hq
      rw [hr2'.frame p (Or.inr hp), hr2'.frame q (Or.inr (by omega))]
      exact hs1 p q hp hpq hq
    have hcross2 : ∀ p q, first ≤ p → p < first + i → first + i ≤ q → q < first + hi →
        nameLE (nth (siftDown (byRepoName.Swap d first (first + i)) 0 i first) p)
          (nth (siftDown (byRepoName.Swap d first (first + i)) 0 i first) q) := by
      intro p q hp1 hp2 hq1 hq2
      rw [hr2'.frame q (Or.inr hq1)]
      exact hr2'.transfer (fun x => nameLE x (nth (byRepoName.Swap d first (first + i)) q))
        (fun k hk1 hk2 => hcross1 k q hk1 hk2 hq1 hq2) p hp1 hp2
    obtain ⟨hr3, hs3⟩ := pop_spec hi first i
      (siftDown (byRepoName.Swap d first (first + i)) 0 i first) (by omega)
      (by rw [hr2'.length_eq, hlen1]; exact hlen) hheap2 hs2 hcross2
    unfold heapSort.pop
    exact ⟨(hr1.trans (hr2'.mono (Nat.le_refl _) (by omega))).trans hr3, hs3⟩

theorem heapSort_spec (d : List Repository) (a b : Nat) (hab : a ≤ b) (hb : b ≤ d.length) :
    Reach a b d (heapSort d a b) ∧ SortedRange a b (heapSort d a b) := by
  unfold heapSort
  simp only []
  obtain ⟨hr, hh⟩ := build_spec (b - a) a ((b - a - 1) / 2 + 1) d (by omega)
    (by
      intro r c hr hc hchi
      rcases hc with h | h <;> omega)
  obtain ⟨hr2, hs2⟩ := pop_spec (b - a) a (b - a)
    (heapSort.build (b - a) a ((b - a - 1) / 2 + 1) d) (Nat.le_refl _)
    (by rw [hr.length_eq]; omega) hh (fun p q hp hpq hq => by omega)
    (fun p q hp1 hp2 hq1 hq2 => by omega)
  have hab' : a + (b - a) = b := by omega
  rw [hab'] at hr hr2 hs2
  exact ⟨hr.trans hr2, hs2⟩

theorem Barrier.reach {a b : Nat} {d d' : List Repository} (h : Barrier a b d)
    (hr : Reach a b d d') : Barrier a b d' := by
  rcases h with h | h
  · exact Or.inl h
  · by_cases ha : a = 0
    · exact Or.inl ha
    · right
      intro k hk1 hk2
      rw [hr.frame (a - 1) (Or.inl (by omega))]
      exact hr.transfer (fun x => nameLE (nth d (a - 1)) x) h k hk1 hk2

/-! ### `breakPatterns`, `reverseRange`, `choosePivot` -/

theorem bitsLen_go_le : ∀ (fuel n : Nat), n ≤ fuel → 0 < n → 2 ^ bitsLen.go fuel n ≤ 2 * n
  | 0, n, h1, h2 => by omega
  | fuel + 1, n, h1, h2 => by
    unfold bitsLen.go
    have hn : ¬ n = 0 := by omega
    simp only [hn, if_false]
    by_cases h : n / 2 = 0
    · have h0 : bitsLen.go fuel (n / 2) = 0 := by
        rw [h]
        cases fuel <;> simp [bitsLen.go]
      rw [h0]
      simp
      omega
    · have ih := bitsLen_go_le fuel (n / 2) (by omega) (by omega)
      rw [pow_succ]
      omega

theorem nextPowerOfTwo_le (n : Nat) (h : 0 < n) : nextPowerOfTwo n ≤ 2 * n := by
  unfold nextPowerOfTwo bitsLen
  rw [Nat.one_shiftLeft]
  exact bitsLen_go_le n n (Nat.le_refl _) h

theorem breakPatterns_loop_reach (a b length modulus idx : Nat) (hlen : length = b - a)
    (h8 : 8 ≤ length) (hmod : modulus ≤ 2 * length)
    (hidx : idx = a + (length / 4) * 2 - 1) :
    ∀ (n i random : Nat) (d : List Repository), i + n ≤ 3 → b ≤ d.length →
    Reach a b d (breakPatterns.loop a length modulus idx n i random d)
  | 0, _, _, d, _, _ => Reach.refl _
  | n + 1, i, random, d, hin, hb => by
    unfold breakPatterns.loop
    simp only []
    have hand : xorshift.Next random &&& (modulus - 1) ≤ modulus - 1 := Nat.and_le_right
    have hother : (if xorshift.Next random &&& (modulus - 1) ≥ length
        then (xorshift.Next random &&& (modulus - 1)) - length
        else xorshift.Next random &&& (modulus - 1)) < length := by
      split <;> omega
    generalize (if xorshift.Next random &&& (modulus - 1) ≥ length
        then (xorshift.Next random &&& (modulus - 1)) - length
        else xorshift.Next random &&& (modulus - 1)) = other at hother ⊢
    have h1 : Reach a b d (byRepoName.Swap d (idx - 1 + i) (a + other)) :=
      Reach.single d (by omega) (by omega) (by omega) (by omega) (by omega) (by omega)
    exact h1.trans (breakPatterns_loop_reach a b length modulus idx hlen h8 hmod hidx n (i + 1)
      (xorshift.Next random) _ (by omega) (by rw [length_Swap]; exact hb))

theorem breakPatterns_reach (d : List Repository) (a b : Nat) (hb : b ≤ d.length) :
    Reach a b d (breakPatterns d a b) := by
  unfold breakPatterns
  simp only []
  split
  · next h8 =>
    exact breakPatterns_loop_reach a b (b - a) (nextPowerOfTwo (b - a))
      (a + (b - a) / 4 * 2 - 1) rfl h8 (nextPowerOfTwo_le _ (by omega)) rfl 3 0 (b - a) d
      (by omega) hb
  · exact Reach.refl _

theorem reverseRange_loop_reach (a b : Nat) : ∀ (n i j : Nat) (d : List Repository),
    a ≤ i → j < b → b ≤ d.length → Reach a b d (reverseRange.loop n i j d)
  | 0, _, _, d, _, _, _ => Reach.refl _
  | n + 1, i, j, d, hi, hj, hb => by
    unfold reverseRange.loop
    split
    · next hij =>
      exact (Reach.single d hi (by omega) (by omega) hj (by omega) (by omega)).trans
        (reverseRange_loop_reach a b n (i + 1) (j - 1) _ (by omega) (by omega)
          (by rw [length_Swap]; exact hb))
    · exact Reach.refl _

theorem reverseRange_reach (d : List Repository) (a b : Nat) (hab : a < b) (hb : b ≤ d.length) :
    Reach a b d (reverseRange d a b) := by
  unfold reverseRange
  exact reverseRange_loop_reach a b (b - a) a (b - 1) d (Nat.le_refl _) (by omega) hb

theorem order2_mem (d : List Repository) (x y s : Nat) :
    ((order2 d x y s).1 = x ∧ (order2 d x y s).2.1 = y)
      ∨ ((order2 d x y s).1 = y ∧ (order2 d x y s).2.1 = x) := by
  unfold order2
  split
  · exact Or.inr ⟨rfl, rfl⟩
  · exact Or.inl ⟨rfl, rfl⟩

theorem median_mem (d : List Repository) (x y z s : Nat) :
    (median d x y z s).1 = x ∨ (median d x y z s).1 = y ∨ (median d x y z s).1 = z := by
  unfold median
  rcases h1 : order2 d x y s with ⟨x1, y1, s1⟩
  have m1 := order2_mem d x y s
  rw [h1] at m1
  simp only [] at m1 ⊢
  rcases h2 : order2 d y1 z s1 with ⟨y2, z2, s2⟩
  have m2 := order2_mem d y1 z s1
  rw [h2] at m2
  simp only [] at m2 ⊢
  rcases h3 : order2 d x1 y2 s2 with ⟨x3, y3, s3⟩
  have m3 := order2_mem d x1 y2 s2
  rw [h3] at m3
  simp only [] at m3 ⊢
  rcases m1 with ⟨a1, b1⟩ | ⟨a1, b1⟩ <;> rcases m2 with ⟨a2, b2⟩ | ⟨a2, b2⟩ <;>
    rcases m3 with ⟨a3, b3⟩ | ⟨a3, b3⟩ <;> subst_vars <;> simp

theorem medianAdjacent_mem (d : List Repository) (x s : Nat) :
    (medianAdjacent d x s).1 = x - 1 ∨ (medianAdjacent d x s).1 = x
      ∨ (medianAdjacent d x s).1 = x + 1 :=
  median_mem d (x - 1) x (x + 1) s

theorem pick_range (d : List Repository) (l i j k lo hi : Nat)
    (h8 : 8 ≤ l → lo ≤ i ∧ i < hi ∧ lo ≤ j ∧ j < hi ∧ lo ≤ k ∧ k < hi)
    (h50 : 50 ≤ l → lo + 1 ≤ i ∧ i + 1 < hi ∧ lo + 1 ≤ j ∧ j + 1 < hi ∧ lo + 1 ≤ k ∧ k + 1 < hi)
    (hj : lo ≤ j ∧ j < hi) :
    lo ≤ (choosePivot.pick d l i j k).1 ∧ (choosePivot.pick d l i j k).1 < hi := by
  unfold choosePivot.pick
  by_cases c8 : l ≥ 8
  · rw [if_pos c8]
    by_cases c50 : l ≥ 50
    · rw [if_pos c50]
      have b50 := h50 c50
      have m1 := medianAdjacent_mem d i 0
      rcases h1 : medianAdjacent d i 0 with ⟨i1, s1⟩
      rw [h1] at m1
      simp only [] at m1 ⊢
      have m2 := medianAdjacent_mem d j s1
      rcases h2 : medianAdjacent d j s1 with ⟨j1, s2⟩
      rw [h2] at m2
      simp only [] at m2 ⊢
      have m3 := medianAdjacent_mem d k s2
      rcases h3 : medianAdjacent d k s2 with ⟨k1, s3⟩
      rw [h3] at m3
      simp only [] at m3 ⊢
      have m4 := median_mem d i1 j1 k1 s3
      rcases m4 with h | h | h <;> rw [h] <;> omega
    · rw [if_neg c50]
      have b8 := h8 c8
      have m4 := median_mem d i j k 0
      rcases m4 with h | h | h <;> rw [h] <;> omega
  · rw [if_neg c8]
    exact hj

theorem choosePivot_range (d : List Repository) (a b : Nat) (hab : a < b) :
    a ≤ (choosePivot d a b).1 ∧ (choosePivot d a b).1 < b := by
  have hp := pick_range d (b - a) (a + (b - a) / 4 * 1) (a + (b - a) / 4 * 2)
    (a + (b - a) / 4 * 3) a b (fun h => by omega) (fun h => by omega) (by omega)
  unfold choosePivot
  simp only []
  generalize choosePivot.pick d (b - a) (a + (b - a) / 4 * 1) (a + (b - a) / 4 * 2)
    (a + (b - a) / 4 * 3) = r at hp ⊢
  show a ≤ (if r.2 = 0 then (r.1, sortedHint.increasingHint)
      else if r.2 = 12 then (r.1, sortedHint.decreasingHint)
      else (r.1, sortedHint.unknownHint)).1
    ∧ (if r.2 = 0 then (r.1, sortedHint.increasingHint)
      else if r.2 = 12 then (r.1, sortedHint.decreasingHint)
      else (r.1, sortedHint.unknownHint)).1 < b
  split
  · exact hp
  · split <;> exact hp

/-! ### `partialInsertionSort` -/

theorem partialInsertionSort_scan_eq (d : List Repository) : ∀ (n i : Nat),
    partialInsertionSort.scan d n i = genScanUp (fun k => !byRepoName.Less d k (k - 1)) n i
  | 0, _ => rfl
  | n + 1, i => by
    unfold partialInsertionSort.scan genScanUp
    rw [partialInsertionSort_scan_eq d n (i + 1)]

theorem shiftLeft_eq : ∀ (j : Nat) (d : List Repository),
    partialInsertionSort.shiftLeft j d = insertionSort.inner 0 j d
  | 0, _ => rfl
  | j + 1, d => by
    unfold partialInsertionSort.shiftLeft insertionSort.inner
    rw [shiftLeft_eq j]
    cases byRepoName.Less d (j + 1) j <;> simp

theorem shiftRight_reach (lo b : Nat) : ∀ (n j : Nat) (d : List Repository),
    lo < j → j + n ≤ b → b ≤ d.length → Reach lo b d (partialInsertionSort.shiftRight n j d)
  | 0, _, d, _, _, _ => Reach.refl _
  | n + 1, j, d, hj, hn, hb => by
    unfold partialInsertionSort.shiftRight
    split
    · exact Reach.refl _
    · exact (Reach.single d (by omega) (by omega) (by omega) (by omega) (by omega)
        (by omega)).trans
        (shiftRight_reach lo b n (j + 1) _ (by omega) (by omega) (by rw [length_Swap]; exact hb))

theorem sortedRange_extend {a i n : Nat} {d : List Repository} (hs : SortedRange a i d)
    (hai : a < i) (hadj : ∀ k, i ≤ k → k < n → nameLE (nth d (k - 1)) (nth d k)) :
    SortedRange a n d := by
  intro p q
  induction q using Nat.strong_induction_on with
  | _ q ih =>
    intro hap hpq hqn
    by_cases hqi : q < i
    · exact hs p q hap hpq hqi
    · have h1 := hadj q (by omega) hqn
      by_cases hpe : p = q - 1
      · subst hpe
        exact h1
      · exact nameLE_trans (ih (q - 1) (by omega) hap (by omega) (by omega)) h1

theorem partialInsertionSort_steps_spec (a b : Nat) : ∀ (steps i : Nat) (d : List Repository),
    a < i → i ≤ b → b ≤ d.length → Barrier a b d → SortedRange a i d →
    Reach a b d (partialInsertionSort.steps a b steps i d).1
      ∧ ((partialInsertionSort.steps a b steps i d).2 = true →
          SortedRange a b (partialInsertionSort.steps a b steps i d).1)
  | 0, _, d, _, _, _, _, _ => ⟨Reach.refl _, fun h => by simp [partialInsertionSort.steps] at h⟩
  | steps + 1, i, d, hai, hib, hb, hbar, hs => by
    obtain ⟨u1, u2, u3, u4⟩ := genScanUp_spec (fun k => !byRepoName.Less d k (k - 1)) (b - i) i
    unfold partialInsertionSort.steps
    simp only [partialInsertionSort_scan_eq]
    generalize genScanUp (fun k => !byRepoName.Less d k (k - 1)) (b - i) i = i1
      at u1 u2 u3 u4 ⊢
    have hs1 : SortedRange a i1 d := by
      refine sortedRange_extend hs hai ?_
      intro k hk1 hk2
      have := u3 k hk1 hk2
      simp only [Bool.not_eq_true'] at this
      exact (Less_false_iff (by omega) (by omega)).mp this
    by_cases hend : i1 = b
    · simp only [hend, beq_self_eq_true, if_true]
      exact ⟨Reach.refl _, fun _ => hend ▸ hs1⟩
    · have hbeq : (i1 == b) = false := by simpa using hend
      simp only [hbeq, Bool.false_eq_true, if_false]
      by_cases hshort : b - a < 50
      · simp only [hshort, if_true]
        exact ⟨Reach.refl _, fun h => by cases h⟩
      · simp only [hshort, if_false]
        have hi1b : i1 < b := by omega
        have hl1 : i1 < d.length := by omega
        have hl0 : i1 - 1 < d.length := by omega
        have hr1 : Reach a b d (byRepoName.Swap d i1 (i1 - 1)) :=
          Reach.single d (by omega) hi1b (by omega) (by omega) hl1 hl0
        have hlen1 : (byRepoName.Swap d i1 (i1 - 1)).length = d.length := length_Swap _ _ _
        have hbar1 := hbar.reach hr1
        -- the prefix before the swapped pair is still sorted
        have hs1' : SortedRange a (i1 - 1) (byRepoName.Swap d i1 (i1 - 1)) := by
          intro p q hp hpq hq
          rw [nth_Swap_of_ne (k := p) hl1 hl0 (by omega) (by omega),
            nth_Swap_of_ne (k := q) hl1 hl0 (by omega) (by omega)]
          exact hs1 p q hp hpq (by omega)
        -- shifting the smaller element to the left
        have hleft : Reach a b (byRepoName.Swap d i1 (i1 - 1))
            (if i1 - a ≥ 2 then partialInsertionSort.shiftLeft (i1 - 1)
              (byRepoName.Swap d i1 (i1 - 1)) else byRepoName.Swap d i1 (i1 - 1))
            ∧ SortedRange a i1
              (if i1 - a ≥ 2 then partialInsertionSort.shiftLeft (i1 - 1)
                (byRepoName.Swap d i1 (i1 - 1)) else byRepoName.Swap d i1 (i1 - 1)) := by
          split
          · rw [shiftLeft_eq]
            obtain ⟨hr, hsr⟩ := inner_spec 0 a (i1 - 1) (i1 - 1)
              (byRepoName.Swap d i1 (i1 - 1)) (Nat.zero_le _) (by omega) (Nat.le_refl _)
              (by omega)
              (by
                rcases hbar1 with h | h
                · exact Or.inl h
                · by_cases ha0 : a = 0
                  · exact Or.inl ha0
                  · exact Or.inr ⟨by omega, h (i1 - 1) (by omega) (by omega)⟩)
              hs1' (fun p q hp hpq hq => by omega) (fun p q _ hp hq hqi => by omega)
              (fun q hq hqi => by omega)
            have he : i1 - 1 + 1 = i1 := by omega
            rw [he] at hr hsr
            exact ⟨hr.mono (Nat.le_refl _) (by omega), hsr⟩
          · exact ⟨Reach.refl _, fun p q hp hpq hq => by omega⟩
        generalize (if i1 - a ≥ 2 then partialInsertionSort.shiftLeft (i1 - 1)
            (byRepoName.Swap d i1 (i1 - 1)) else byRepoName.Swap d i1 (i1 - 1)) = d2 at hleft ⊢
        obtain ⟨hr2, hs2⟩ := hleft
        have hlen2 : d2.length = d.length := by rw [hr2.length_eq, hlen1]
        have hright : Reach i1 b d2
            (if b - i1 ≥ 2 then partialInsertionSort.shiftRight (b - (i1 + 1)) (i1 + 1) d2
              else d2) := by
          split
          · exact shiftRight_reach i1 b (b - (i1 + 1)) (i1 + 1) d2 (by omega) (by omega)
              (by omega)
          · exact Reach.refl _
        generalize (if b - i1 ≥ 2 then partialInsertionSort.shiftRight (b - (i1 + 1)) (i1 + 1) d2
            else d2) = d3 at hright ⊢
        have hr3 : Reach a b d d3 :=
          (hr1.trans hr2).trans (hright.mono (by omega) (Nat.le_refl _))
        have hs3 : SortedRange a i1 d3 := by
          intro p q hp hpq hq
          rw [hright.frame p (Or.inl (by omega)), hright.frame q (Or.inl hq)]
          exact hs2 p q hp hpq hq
        obtain ⟨hr4, hs4⟩ := partialInsertionSort_steps_spec a b steps i1 d3 (by omega)
          (by omega) (by rw [hr3.length_eq]; exact hb) (hbar.reach hr3) hs3
        exact ⟨hr3.trans hr4, hs4⟩

theorem partialInsertionSort_spec (d : List Repository) (a b : Nat) (hab : a < b)
    (hb : b ≤ d.length) (hbar : Barrier a b d) :
    Reach a b d (partialInsertionSort d a b).1
      ∧ ((partialInsertionSort d a b).2 = true → SortedRange a b (partialInsertionSort d a b).1) :=
  partialInsertionSort_steps_spec a b 5 (a + 1) d (by omega) (by omega) hb hbar
    (fun p q hp hpq hq => by omega)

/-! ### `pdqsort` -/

theorem prepare_spec (d : List Repository) (a b limit : Nat) (wb wp : Bool) (hab : a < b)
    (hb : b ≤ d.length) (hbar : Barrier a b d) :
    Reach a b d (pdqsort.prepare d a b limit wb wp).1
      ∧ a ≤ (pdqsort.prepare d a b limit wb wp).2.1
      ∧ (pdqsort.prepare d a b limit wb wp).2.1 < b
      ∧ ((pdqsort.prepare d a b limit wb wp).2.2.2 = true →
          SortedRange a b (pdqsort.prepare d a b limit wb wp).1) := by
  unfold pdqsort.prepare
  simp only []
  have h1 : Reach a b d (if (!wb) = true then breakPatterns d a b else d) := by
    split
    · exact breakPatterns_reach d a b hb
    · exact Reach.refl _
  generalize (if (!wb) = true then breakPatterns d a b else d) = d1 at h1 ⊢
  have hl1 : b ≤ d1.length := by rw [h1.length_eq]; exact hb
  have hpr := choosePivot_range d1 a b hab
  generalize choosePivot d1 a b = ph at hpr ⊢
  have h2 : Reach a b d1 (if ph.2 = sortedHint.decreasingHint then reverseRange d1 a b else d1) := by
    split
    · exact reverseRange_reach d1 a b hab hl1
    · exact Reach.refl _
  generalize (if ph.2 = sortedHint.decreasingHint then reverseRange d1 a b else d1) = d2
    at h2 ⊢
  have hl2 : b ≤ d2.length := by rw [h2.length_eq]; exact hl1
  have hpiv : a ≤ (if ph.2 = sortedHint.decreasingHint then b - 1 - (ph.1 - a) else ph.1)
      ∧ (if ph.2 = sortedHint.decreasingHint then b - 1 - (ph.1 - a) else ph.1) < b := by
    split <;> omega
  have hbar2 : Barrier a b d2 := hbar.reach (h1.trans h2)
  generalize (wb && wp && decide ((if ph.2 = sortedHint.decreasingHint
      then sortedHint.increasingHint else ph.2) = sortedHint.increasingHint)) = c
  have h3 : Reach a b d2 (if c = true then partialInsertionSort d2 a b else (d2, false)).1
      ∧ ((if c = true then partialInsertionSort d2 a b else (d2, false)).2 = true →
        SortedRange a b (if c = true then partialInsertionSort d2 a b else (d2, false)).1) := by
    cases c
    · exact ⟨Reach.refl _, fun h => by cases h⟩
    · exact partialInsertionSort_spec d2 a b hab hl2 hbar2
  generalize (if c = true then partialInsertionSort d2 a b else (d2, false)) = ps at h3 ⊢
  exact ⟨(h1.trans h2).trans h3.1, hpiv.1, hpiv.2, h3.2⟩

theorem sortedRange_glue {a m b : Nat} {d : List Repository} (h1 : SortedRange a m d)
    (h2 : SortedRange (m + 1) b d) (hl : ∀ p, a ≤ p → p < m → nameLE (nth d p) (nth d m))
    (hr : ∀ q, m < q → q < b → nameLE (nth d m) (nth d q)) : SortedRange a b d := by
  intro p q hp hpq hq
  by_cases hqm : q < m
  · exact h1 p q hp hpq hqm
  · by_cases hqe : q = m
    · subst hqe
      exact hl p hp hpq
    · by_cases hpm : p < m
      · exact nameLE_trans (hl p hp hpm) (hr q (by omega) hq)
      · by_cases hpe : p = m
        · subst hpe
          exact hr q hpq hq
        · exact h2 p q (by omega) hpq hq

theorem pdqsort_spec : ∀ (fuel : Nat) (d : List Repository) (a b limit : Nat) (wb wp : Bool),
    a ≤ b → b ≤ d.length → b - a < fuel → Barrier a b d →
    Reach a b d (pdqsort fuel d a b limit wb wp)
      ∧ SortedRange a b (pdqsort fuel d a b limit wb wp)
  | 0, _, _, _, _, _, _, _, _, hf, _ => by omega
  | fuel + 1, d, a, b, limit, wb, wp, hab, hb, hf, hbar => by
    unfold pdqsort
    by_cases h12 : b - a ≤ 12
    · rw [if_pos h12]
      exact insertionSort_spec d a b hb
    · rw [if_neg h12]
      by_cases hlim : limit = 0
      · rw [if_pos hlim]
        exact heapSort_spec d a b hab hb
      · rw [if_neg hlim]
        simp only []
        obtain ⟨p1, p2, p3, p4⟩ := prepare_spec d a b limit wb wp (by omega) hb hbar
        generalize pdqsort.prepare d a b limit wb wp = p at p1 p2 p3 p4 ⊢
        obtain ⟨d3, pivot, limit', done⟩ := p
        simp only [] at p1 p2 p3 p4 ⊢
        have hl3 : d3.length = d.length := p1.length_eq
        have hbar3 : Barrier a b d3 := hbar.reach p1
        by_cases hdone : done = true
        · rw [if_pos hdone]
          exact ⟨p1, p4 hdone⟩
        · rw [if_neg hdone]
          by_cases heq : (decide (a > 0) && !byRepoName.Less d3 (a - 1) pivot) = true
          · rw [if_pos heq]
            simp only [Bool.and_eq_true, decide_eq_true_eq, Bool.not_eq_true'] at heq
            obtain ⟨ha0, hless⟩ := heq
            have hpa : nameLE (nth d3 pivot) (nth d3 (a - 1)) :=
              (Less_false_iff (by omega) (by omega)).mp hless
            have hmin : ∀ k, a ≤ k → k < b → nameLE (nth d3 pivot) (nth d3 k) := by
              intro k hk1 hk2
              rcases hbar3 with h | h
              · omega
              · exact nameLE_trans hpa (h k hk1 hk2)
            obtain ⟨e1, e2, e3, e4, e5⟩ := partitionEqual_spec d3 a b pivot p2 p3 (by omega)
            have hmin' := e1.transfer (fun x => nameLE (nth d3 pivot) x) hmin
            generalize partitionEqual d3 a b pivot = pe at e1 e2 e3 e4 e5 hmin' ⊢
            obtain ⟨d4, mid⟩ := pe
            simp only [] at e1 e2 e3 e4 e5 hmin' ⊢
            have hl4 : d4.length = d.length := by rw [e1.length_eq, hl3]
            have hbar4 : Barrier mid b d4 := by
              right
              intro k hk1 hk2
              exact nameLE_trans (e4 (mid - 1) (by omega) (by omega))
                (nameLE_of_lt (e5 k hk1 hk2))
            obtain ⟨r1, r2⟩ := pdqsort_spec fuel d4 mid b limit' wb wp e3 (by omega) (by omega)
              hbar4
            refine ⟨(p1.trans e1).trans (r1.mono (by omega) (Nat.le_refl _)), ?_⟩
            intro p q hp hpq hq
            by_cases hqm : q < mid
            · rw [r1.frame p (Or.inl (by omega)), r1.frame q (Or.inl hqm)]
              exact nameLE_trans (e4 p hp (by omega)) (hmin' q (by omega) (by omega))
            · by_cases hpm : p < mid
              · rw [r1.frame p (Or.inl hpm)]
                have hq' := r1.transfer (fun x => nameLT (nth d3 pivot) x) e5 q (by omega) hq
                exact nameLE_trans (e4 p hp hpm) (nameLE_of_lt hq')
              · exact r2 p q (by omega) hpq hq
          · rw [if_neg heq]
            obtain ⟨t1, t2, t3, t4, t5⟩ := partition_spec d3 a b pivot p2 p3 (by omega)
            generalize partition d3 a b pivot = pt at t1 t2 t3 t4 t5 ⊢
            obtain ⟨d4, mid, ap⟩ := pt
            simp only [] at t1 t2 t3 t4 t5 ⊢
            have hl4 : d4.length = d.length := by rw [t1.length_eq, hl3]
            have hbar4 : Barrier a b d4 := hbar3.reach t1
            have hbarL : Barrier a mid d4 := by
              rcases hbar4 with h | h
              · exact Or.inl h
              · exact Or.inr (fun k hk1 hk2 => h k hk1 (by omega))
            have hbarR : Barrier (mid + 1) b d4 := by
              right
              intro k hk1 hk2
              simpa using t5 k (by omega) hk2
            by_cases hside : mid - a < b - mid
            · rw [if_pos hside]
              obtain ⟨l1, l2⟩ := pdqsort_spec fuel d4 a mid limit' true true t2 (by omega)
                (by omega) hbarL
              generalize pdqsort fuel d4 a mid limit' true true = d5 at l1 l2 ⊢
              have hl5 : d5.length = d.length := by rw [l1.length_eq, hl4]
              have hbarR5 : Barrier (mid + 1) b d5 := by
                right
                intro k hk1 hk2
                rw [l1.frame k (Or.inr (by omega))]
                simp only [Nat.add_sub_cancel]
                rw [l1.frame mid (Or.inr (Nat.le_refl _))]
                exact t5 k (by omega) hk2
              obtain ⟨r1, r2⟩ := pdqsort_spec fuel d5 (mid + 1) b limit'
                (decide (mid - a ≥ (b - a) / 8)) ap (by omega) (by omega) (by omega) hbarR5
              generalize pdqsort fuel d5 (mid + 1) b limit' (decide (mid - a ≥ (b - a) / 8)) ap
                = d6 at r1 r2 ⊢
              refine ⟨((p1.trans t1).trans (l1.mono (Nat.le_refl _) (by omega))).trans
                (r1.mono (by omega) (Nat.le_refl _)), ?_⟩
              have hmid6 : nth d6 mid = nth d4 mid := by
                rw [r1.frame mid (Or.inl (by omega)), l1.frame mid (Or.inr (Nat.le_refl _))]
              refine sortedRange_glue ?_ r2 ?_ ?_
              · intro p q hp hpq hq
                rw [r1.frame p (Or.inl (by omega)), r1.frame q (Or.inl (by omega))]
                exact l2 p q hp hpq hq
              · intro p hp1 hp2
                rw [hmid6, r1.frame p (Or.inl (by omega))]
                exact nameLE_of_lt (l1.transfer (fun x => nameLT x (nth d4 mid)) t4 p hp1 hp2)
              · intro q hq1 hq2
                rw [hmid6]
                refine r1.transfer (fun x => nameLE (nth d4 mid) x) ?_ q (by omega) hq2
                intro k hk1 hk2
                rw [l1.frame k (Or.inr (by omega))]
                exact t5 k (by omega) hk2
            · rw [if_neg hside]
              obtain ⟨r1, r2⟩ := pdqsort_spec fuel d4 (mid + 1) b limit' true true (by omega)
                (by omega) (by omega) hbarR
              generalize pdqsort fuel d4 (mid + 1) b limit' true true = d5 at r1 r2 ⊢
              have hl5 : d5.length = d.length := by rw [r1.length_eq, hl4]
              have hbarL5 : Barrier a mid d5 := by
                rcases hbarL with h | h
                · exact Or.inl h
                · by_cases ha0 : a = 0
                  · exact Or.inl ha0
                  · right
                    intro k hk1 hk2
                    rw [r1.frame k (Or.inl (by omega)), r1.frame (a - 1) (Or.inl (by omega))]
                    exact h k hk1 hk2
              obtain ⟨l1, l2⟩ := pdqsort_spec fuel d5 a mid limit'
                (decide (b - mid ≥ (b - a) / 8)) ap t2 (by omega) (by omega) hbarL5
              generalize pdqsort fuel d5 a mid limit' (decide (b - mid ≥ (b - a) / 8)) ap
                = d6 at l1 l2 ⊢
              refine ⟨((p1.trans t1).trans (r1.mono (by omega) (Nat.le_refl _))).trans
                (l1.mono (Nat.le_refl _) (by omega)), ?_⟩
              have hmid6 : nth d6 mid = nth d4 mid := by
                rw [l1.frame mid (Or.inr (Nat.le_refl _)), r1.frame mid (Or.inl (by omega))]
              refine sortedRange_glue l2 ?_ ?_ ?_
              · intro p q hp hpq hq
                rw [l1.frame p (Or.inr (by omega)), l1.frame q (Or.inr (by omega))]
                exact r2 p q hp hpq hq
              · intro p hp1 hp2
                rw [hmid6]
                refine nameLE_of_lt (l1.transfer (fun x => nameLT x (nth d4 mid)) ?_ p hp1 hp2)
                intro k hk1 hk2
                rw [r1.frame k (Or.inl (by omega))]
                exact t4 k hk1 hk2
              · intro q hq1 hq2
                rw [hmid6, l1.frame q (Or.inr (by omega))]
                exact r1.transfer (fun x => nameLE (nth d4 mid) x)
                  (fun k hk1 hk2 => t5 k (by omega) hk2) q (by omega) hq2

theorem sortSort_reach (data : List Repository) :
    Reach 0 data.length data (sortSort data) ∧ SortedRange 0 data.length (sortSort data) := by
  unfold sortSort byRepoName.Len
  simp only []
  split
  · exact ⟨Reach.refl _, fun p q hp hpq hq => by omega⟩
  · exact pdqsort_spec (data.length + 1) data 0 data.length (bitsLen data.length) true true
      (Nat.zero_le _) (Nat.le_refl _) (by omega) (Or.inl rfl)

theorem sortSort_perm (data : List Repository) : (sortSort data).Perm data :=
  (sortSort_reach data).1.perm

theorem sortSort_sorted (data : List Repository) : List.Pairwise nameLE (sortSort data) := by
  have h := (sortSort_reach data).2
  have hl := (sortSort_reach data).1.length_eq
  rw [← hl] at h
  exact h.pairwise

/-! ## Running programs -/

theorem bind_run {σ α β : Type} (m : Prog σ α) (f : α → Prog σ β) (s : σ) :
    (m >>= f) s = Prog.bind m f s := rfl

theorem pure_run {σ α : Type} (a : α) (s : σ) :
    (Pure.pure a : Prog σ α) s = ⟨.ok a, s, []⟩ := rfl

theorem bind_ok {σ α β : Type} {m : Prog σ α} {f : α → Prog σ β} {s s1 : σ} {a : α}
    {t1 : List Event} (h : m s = ⟨.ok a, s1, t1⟩) :
    (m >>= f) s = ⟨(f a s1).outcome, (f a s1).api, t1 ++ (f a s1).trace⟩ := by
  simp [bind_run, Prog.bind, h]

theorem bind_exit {σ α β : Type} {m : Prog σ α} {f : α → Prog σ β} {s s1 : σ} {c : Int}
    {t1 : List Event} (h : m s = ⟨.exit c, s1, t1⟩) :
    (m >>= f) s = ⟨.exit c, s1, t1⟩ := by
  simp [bind_run, Prog.bind, h]

theorem bind_timeout {σ α β : Type} {m : Prog σ α} {f : α → Prog σ β} {s s1 : σ}
    {t1 : List Event} (h : m s = ⟨.timeout, s1, t1⟩) :
    (m >>= f) s = ⟨.timeout, s1, t1⟩ := by
  simp [bind_run, Prog.bind, h]

/-! ## The pagination loop against a script -/

theorem call_scripted (org : String) (opts : RepositoryListByOrgOptions)
    (r : Except String (List Repository × Response))
    (rest : List (Except String (List Repository × Response))) :
    callRepositoriesListByOrg scriptedClient org opts (r :: rest)
      = ⟨.ok r, rest, [.call (.RepositoriesListByOrg org opts) (errorOf r)]⟩ := rfl

theorem loop_scripted (org : String) : ∀ (pages : List (List Repository × Response))
    (fuel : Nat) (opts : RepositoryListByOrgOptions) (acc : List Repository),
    isPagination pages = true → pages.length ≤ fuel →
    ∃ t, getGithubRepositories.loop scriptedClient org fuel opts acc (pages.map .ok)
      = ⟨.ok (acc ++ pages.flatMap Prod.fst), [], t⟩
  | [], _, _, _, h, _ => by simp [isPagination] at h
  | [p], fuel, opts, acc, h, hf => by
    obtain ⟨fuel, rfl⟩ : ∃ n, fuel = n + 1 := ⟨fuel - 1, by simp at hf; omega⟩
    obtain ⟨out, resp⟩ := p
    have h0 : resp.NextPage = 0 := by simpa [isPagination] using h
    simp [getGithubRepositories.loop, bind_ok (call_scripted _ _ _ _), h0, pure_run]
  | p :: q :: rest, fuel, opts, acc, h, hf => by
    obtain ⟨fuel, rfl⟩ : ∃ n, fuel = n + 1 := ⟨fuel - 1, by simp at hf; omega⟩
    obtain ⟨out, resp⟩ := p
    have h0 : resp.NextPage ≠ 0 ∧ isPagination (q :: rest) = true := by
      simpa [isPagination] using h
    obtain ⟨t, ht⟩ := loop_scripted org (q :: rest) fuel
      ⟨⟨resp.NextPage, opts.ListOptions.PerPage⟩⟩ (acc ++ out) h0.2 (by simp at hf ⊢; omega)
    simp only [List.map_cons] at ht
    simp [getGithubRepositories.loop, bind_ok (call_scripted _ _ _ _), h0.1, ht]

theorem getGithubRepositories_scripted (org : String) (pages : List (List Repository × Response))
    (fuel : Nat) (h : isPagination pages = true) (hf : pages.length ≤ fuel) :
    (getGithubRepositories fuel scriptedClient org (pages.map .ok)).outcome
      = .ok (sortSort (pages.flatMap Prod.fst)) := by
  obtain ⟨t, ht⟩ := loop_scripted org pages fuel ⟨⟨0, 100⟩⟩ [] h hf
  simp [getGithubRepositories, bind_ok ht, pure_run]

/-! ## The pagination loop against an endpoint that is a function of the page number -/

theorem call_repos_stateless
    (repos : String → RepositoryListByOrgOptions → Except String (List Repository × Response))
    (prs : String → String → Except String (List PullRequest))
    (revs : String → String → Int → Except String Reviewers)
    (org : String) (opts : RepositoryListByOrgOptions) (s : Unit) :
    callRepositoriesListByOrg (statelessClient repos prs revs) org opts s
      = ⟨.ok (repos org opts), s, [.call (.RepositoriesListByOrg org opts) (errorOf (repos org opts))]⟩ :=
  rfl

theorem loop_paged (f : Int → List Repository × Response)
    (prs : String → String → List PullRequest) (revs : String → String → Int → Reviewers)
    (org : String) : ∀ (d k fuel : Nat) (acc : List Repository),
    (f (pageAt f (k + d))).2.NextPage = 0 →
    (∀ j, j < d → (f (pageAt f (k + j))).2.NextPage ≠ 0) → d + 1 ≤ fuel →
    ∃ l, getGithubRepositories.loop
        (successfulClient (fun _ opts => f opts.ListOptions.Page) prs revs) org fuel
        ⟨⟨pageAt f k, 100⟩⟩ acc ()
      = ⟨.ok l, (), (List.range (d + 1)).map
          (fun j => Event.call (.RepositoriesListByOrg org ⟨⟨pageAt f (k + j), 100⟩⟩) none)⟩
  | 0, k, fuel, acc, h0, _, hf => by
    obtain ⟨fuel, rfl⟩ : ∃ n, fuel = n + 1 := ⟨fuel - 1, by omega⟩
    have h0 : (f (pageAt f k)).2.NextPage = 0 := by simpa using h0
    refine ⟨acc ++ (f (pageAt f k)).1, ?_⟩
    simp [getGithubRepositories.loop, successfulClient,
      bind_ok (call_repos_stateless _ _ _ _ _ _), h0, pure_run, errorOf,
      List.range_succ_eq_map]
  | d + 1, k, fuel, acc, h0, hmore, hf => by
    obtain ⟨fuel, rfl⟩ : ∃ n, fuel = n + 1 := ⟨fuel - 1, by omega⟩
    have hk : (f (pageAt f k)).2.NextPage ≠ 0 := by simpa using hmore 0 (by omega)
    obtain ⟨l, hl⟩ := loop_paged f prs revs org d (k + 1) fuel (acc ++ (f (pageAt f k)).1)
      (by simpa [Nat.add_assoc, Nat.add_comm 1 d] using h0)
      (fun j hj => by simpa [Nat.add_assoc, Nat.add_comm 1 j] using hmore (j + 1) (by omega))
      (by omega)
    refine ⟨l, ?_⟩
    have hpage : pageAt f (k + 1) = (f (pageAt f k)).2.NextPage := rfl
    rw [hpage] at hl
    simp only [successfulClient] at hl
    rw [List.range_succ_eq_map]
    simp [getGithubRepositories.loop, successfulClient,
      bind_ok (call_repos_stateless _ _ _ _ _ _), hk, hl, errorOf, Function.comp_def,
      Nat.add_assoc, Nat.add_comm 1]

/-! ## One pull request -/

theorem reviewers_run {σ : Type} (basePipe userPipe assignee : String) (Users : List User)
    (s : σ) : ∀ (rest : List User) (k : Nat) (ownerPipe : String),
    k + rest.length = Users.length → (rest ≠ [] → ownerPipe = "├") →
    ∃ p, printPullRequests.reviewers basePipe userPipe assignee Users k rest ownerPipe s
      = ⟨.ok p, s, (reviewerLines basePipe userPipe assignee Users.length k rest).map Event.log⟩
  | [], k, ownerPipe, _, _ => ⟨ownerPipe, rfl⟩
  | r :: rest, k, ownerPipe, hk, hp => by
    have hpipe : ownerPipe = "├" := hp (by simp)
    have hcond : ((k : Int) == (Users.length : Int) - 1) = decide (k + 1 = Users.length) := by
      by_cases h : k + 1 = Users.length
      · simp [h]; omega
      · simp [h]; omega
    by_cases hlast : assignee = "" ∧ k + 1 = Users.length
    · have hrest : rest = [] := by
        have : rest.length = 0 := by simp at hk; omega
        exact List.length_eq_zero.mp this
      subst hrest
      refine ⟨"└", ?_⟩
      simp [printPullRequests.reviewers, reviewerLines, hcond, hlast, logPrintf, bind_run,
        Prog.bind, pure_run, Prog.pure]
    · obtain ⟨p, hrun⟩ := reviewers_run basePipe userPipe assignee Users s rest (k + 1) "├"
        (by simp at hk ⊢; omega) (fun _ => rfl)
      refine ⟨p, ?_⟩
      have hc2 : (assignee == "" && decide (k + 1 = Users.length)) = false := by
        by_cases ha : assignee = ""
        · have : ¬ k + 1 = Users.length := fun h => hlast ⟨ha, h⟩
          simp [this]
        · simp [ha]
      simp [printPullRequests.reviewers, reviewerLines, hcond, hc2, hlast, hpipe, logPrintf,
        bind_run, Prog.bind, hrun]

theorem call_reviewers_ok {σ : Type} {client : Client σ} {org repo : String} {number : Int}
    {s s1 : σ} {r : Except String Reviewers}
    (h : client.PullRequestsListReviewers org repo number s = (r, s1)) :
    callPullRequestsListReviewers client org repo number s
      = ⟨.ok r, s1, [.call (.PullRequestsListReviewers org repo number) (errorOf r)]⟩ := by
  simp [callPullRequestsListReviewers, h]

theorem int_last_iff (j n : Nat) : ((j : Int) == (n : Int) - 1) = decide (j + 1 = n) := by
  by_cases h : j + 1 = n
  · simp [h]; omega
  · simp [h]; omega

theorem pullRequest_run {σ : Type} (client : Client σ) (org : String) (repository : Repository)
    (basePipe : String) (pullRequests : List PullRequest) (j : Nat) (pullRequest : PullRequest)
    (s s1 : σ) (reviewers : Reviewers)
    (h : client.PullRequestsListReviewers org repository.GetName pullRequest.GetNumber s
      = (.ok reviewers, s1)) :
    printPullRequests.pullRequest client org repository basePipe pullRequests j pullRequest s
      = ⟨.ok (), s1,
          .call (.PullRequestsListReviewers org repository.GetName pullRequest.GetNumber) none
            :: (pullRequestLines basePipe (decide (j + 1 = pullRequests.length)) pullRequest
                reviewers).map Event.log⟩ := by
  obtain ⟨p, hrev⟩ := reviewers_run basePipe
    (if decide (j + 1 = pullRequests.length) = true then " " else "│")
    (GetLogin pullRequest.GetAssignee) reviewers.Users s1 reviewers.Users 0
    (if (GetLogin pullRequest.GetAssignee == "" && reviewers.Users.length == 0) = true
      then "└" else "├") (by simp)
    (by
      intro hne
      have : reviewers.Users.length ≠ 0 := fun h0 => hne (List.length_eq_zero.mp h0)
      simp [this])
  unfold printPullRequests.pullRequest
  rw [bind_ok (call_reviewers_ok h)]
  simp only [int_last_iff]
  by_cases ho : GetLogin pullRequest.GetUser = "" <;>
  by_cases ha : GetLogin pullRequest.GetAssignee = "" <;>
  simp [ho, ha, pullRequestLines, logPrintf, bind_run, Prog.bind, pure_run, Prog.pure,
    hrev, errorOf] <;> simp [ho, ha] at hrev <;> simp [hrev]

/-! ## The lines of one pull request, in the words of the specification -/

theorem specUserLines_append (basePipe userPipe : String) :
    ∀ (A B : List String), B ≠ [] →
    specUserLines basePipe userPipe (A ++ B)
      = A.map (specUserLine basePipe userPipe "├") ++ specUserLines basePipe userPipe B
  | [], _, _ => rfl
  | [e], f :: B, _ => by simp [specUserLines]
  | e :: f :: A, B, h => by
    have ih := specUserLines_append basePipe userPipe (f :: A) B h
    simp only [List.cons_append] at ih
    simp [specUserLines, ih]

theorem specUserLines_length (basePipe userPipe : String) :
    ∀ entries : List String, (specUserLines basePipe userPipe entries).length = entries.length
  | [] => rfl
  | [_] => rfl
  | _ :: f :: rest => by
    simp [specUserLines, specUserLines_length basePipe userPipe (f :: rest)]

theorem reviewer_line (basePipe userPipe glyph login : String) (k : Nat) :
    basePipe ++ " " ++ userPipe ++ " " ++ glyph ++ " Reviewer " ++ toString k ++ ": " ++ login
        ++ "\n"
      = specUserLine basePipe userPipe glyph ("Reviewer " ++ toString k ++ ": " ++ login) := by
  have h : ∀ X : String, " Reviewer " ++ X = " " ++ ("Reviewer " ++ X) := fun X => by
    rw [← String.append_assoc]; rfl
  simp only [specUserLine, String.append_assoc, h]

theorem owner_line (basePipe userPipe glyph login : String) :
    basePipe ++ " " ++ userPipe ++ " " ++ glyph ++ " Owner: " ++ login ++ "\n"
      = specUserLine basePipe userPipe glyph ("Owner: " ++ login) := by
  have h : ∀ X : String, " Owner: " ++ X = " " ++ ("Owner: " ++ X) := fun X => by
    rw [← String.append_assoc]; rfl
  simp only [specUserLine, String.append_assoc, h]

theorem assignee_line (basePipe userPipe login : String) :
    basePipe ++ " " ++ userPipe ++ " └ Assignee: " ++ login ++ "\n"
      = specUserLine basePipe userPipe "└" ("Assignee: " ++ login) := by
  have h : ∀ X : String, " └ Assignee: " ++ X = " " ++ ("└" ++ (" " ++ ("Assignee: " ++ X))) :=
    fun X => by
      rw [← String.append_assoc "└", ← String.append_assoc " ", ← String.append_assoc]; rfl
  simp only [specUserLine, String.append_assoc, h]

theorem reviewerLines_assignee (basePipe userPipe assignee : String) (n : Nat)
    (ha : assignee ≠ "") : ∀ (rest : List User) (k : Nat),
    reviewerLines basePipe userPipe assignee n k rest
      = ((List.enumFrom (k + 1) (rest.map (fun u => GetLogin (some u)))).map reviewerEntry).map
          (specUserLine basePipe userPipe "├")
  | [], _ => rfl
  | r :: rest, k => by
    simp [reviewerLines, ha, reviewerLines_assignee basePipe userPipe assignee n ha rest (k + 1),
      reviewer_line, reviewerEntry]

theorem reviewerLines_last (basePipe userPipe : String) (n : Nat) :
    ∀ (rest : List User) (k : Nat), k + rest.length = n →
    reviewerLines basePipe userPipe "" n k rest
      = specUserLines basePipe userPipe
          ((List.enumFrom (k + 1) (rest.map (fun u => GetLogin (some u)))).map reviewerEntry)
  | [], _, _ => rfl
  | [r], k, h => by
    have hk : k + 1 = n := by simpa using h
    simp [reviewerLines, hk, specUserLines, reviewer_line, reviewerEntry]
  | r :: r2 :: rest, k, h => by
    have hk : ¬ k + 1 = n := by simp at h; omega
    have ih := reviewerLines_last basePipe userPipe n (r2 :: rest) (k + 1)
      (by simp at h ⊢; omega)
    rw [reviewerLines, ih]
    simp [hk, specUserLines, reviewer_line, reviewerEntry]

theorem pullRequestLines_eq_spec (basePipe : String) (last : Bool) (pullRequest : PullRequest)
    (reviewers : Reviewers) :
    pullRequestLines basePipe last pullRequest reviewers
      = specPullRequestBlock basePipe last pullRequest reviewers := by
  have hentry : (fun kr : Nat × String => "Reviewer " ++ toString kr.1 ++ ": " ++ kr.2)
      = reviewerEntry := rfl
  unfold pullRequestLines specPullRequestBlock specEntries specTitleLine
  rw [hentry]
  simp only [List.singleton_append, List.cons_append, List.nil_append, List.append_assoc]
  congr 1
  by_cases ha : GetLogin pullRequest.GetAssignee = ""
  · simp only [ha, List.append_nil, if_true, true_and]
    rw [reviewerLines_last basePipe _ reviewers.Users.length reviewers.Users 0 (by simp)]
    by_cases hn : reviewers.Users = []
    · by_cases ho : GetLogin pullRequest.GetUser = ""
      · simp [hn, ho, specUserLines]
      · simp [hn, ho, specUserLines, owner_line]
    · have hn2 : ¬ reviewers.Users.length = 0 := fun h => hn (List.length_eq_zero.mp h)
      have hne : (List.enumFrom (0 + 1) (reviewers.Users.map (fun u => GetLogin (some u)))).map
          reviewerEntry ≠ [] := by
        cases hU : reviewers.Users with
        | nil => exact absurd hU hn
        | cons u us => simp
      rw [specUserLines_append _ _ _ _ hne]
      by_cases ho : GetLogin pullRequest.GetUser = ""
      · simp [ho]
      · simp [ho, hn2, owner_line]
  · simp only [ha, if_false, false_and]
    rw [reviewerLines_assignee _ _ _ _ ha, specUserLines_append _ _ _ (_ ++ [_]) (by simp),
      specUserLines_append _ _ _ [_] (by simp)]
    by_cases ho : GetLogin pullRequest.GetUser = ""
    · simp [ho, specUserLines, assignee_line]
    · simp [ho, specUserLines, assignee_line, owner_line]

/-! ## The whole output against a stateless client whose answers are all successful -/

theorem logsOf_append : ∀ (t u : List Event), logsOf (t ++ u) = logsOf t ++ logsOf u
  | [], _ => rfl
  | .log _ :: t, u => by simp [logsOf, logsOf_append t u]
  | .call _ _ :: t, u => by simp [logsOf, logsOf_append t u]

theorem logsOf_map_log : ∀ l : List String, logsOf (l.map Event.log) = l
  | [] => rfl
  | x :: l => by simp [logsOf, logsOf_map_log l]

theorem pullRequests_successful
    (repos : String → RepositoryListByOrgOptions → List Repository × Response)
    (prs : String → String → List PullRequest) (revs : String → String → Int → Reviewers)
    (org : String) (repository : Repository) (basePipe : String)
    (pullRequests : List PullRequest) : ∀ (rest : List PullRequest) (j : Nat),
    ∃ t, printPullRequests.pullRequests (successfulClient repos prs revs) org repository basePipe
        pullRequests j rest () = ⟨.ok (), (), t⟩
      ∧ logsOf t = (List.enumFrom j rest).flatMap (fun jp =>
          specPullRequestBlock basePipe (decide (jp.1 + 1 = pullRequests.length)) jp.2
            (revs org repository.GetName jp.2.GetNumber))
  | [], _ => ⟨[], rfl, rfl⟩
  | p :: rest, j => by
    obtain ⟨t, ht, hlogs⟩ := pullRequests_successful repos prs revs org repository basePipe
      pullRequests rest (j + 1)
    have hrun := pullRequest_run (successfulClient repos prs revs) org repository basePipe
      pullRequests j p () () (revs org repository.GetName p.GetNumber) rfl
    rw [pullRequestLines_eq_spec] at hrun
    refine ⟨(Event.call (.PullRequestsListReviewers org repository.GetName p.GetNumber) none
      :: (specPullRequestBlock basePipe (decide (j + 1 = pullRequests.length)) p
          (revs org repository.GetName p.GetNumber)).map Event.log) ++ t, ?_, ?_⟩
    · rw [printPullRequests.pullRequests, bind_ok hrun, ht]
    · rw [logsOf_append, hlogs, logsOf, logsOf_map_log, List.enumFrom_cons, List.flatMap_cons]

theorem call_pulls_ok {σ : Type} {client : Client σ} {org repo : String}
    {s s1 : σ} {r : Except String (List PullRequest)}
    (h : client.PullRequestsList org repo s = (r, s1)) :
    callPullRequestsList client org repo s
      = ⟨.ok r, s1, [.call (.PullRequestsList org repo) (errorOf r)]⟩ := by
  simp [callPullRequestsList, h]

theorem repository_successful
    (repos : String → RepositoryListByOrgOptions → List Repository × Response)
    (prs : String → String → List PullRequest) (revs : String → String → Int → Reviewers)
    (org : String) (repositories : List Repository) (i : Nat) (repository : Repository) :
    ∃ t, printPullRequests.repository (successfulClient repos prs revs) org repositories i
        repository () = ⟨.ok (), (), t⟩
      ∧ logsOf t = specRepositoryBlock (decide (i + 1 = repositories.length)) repository.GetName
          (prs org repository.GetName) (fun p => revs org repository.GetName p.GetNumber) := by
  have hcall : (successfulClient repos prs revs).PullRequestsList org repository.GetName ()
      = (.ok (prs org repository.GetName), ()) := rfl
  unfold printPullRequests.repository
  rw [bind_ok (call_pulls_ok hcall)]
  simp only [int_last_iff]
  cases hp : prs org repository.GetName with
  | nil => exact ⟨[Event.call (.PullRequestsList org repository.GetName) none], rfl, rfl⟩
  | cons p rest =>
    obtain ⟨t, ht, hlogs⟩ := pullRequests_successful repos prs revs org repository
      (if decide (i + 1 = repositories.length) = true then " " else "│") (p :: rest)
      (p :: rest) 0
    simp only [decide_eq_true_eq] at ht
    refine ⟨Event.call (.PullRequestsList org repository.GetName) none
      :: Event.log ((if decide (i + 1 = repositories.length) = true then "└" else "├") ++ " "
          ++ repository.GetName ++ ":\n") :: t, ?_, ?_⟩
    · simp [logPrintf, bind_run, Prog.bind, ht, errorOf]
    · simp [logsOf, logsOf_append, hlogs, specRepositoryBlock, specHeaderLine, errorOf]

theorem repositories_successful
    (repos : String → RepositoryListByOrgOptions → List Repository × Response)
    (prs : String → String → List PullRequest) (revs : String → String → Int → Reviewers)
    (org : String) (repositories : List Repository) : ∀ (rest : List Repository) (i : Nat),
    ∃ t, printPullRequests.repositories (successfulClient repos prs revs) org repositories i
        rest () = ⟨.ok (), (), t⟩
      ∧ logsOf t = (List.enumFrom i rest).flatMap (fun ir =>
          specRepositoryBlock (decide (ir.1 + 1 = repositories.length)) ir.2.GetName
            (prs org ir.2.GetName) (fun p => revs org ir.2.GetName p.GetNumber))
  | [], _ => ⟨[], rfl, rfl⟩
  | r :: rest, i => by
    obtain ⟨t, ht, hlogs⟩ := repositories_successful repos prs revs org repositories rest (i + 1)
    obtain ⟨u, hu, hulogs⟩ := repository_successful repos prs revs org repositories i r
    refine ⟨u ++ t, ?_, ?_⟩
    · rw [printPullRequests.repositories, bind_ok hu, ht]
    · simp [logsOf_append, hlogs, hulogs]

/-! ## Fail-fast runs -/

theorem noFailure_append (t u : List Event) :
    noFailure (t ++ u) = (noFailure t && noFailure u) := by
  simp [noFailure]

theorem failFast_clean_of_ok {σ α : Type} {r : Run σ α} {a : α} (h : r.FailFast)
    (ho : r.outcome = .ok a) : noFailure r.trace = true := by
  rcases h with h | ⟨h, -⟩
  · exact h
  · rw [ho] at h; cases h

theorem failFast_bind {σ α β : Type} {m : Prog σ α} {f : α → Prog σ β}
    (hm : m.FailFast) (hf : ∀ a, (f a).FailFast) : (m >>= f).FailFast := by
  intro s
  have h1 := hm s
  rcases hr : m s with ⟨o, s1, t1⟩
  rw [hr] at h1
  cases o with
  | ok a =>
    rw [bind_ok hr]
    have hclean : noFailure t1 = true := failFast_clean_of_ok h1 rfl
    rcases hf a s1 with h2 | ⟨h2, pre, c, msg, h3, h4⟩
    · left
      simp only [noFailure_append, hclean, h2, Bool.and_self]
    · right
      refine ⟨h2, t1 ++ pre, c, msg, ?_, ?_⟩
      · simp only [h3, List.append_assoc]
      · simp only [noFailure_append, hclean, h4, Bool.and_self]
  | exit c =>
    rw [bind_exit hr]
    rcases h1 with h1 | ⟨h1, h2⟩
    · exact Or.inl h1
    · have hc : c = 1 := by simpa using h1
      subst hc
      exact Or.inr ⟨rfl, h2⟩
  | timeout =>
    rw [bind_timeout hr]
    rcases h1 with h1 | ⟨h1, -⟩
    · exact Or.inl h1
    · cases h1

theorem failFast_pure {σ α : Type} (a : α) : (Pure.pure a : Prog σ α).FailFast :=
  fun _ => Or.inl rfl

theorem failFast_logPrintf {σ : Type} (line : String) :
    (PR.logPrintf line : Prog σ Unit).FailFast :=
  fun _ => Or.inl rfl

theorem failFast_osExit {σ α : Type} (code : Int) :
    (PR.osExit code : Prog σ α).FailFast :=
  fun _ => Or.inl rfl

theorem failFast_timeout {σ α : Type} : (Prog.timeout : Prog σ α).FailFast :=
  fun _ => Or.inl rfl

/-- A request whose error is checked on the spot, as at the three call sites. -/
theorem failFast_checked {σ α β : Type} {m : Prog σ (Except String α)}
    {k : Except String α → Prog σ β} {c : Call}
    (hm : ∀ s, ∃ r s1, m s = ⟨.ok r, s1, [Event.call c (errorOf r)]⟩)
    (herr : ∀ e, k (.error e) = logFatalf (errorLine e))
    (hok : ∀ v, (k (.ok v)).FailFast) : (m >>= k).FailFast := by
  intro s
  obtain ⟨r, s1, hr⟩ := hm s
  rw [bind_ok hr]
  cases r with
  | error e =>
    right
    rw [herr e]
    exact ⟨rfl, [], c, e, rfl, rfl⟩
  | ok v =>
    rcases hok v s1 with h2 | ⟨h2, pre, c2, msg, h3, h4⟩
    · left
      simpa [noFailure, errorOf, Event.isFailure] using h2
    · right
      refine ⟨h2, Event.call c (errorOf (.ok v)) :: pre, c2, msg, ?_, ?_⟩
      · simp [h3]
      · simpa [noFailure, errorOf, Event.isFailure] using h4

theorem callRepositoriesListByOrg_run {σ : Type} (client : Client σ) (org : String)
    (opts : RepositoryListByOrgOptions) (s : σ) :
    ∃ r s1, callRepositoriesListByOrg client org opts s
      = ⟨.ok r, s1, [Event.call (.RepositoriesListByOrg org opts) (errorOf r)]⟩ :=
  ⟨(client.RepositoriesListByOrg org opts s).1, (client.RepositoriesListByOrg org opts s).2, rfl⟩

theorem callPullRequestsList_run {σ : Type} (client : Client σ) (org repo : String) (s : σ) :
    ∃ r s1, callPullRequestsList client org repo s
      = ⟨.ok r, s1, [Event.call (.PullRequestsList org repo) (errorOf r)]⟩ :=
  ⟨(client.PullRequestsList org repo s).1, (client.PullRequestsList org repo s).2, rfl⟩

theorem callPullRequestsListReviewers_run {σ : Type} (client : Client σ) (org repo : String)
    (number : Int) (s : σ) :
    ∃ r s1, callPullRequestsListReviewers client org repo number s
      = ⟨.ok r, s1, [Event.call (.PullRequestsListReviewers org repo number) (errorOf r)]⟩ :=
  ⟨(client.PullRequestsListReviewers org repo number s).1,
    (client.PullRequestsListReviewers org repo number s).2, rfl⟩

theorem loop_failFast {σ : Type} (client : Client σ) (org : String) :
    ∀ (fuel : Nat) (opts : RepositoryListByOrgOptions) (acc : List Repository),
    (getGithubRepositories.loop client org fuel opts acc).FailFast
  | 0, _, _ => failFast_timeout
  | fuel + 1, opts, acc => by
    unfold getGithubRepositories.loop
    refine failFast_checked (callRepositoriesListByOrg_run client org opts)
      (fun e => rfl) ?_
    rintro ⟨out, resp⟩
    simp only []
    split
    · exact failFast_pure _
    · exact loop_failFast client org fuel _ _

theorem getGithubRepositories_failFast {σ : Type} (fuel : Nat) (client : Client σ)
    (org : String) : (getGithubRepositories fuel client org).FailFast :=
  failFast_bind (loop_failFast client org fuel _ _) (fun _ => failFast_pure _)

theorem reviewers_failFast {σ : Type} (basePipe userPipe assignee : String)
    (Users : List User) : ∀ (rest : List User) (k : Nat) (ownerPipe : String),
    (printPullRequests.reviewers basePipe userPipe assignee Users k rest ownerPipe
      : Prog σ String).FailFast
  | [], _, _ => failFast_pure _
  | _ :: rest, k, _ => by
    unfold printPullRequests.reviewers
    exact failFast_bind (failFast_logPrintf _)
      (fun _ => reviewers_failFast basePipe userPipe assignee Users rest (k + 1) _)

theorem pullRequest_failFast {σ : Type} (client : Client σ) (org : String)
    (repository : Repository) (basePipe : String) (pullRequests : List PullRequest)
    (j : Nat) (pullRequest : PullRequest) :
    (printPullRequests.pullRequest client org repository basePipe pullRequests j
      pullRequest).FailFast := by
  unfold printPullRequests.pullRequest
  refine failFast_checked (callPullRequestsListReviewers_run client org _ _)
    (fun e => rfl) ?_
  intro reviewers
  simp only []
  have htail : ∀ (m : Prog σ Unit), m.FailFast → ∀ (userPipe ownerPipe line : String),
      (do
        m
        let _ ← printPullRequests.reviewers basePipe userPipe (GetLogin pullRequest.GetAssignee)
          reviewers.Users 0 reviewers.Users ownerPipe
        if (GetLogin pullRequest.GetAssignee != "") = true then logPrintf line
        else Pure.pure PUnit.unit : Prog σ Unit).FailFast := by
    intro m hm userPipe ownerPipe line
    refine failFast_bind hm (fun _ => ?_)
    refine failFast_bind (reviewers_failFast _ _ _ _ _ _ _) (fun _ => ?_)
    split
    · exact failFast_logPrintf _
    · exact failFast_pure _
  refine failFast_bind (failFast_logPrintf _) (fun _ => ?_)
  split
  · exact htail _ (failFast_logPrintf _) _ _ _
  · exact htail _ (failFast_pure _) _ _ _

theorem pullRequests_failFast {σ : Type} (client : Client σ) (org : String)
    (repository : Repository) (basePipe : String) (pullRequests : List PullRequest) :
    ∀ (rest : List PullRequest) (j : Nat),
    (printPullRequests.pullRequests client org repository basePipe pullRequests j
      rest).FailFast
  | [], _ => failFast_pure _
  | p :: rest, j => by
    unfold printPullRequests.pullRequests
    exact failFast_bind (pullRequest_failFast client org repository basePipe _ j p)
      (fun _ => pullRequests_failFast client org repository basePipe pullRequests rest (j + 1))

theorem repository_failFast {σ : Type} (client : Client σ) (org : String)
    (repositories : List Repository) (i : Nat) (repository : Repository) :
    (printPullRequests.repository client org repositories i repository).FailFast := by
  unfold printPullRequests.repository
  refine failFast_checked (callPullRequestsList_run client org _) (fun e => rfl) ?_
  intro pullRequests
  simp only []
  split
  · exact failFast_bind (failFast_logPrintf _)
      (fun _ => pullRequests_failFast client org repository _ _ _ _)
  · exact failFast_pure _

theorem repositories_failFast {σ : Type} (client : Client σ) (org : String)
    (repositories : List Repository) : ∀ (rest : List Repository) (i : Nat),
    (printPullRequests.repositories client org repositories i rest).FailFast
  | [], _ => failFast_pure _
  | r :: rest, i => by
    unfold printPullRequests.repositories
    exact failFast_bind (repository_failFast client org repositories i r)
      (fun _ => repositories_failFast client org repositories rest (i + 1))

theorem printPullRequests_failFast {σ : Type} (client : Client σ) (org : String)
    (repositories : List Repository) : (printPullRequests client org repositories).FailFast :=
  repositories_failFast client org repositories repositories 0

theorem main_failFast {σ : Type} (fuel : Nat) (NewClient : String → Client σ)
    (osArgs : List String) (osGetenv : String → String) :
    (main fuel NewClient osArgs osGetenv).FailFast := by
  unfold main
  split
  · exact failFast_osExit _
  · simp only []
    split
    · exact failFast_osExit _
    · split
      · exact failFast_osExit _
      · simp only [setupClient]
        exact failFast_bind (getGithubRepositories_failFast fuel _ _)
          (fun _ => printPullRequests_failFast _ _ _)

/-! ## Where the lines of a failing run come from -/

theorem loop_listerShape {σ : Type} (client : Client σ) (org : String) :
    ∀ (fuel : Nat) (opts : RepositoryListByOrgOptions) (acc : List Repository) (s : σ),
    (getGithubRepositories.loop client org fuel opts acc s).ListerShape
  | 0, _, _, _ => Or.inl rfl
  | fuel + 1, opts, acc, s => by
    obtain ⟨r, s1, hr⟩ := callRepositoriesListByOrg_run client org opts s
    unfold getGithubRepositories.loop
    rw [bind_ok hr]
    cases r with
    | error e => exact Or.inr ⟨rfl, [], _, e, rfl, rfl⟩
    | ok v =>
      obtain ⟨out, resp⟩ := v
      simp only []
      split
      · exact Or.inl rfl
      · rcases loop_listerShape client org fuel
          ⟨⟨resp.NextPage, opts.ListOptions.PerPage⟩⟩ (acc ++ out) s1 with h | ⟨h, pre, c, msg, h2, h3⟩
        · left
          simpa [errorOf, Event.isRepositoriesAnswer] using h
        · right
          refine ⟨h, Event.call (.RepositoriesListByOrg org opts) none :: pre, c, msg, ?_, ?_⟩
          · simp [h2, errorOf]
          · simpa [Event.isRepositoriesAnswer] using h3

theorem getGithubRepositories_listerShape {σ : Type} (fuel : Nat) (client : Client σ)
    (org : String) (s : σ) : (getGithubRepositories fuel client org s).ListerShape := by
  have h := loop_listerShape client org fuel ⟨⟨0, 100⟩⟩ [] s
  unfold getGithubRepositories
  rcases hr : getGithubRepositories.loop client org fuel ⟨⟨0, 100⟩⟩ [] s with ⟨o, s1, t1⟩
  rw [hr] at h
  cases o with
  | ok a =>
    rw [bind_ok hr]
    rcases h with h | ⟨h, -⟩
    · left
      simpa [pure_run] using h
    · cases h
  | exit c =>
    rw [bind_exit hr]
    rcases h with h | ⟨h, h2⟩
    · exact Or.inl h
    · have hc : c = 1 := by simpa using h
      subst hc
      exact Or.inr ⟨rfl, h2⟩
  | timeout =>
    rw [bind_timeout hr]
    rcases h with h | ⟨h, -⟩
    · exact Or.inl h
    · cases h

theorem noRepositoriesCall_bind {σ α β : Type} {m : Prog σ α} {f : α → Prog σ β}
    (hm : m.NoRepositoriesCall) (hf : ∀ a, (f a).NoRepositoriesCall) :
    (m >>= f).NoRepositoriesCall := by
  intro s
  have h1 := hm s
  rcases hr : m s with ⟨o, s1, t1⟩
  rw [hr] at h1
  cases o with
  | ok a =>
    rw [bind_ok hr]
    have h2 := hf a s1
    simp only [List.all_append, Bool.and_eq_true]
    exact ⟨h1, h2⟩
  | exit c => rw [bind_exit hr]; exact h1
  | timeout => rw [bind_timeout hr]; exact h1

theorem noRepositoriesCall_pure {σ α : Type} (a : α) :
    (Pure.pure a : Prog σ α).NoRepositoriesCall :=
  fun _ => rfl

theorem noRepositoriesCall_logPrintf {σ : Type} (line : String) :
    (PR.logPrintf line : Prog σ Unit).NoRepositoriesCall :=
  fun _ => rfl

theorem noRepositoriesCall_logFatalf {σ α : Type} (line : String) :
    (PR.logFatalf line : Prog σ α).NoRepositoriesCall :=
  fun _ => rfl

theorem reviewers_noRepositoriesCall {σ : Type} (basePipe userPipe assignee : String)
    (Users : List User) : ∀ (rest : List User) (k : Nat) (ownerPipe : String),
    (printPullRequests.reviewers basePipe userPipe assignee Users k rest ownerPipe
      : Prog σ String).NoRepositoriesCall
  | [], _, _ => noRepositoriesCall_pure _
  | _ :: rest, k, _ => by
    unfold printPullRequests.reviewers
    exact noRepositoriesCall_bind (noRepositoriesCall_logPrintf _)
      (fun _ => reviewers_noRepositoriesCall basePipe userPipe assignee Users rest (k + 1) _)

theorem pullRequest_noRepositoriesCall {σ : Type} (client : Client σ) (org : String)
    (repository : Repository) (basePipe : String) (pullRequests : List PullRequest)
    (j : Nat) (pullRequest : PullRequest) :
    (printPullRequests.pullRequest client org repository basePipe pullRequests j
      pullRequest).NoRepositoriesCall := by
  unfold printPullRequests.pullRequest
  refine noRepositoriesCall_bind ?_ ?_
  · intro s
    obtain ⟨r, s1, hr⟩ := callPullRequestsListReviewers_run client org repository.GetName
      pullRequest.GetNumber s
    rw [hr]
    rfl
  rintro (e | reviewers)
  · exact noRepositoriesCall_logFatalf _
  simp only []
  have htail : ∀ (m : Prog σ Unit), m.NoRepositoriesCall → ∀ (userPipe ownerPipe line : String),
      (do
        m
        let _ ← printPullRequests.reviewers basePipe userPipe (GetLogin pullRequest.GetAssignee)
          reviewers.Users 0 reviewers.Users ownerPipe
        if (GetLogin pullRequest.GetAssignee != "") = true then logPrintf line
        else Pure.pure PUnit.unit : Prog σ Unit).NoRepositoriesCall := by
    intro m hm userPipe ownerPipe line
    refine noRepositoriesCall_bind hm (fun _ => ?_)
    refine noRepositoriesCall_bind (reviewers_noRepositoriesCall _ _ _ _ _ _ _) (fun _ => ?_)
    split
    · exact noRepositoriesCall_logPrintf _
    · exact noRepositoriesCall_pure _
  refine noRepositoriesCall_bind (noRepositoriesCall_logPrintf _) (fun _ => ?_)
  split
  · exact htail _ (noRepositoriesCall_logPrintf _) _ _ _
  · exact htail _ (noRepositoriesCall_pure _) _ _ _

theorem pullRequests_noRepositoriesCall {σ : Type} (client : Client σ) (org : String)
    (repository : Repository) (basePipe : String) (pullRequests : List PullRequest) :
    ∀ (rest : List PullRequest) (j : Nat),
    (printPullRequests.pullRequests client org repository basePipe pullRequests j
      rest).NoRepositoriesCall
  | [], _ => noRepositoriesCall_pure _
  | p :: rest, j => by
    unfold printPullRequests.pullRequests
    exact noRepositoriesCall_bind
      (pullRequest_noRepositoriesCall client org repository basePipe _ j p)
      (fun _ => pullRequests_noRepositoriesCall client org repository basePipe pullRequests
        rest (j + 1))

theorem repository_noRepositoriesCall {σ : Type} (client : Client σ) (org : String)
    (repositories : List Repository) (i : Nat) (repository : Repository) :
    (printPullRequests.repository client org repositories i repository).NoRepositoriesCall := by
  unfold printPullRequests.repository
  refine noRepositoriesCall_bind ?_ ?_
  · intro s
    obtain ⟨r, s1, hr⟩ := callPullRequestsList_run client org repository.GetName s
    rw [hr]
    rfl
  rintro (e | pullRequests)
  · exact noRepositoriesCall_logFatalf _
  simp only []
  split
  · exact noRepositoriesCall_bind (noRepositoriesCall_logPrintf _)
      (fun _ => pullRequests_noRepositoriesCall client org repository _ _ _ _)
  · exact noRepositoriesCall_pure _

theorem repositories_noRepositoriesCall {σ : Type} (client : Client σ) (org : String)
    (repositories : List Repository) : ∀ (rest : List Repository) (i : Nat),
    (printPullRequests.repositories client org repositories i rest).NoRepositoriesCall
  | [], _ => noRepositoriesCall_pure _
  | r :: rest, i => by
    unfold printPullRequests.repositories
    exact noRepositoriesCall_bind (repository_noRepositoriesCall client org repositories i r)
      (fun _ => repositories_noRepositoriesCall client org repositories rest (i + 1))

theorem printPullRequests_noRepositoriesCall {σ : Type} (client : Client σ) (org : String)
    (repositories : List Repository) :
    (printPullRequests client org repositories).NoRepositoriesCall :=
  repositories_noRepositoriesCall client org repositories repositories 0

/-! ## Helper facts for the main statements -/

theorem callsOf_map_call (c : Nat → Call) :
    ∀ l : List Nat, callsOf (l.map (fun j => Event.call (c j) none)) = l.map c
  | [] => rfl
  | x :: l => by simp [callsOf, callsOf_map_call c l]

theorem callsOf_append : ∀ (t u : List Event), callsOf (t ++ u) = callsOf t ++ callsOf u
  | [], _ => rfl
  | .log _ :: t, u => by simp [callsOf, callsOf_append t u]
  | .call _ _ :: t, u => by simp [callsOf, callsOf_append t u]

theorem specUserLines_getElem? (basePipe userPipe : String) :
    ∀ (entries : List String) (idx : Nat) (entry : String), entries[idx]? = some entry →
    (specUserLines basePipe userPipe entries)[idx]?
      = some (specUserLine basePipe userPipe
          (if idx + 1 = entries.length then "└" else "├") entry)
  | [], _, _, h => by simp at h
  | [e], 0, entry, h => by
    have : e = entry := by simpa using h
    simp [specUserLines, this]
  | [e], idx + 1, entry, h => by simp at h
  | e :: f :: rest, 0, entry, h => by
    have : e = entry := by simpa using h
    simp [specUserLines, this]
  | e :: f :: rest, idx + 1, entry, h => by
    have ih := specUserLines_getElem? basePipe userPipe (f :: rest) idx entry (by simpa using h)
    simpa [specUserLines] using ih

theorem main_run {σ : Type} (fuel : Nat) (NewClient : String → Client σ)
    (osArgs : List String) (osGetenv : String → String) (s : σ) :
    noFailure (main fuel NewClient osArgs osGetenv s).trace = true
      ∨ main fuel NewClient osArgs osGetenv s
          = ((getGithubRepositories fuel (NewClient (osGetenv "GITHUB_API_KEY"))
                (osArgs.getD 1 "")) >>= fun repositories =>
              printPullRequests (NewClient (osGetenv "GITHUB_API_KEY")) (osArgs.getD 1 "")
                repositories) s := by
  unfold main
  split
  · exact Or.inl rfl
  · simp only []
    split
    · exact Or.inl rfl
    · split
      · exact Or.inl rfl
      · exact Or.inr rfl

theorem not_mem_of_all_isRepositoriesAnswer {t : List Event} {c : Call} {msg : String}
    (h : t.all Event.isRepositoriesAnswer = true) : Event.call c (some msg) ∉ t := by
  intro hmem
  have := List.all_eq_true.mp h _ hmem
  cases c <;> simp [Event.isRepositoriesAnswer] at this

theorem logsOf_of_all_isRepositoriesAnswer : ∀ {t : List Event},
    t.all Event.isRepositoriesAnswer = true → logsOf t = []
  | [], _ => rfl
  | .log _ :: _, h => by simp [Event.isRepositoriesAnswer] at h
  | .call _ _ :: t, h => by
    have h2 : t.all Event.isRepositoriesAnswer = true := by
      simp only [List.all_cons, Bool.and_eq_true] at h
      exact h.2
    simpa [logsOf] using logsOf_of_all_isRepositoriesAnswer h2

/-- In a run of `main`, a failed repository-list request is preceded by no logged line. -/
theorem main_repositories_failure {σ : Type} (fuel : Nat) (NewClient : String → Client σ)
    (osArgs : List String) (osGetenv : String → String) (s : σ) (org : String)
    (opts : RepositoryListByOrgOptions) (msg : String)
    (hmem : Event.call (.RepositoriesListByOrg org opts) (some msg)
      ∈ (main fuel NewClient osArgs osGetenv s).trace) :
    logsOf (main fuel NewClient osArgs osGetenv s).trace = [errorLine msg] := by
  rcases main_run fuel NewClient osArgs osGetenv s with hclean | hrun
  · exfalso
    have := List.all_eq_true.mp hclean _ hmem
    simp [Event.isFailure] at this
  · rw [hrun] at hmem ⊢
    have hshape := getGithubRepositories_listerShape fuel (NewClient (osGetenv "GITHUB_API_KEY"))
      (osArgs.getD 1 "") s
    rcases hr : getGithubRepositories fuel (NewClient (osGetenv "GITHUB_API_KEY"))
      (osArgs.getD 1 "") s with ⟨o, s1, t1⟩
    rw [hr] at hshape
    have hfailed : ∀ (β : Type) (r : Run σ β), r.trace = t1 →
        ¬ t1.all Event.isRepositoriesAnswer = true →
        Event.call (.RepositoriesListByOrg org opts) (some msg) ∈ r.trace →
        logsOf r.trace = [errorLine msg] := by
      intro β r hrt hnot hm
      rcases hshape with h | ⟨-, pre, c, m2, h2, h3⟩
      · exact absurd h hnot
      · simp only [] at h2
        rw [hrt, h2] at hm ⊢
        have hm2 : Event.call (.RepositoriesListByOrg org opts) (some msg)
            = Event.call c (some m2) := by
          rcases List.mem_append.mp hm with h4 | h4
          · exact absurd h4 (not_mem_of_all_isRepositoriesAnswer h3)
          · simpa using h4
        have hmsg : msg = m2 := by
          injection hm2 with _ h5
          injection h5
        subst hmsg
        simp [logsOf_append, logsOf_of_all_isRepositoriesAnswer h3, logsOf]
    cases o with
    | ok a =>
      exfalso
      rw [bind_ok hr] at hmem
      have h1 : t1.all Event.isRepositoriesAnswer = true := by
        rcases hshape with h | ⟨h, -⟩
        · exact h
        · cases h
      have h2 := printPullRequests_noRepositoriesCall (NewClient (osGetenv "GITHUB_API_KEY"))
        (osArgs.getD 1 "") a s1
      rcases List.mem_append.mp hmem with h4 | h4
      · exact not_mem_of_all_isRepositoriesAnswer h1 h4
      · have := List.all_eq_true.mp h2 _ h4
        simp [Event.isRepositoriesCall] at this
    | exit c =>
      rw [bind_exit hr] at hmem ⊢
      refine hfailed _ _ rfl ?_ hmem
      intro h
      exact not_mem_of_all_isRepositoriesAnswer h hmem
    | timeout =>
      rw [bind_timeout hr] at hmem ⊢
      refine hfailed _ _ rfl ?_ hmem
      intro h
      exact not_mem_of_all_isRepositoriesAnswer h hmem

/-! ## The properties of the specification -/

/-- C1: for every finite sequence of successfully fetched pages (every page but the last
with a non-zero next-page indicator, the last with 0), `getGithubRepositories` returns a
list that is a permutation of the concatenation of the pages and that is sorted in
non-decreasing order of repository name under byte-wise comparison. -/
theorem getGithubRepositories_sorted_permutation (org : String)
    (pages : List (List Repository × Response)) (fuel : Nat)
    (hpages : isPagination pages = true) (hfuel : pages.length ≤ fuel) :
    ∃ l, (getGithubRepositories fuel scriptedClient org (pages.map .ok)).outcome = .ok l
      ∧ l.Perm (pages.flatMap Prod.fst) ∧ List.Pairwise nameLE l :=
  ⟨sortSort (pages.flatMap Prod.fst), getGithubRepositories_scripted org pages fuel hpages hfuel,
    sortSort_perm _, sortSort_sorted _⟩

/-- C1 at the pages `["beta"]` then `["alpha"]`, which give `["alpha", "beta"]`. -/
theorem getGithubRepositories_sorted_permutation_witness :
    isPagination twoPages = true ∧ twoPages.length ≤ 2
      ∧ (getGithubRepositories 2 scriptedClient "org" (twoPages.map .ok)).outcome
          = .ok [repoNamed "alpha", repoNamed "beta"]
      ∧ ∃ l, (getGithubRepositories 2 scriptedClient "org" (twoPages.map .ok)).outcome = .ok l
          ∧ l.Perm (twoPages.flatMap Prod.fst) ∧ List.Pairwise nameLE l :=
  ⟨by decide, by decide, by decide,
    getGithubRepositories_sorted_permutation "org" twoPages 2 (by decide) (by decide)⟩

/-- C2: among the Owner / Reviewer / Assignee lines printed for a pull request (the lines
after its title line), the line at position `idx` carries the terminal glyph if it is the
last of them and the non-terminal glyph otherwise; with the two cases of the
specification: owner alice, reviewers bob and carol, no assignee; owner alice, reviewer
bob, assignee dave. -/
theorem printPullRequests_user_glyphs {σ : Type} (client : Client σ) (org : String)
    (repository : Repository) (basePipe : String) (pullRequests : List PullRequest) (j : Nat)
    (pullRequest : PullRequest) (s s1 : σ) (reviewers : Reviewers)
    (h : client.PullRequestsListReviewers org repository.GetName pullRequest.GetNumber s
      = (.ok reviewers, s1)) :
    (∀ (idx : Nat) (entry : String),
      (specEntries (GetLogin pullRequest.GetUser)
        (reviewers.Users.map (fun u => GetLogin (some u)))
        (GetLogin pullRequest.GetAssignee))[idx]? = some entry →
      (logsOf (printPullRequests.pullRequest client org repository basePipe pullRequests j
        pullRequest s).trace).tail[idx]?
        = some (specUserLine basePipe (if j + 1 = pullRequests.length then " " else "│")
            (if idx + 1 = (specEntries (GetLogin pullRequest.GetUser)
                (reviewers.Users.map (fun u => GetLogin (some u)))
                (GetLogin pullRequest.GetAssignee)).length then "└" else "├") entry))
    ∧ (logsOf (printPullRequests.pullRequest client org repository basePipe pullRequests j
        pullRequest s).trace).tail.length
        = (specEntries (GetLogin pullRequest.GetUser)
            (reviewers.Users.map (fun u => GetLogin (some u)))
            (GetLogin pullRequest.GetAssignee)).length
    ∧ (logsOf (printPullRequests.pullRequest exampleClient "org" (repoNamed "a") "│"
        [pullRequestOne, pullRequestTwo] 0 pullRequestOne ()).trace).tail
        = ["│ │ ├ Owner: alice\n", "│ │ ├ Reviewer 1: bob\n", "│ │ └ Reviewer 2: carol\n"]
    ∧ (logsOf (printPullRequests.pullRequest exampleClient "org" (repoNamed "a") "│"
        [pullRequestOne, pullRequestTwo] 1 pullRequestTwo ()).trace).tail
        = ["│   ├ Owner: alice\n", "│   ├ Reviewer 1: bob\n", "│   └ Assignee: dave\n"] := by
  have hrun := pullRequest_run client org repository basePipe pullRequests j pullRequest s s1
    reviewers h
  rw [pullRequestLines_eq_spec] at hrun
  have htail : (logsOf (printPullRequests.pullRequest client org repository basePipe
      pullRequests j pullRequest s).trace).tail
      = specUserLines basePipe (if j + 1 = pullRequests.length then " " else "│")
          (specEntries (GetLogin pullRequest.GetUser)
            (reviewers.Users.map (fun u => GetLogin (some u)))
            (GetLogin pullRequest.GetAssignee)) := by
    rw [hrun]
    simp [logsOf, logsOf_map_log, specPullRequestBlock]
  refine ⟨?_, ?_, by decide, by decide⟩
  · intro idx entry hentry
    rw [htail]
    exact specUserLines_getElem? _ _ _ idx entry hentry
  · rw [htail, specUserLines_length]

/-- C2 at pull request 1 of the example service. -/
theorem printPullRequests_user_glyphs_witness :
    (logsOf (printPullRequests.pullRequest exampleClient "org" (repoNamed "a") "│"
        [pullRequestOne, pullRequestTwo] 0 pullRequestOne ()).trace).tail.length
      = (specEntries (GetLogin pullRequestOne.GetUser)
          (([userNamed "bob", userNamed "carol"] : List User).map (fun u => GetLogin (some u)))
          (GetLogin pullRequestOne.GetAssignee)).length :=
  (printPullRequests_user_glyphs exampleClient "org" (repoNamed "a") "│"
    [pullRequestOne, pullRequestTwo] 0 pullRequestOne () ()
    ⟨[userNamed "bob", userNamed "carol"], []⟩ rfl).2.1

/-- C3: the block printed for a pull request with title `t`, owner login `o`, fetched
reviewers `r_1 .. r_n` and assignee login `a` is, in this order: the title line; an Owner
line if and only if `o` is not empty; one Reviewer line per reviewer, in the order of the
answer and numbered from 1; an Assignee line if and only if `a` is not empty.  It has
`1 + [o ≠ ""] + n + [a ≠ ""]` lines, so only the title line when owner and assignee are
empty and there is no reviewer. -/
theorem printPullRequests_block {σ : Type} (client : Client σ) (org : String)
    (repository : Repository) (basePipe : String) (pullRequests : List PullRequest) (j : Nat)
    (pullRequest : PullRequest) (s s1 : σ) (reviewers : Reviewers)
    (h : client.PullRequestsListReviewers org repository.GetName pullRequest.GetNumber s
      = (.ok reviewers, s1)) :
    logsOf (printPullRequests.pullRequest client org repository basePipe pullRequests j
        pullRequest s).trace
      = specTitleLine basePipe (if j + 1 = pullRequests.length then "└" else "├")
          pullRequest.GetTitle
        :: specUserLines basePipe (if j + 1 = pullRequests.length then " " else "│")
            ((if GetLogin pullRequest.GetUser = "" then []
                else ["Owner: " ++ GetLogin pullRequest.GetUser])
              ++ (List.enumFrom 1 (reviewers.Users.map (fun u => GetLogin (some u)))).map
                  (fun kr => "Reviewer " ++ toString kr.1 ++ ": " ++ kr.2)
              ++ (if GetLogin pullRequest.GetAssignee = "" then []
                else ["Assignee: " ++ GetLogin pullRequest.GetAssignee]))
    ∧ (logsOf (printPullRequests.pullRequest client org repository basePipe pullRequests j
        pullRequest s).trace).length
      = 1 + (if GetLogin pullRequest.GetUser = "" then 0 else 1) + reviewers.Users.length
          + (if GetLogin pullRequest.GetAssignee = "" then 0 else 1)
    ∧ (GetLogin pullRequest.GetUser = "" → GetLogin pullRequest.GetAssignee = "" →
        reviewers.Users = [] →
        logsOf (printPullRequests.pullRequest client org repository basePipe pullRequests j
          pullRequest s).trace
          = [specTitleLine basePipe (if j + 1 = pullRequests.length then "└" else "├")
              pullRequest.GetTitle]) := by
  have hrun := pullRequest_run client org repository basePipe pullRequests j pullRequest s s1
    reviewers h
  rw [pullRequestLines_eq_spec] at hrun
  have hlogs : logsOf (printPullRequests.pullRequest client org repository basePipe
      pullRequests j pullRequest s).trace
      = specPullRequestBlock basePipe (decide (j + 1 = pullRequests.length)) pullRequest
          reviewers := by
    rw [hrun, logsOf, logsOf_map_log]
  refine ⟨?_, ?_, ?_⟩
  · rw [hlogs]
    simp [specPullRequestBlock, specEntries]
  · rw [hlogs]
    simp only [specPullRequestBlock, List.length_cons, specUserLines_length, specEntries,
      List.length_append, List.length_map, List.enumFrom_length]
    by_cases ho : GetLogin pullRequest.GetUser = "" <;>
    by_cases ha : GetLogin pullRequest.GetAssignee = "" <;>
    simp [ho, ha] <;> omega
  · intro ho ha hn
    rw [hlogs]
    simp [specPullRequestBlock, specEntries, ho, ha, hn, specUserLines]

/-- C3 at pull request 2 of the example service: title, owner, one reviewer, assignee. -/
theorem printPullRequests_block_witness :
    logsOf (printPullRequests.pullRequest exampleClient "org" (repoNamed "a") "│"
        [pullRequestOne, pullRequestTwo] 1 pullRequestTwo ()).trace
      = ["│ └ PR: two\n", "│   ├ Owner: alice\n", "│   ├ Reviewer 1: bob\n",
          "│   └ Assignee: dave\n"] :=
  (printPullRequests_block exampleClient "org" (repoNamed "a") "│"
    [pullRequestOne, pullRequestTwo] 1 pullRequestTwo () () ⟨[userNamed "bob"], []⟩ rfl).1.trans
    (by decide)

/-- C4: against successful answers, the lines `printPullRequests` writes are the blocks of
the repositories concatenated in the order of the list; a repository without open pull
requests contributes no line, a repository with pull requests one header line followed by
the blocks of its pull requests in the order of the answer. -/
theorem printPullRequests_output
    (repos : String → RepositoryListByOrgOptions → List Repository × Response)
    (prs : String → String → List PullRequest) (revs : String → String → Int → Reviewers)
    (org : String) (repositories : List Repository) :
    (printPullRequests (successfulClient repos prs revs) org repositories ()).outcome = .ok ()
      ∧ logsOf (printPullRequests (successfulClient repos prs revs) org repositories ()).trace
        = (List.enumFrom 0 repositories).flatMap (fun ir =>
            match prs org ir.2.GetName with
            | [] => []
            | p :: rest =>
              specHeaderLine (if ir.1 + 1 = repositories.length then "└" else "├") ir.2.GetName
                :: (List.enumFrom 0 (p :: rest)).flatMap (fun jp =>
                    specPullRequestBlock
                      (if ir.1 + 1 = repositories.length then " " else "│")
                      (decide (jp.1 + 1 = (p :: rest).length)) jp.2
                      (revs org ir.2.GetName jp.2.GetNumber))) := by
  obtain ⟨t, ht, hlogs⟩ := repositories_successful repos prs revs org repositories
    repositories 0
  unfold printPullRequests
  rw [ht]
  refine ⟨rfl, ?_⟩
  simp only [hlogs]
  congr 1
  funext ir
  unfold specRepositoryBlock
  cases prs org ir.2.GetName with
  | nil => rfl
  | cons p rest => simp

theorem pullRequest_successful
    (repos : String → RepositoryListByOrgOptions → List Repository × Response)
    (prs : String → String → List PullRequest) (revs : String → String → Int → Reviewers)
    (org : String) (repository : Repository) (basePipe : String)
    (pullRequests : List PullRequest) (j : Nat) (pullRequest : PullRequest) :
    logsOf (printPullRequests.pullRequest (successfulClient repos prs revs) org repository
        basePipe pullRequests j pullRequest ()).trace
      = specPullRequestBlock basePipe (decide (j + 1 = pullRequests.length)) pullRequest
          (revs org repository.GetName pullRequest.GetNumber) := by
  have hrun := pullRequest_run (successfulClient repos prs revs) org repository basePipe
    pullRequests j pullRequest () () (revs org repository.GetName pullRequest.GetNumber) rfl
  rw [pullRequestLines_eq_spec] at hrun
  rw [hrun, logsOf, logsOf_map_log]

/-- C5: against successful answers the output is made of the lines of the repository
loop body taken at the indices `0, 1, ..` of the list; the body at index `i` of a
repository with pull requests writes a header line carrying the terminal glyph if `i` is
the last index of the list and the non-terminal glyph otherwise, followed by the lines of
the pull-request loop body taken at the indices `0, 1, ..` of the answer; the body at
index `j` starts with a title line carrying the terminal glyph if `j` is the last index
of the pull requests of that repository and the non-terminal glyph otherwise.  Nothing
else enters either choice. -/
theorem printPullRequests_level_glyphs
    (repos : String → RepositoryListByOrgOptions → List Repository × Response)
    (prs : String → String → List PullRequest) (revs : String → String → Int → Reviewers)
    (org : String) (repositories : List Repository) :
    logsOf (printPullRequests (successfulClient repos prs revs) org repositories ()).trace
        = (List.enumFrom 0 repositories).flatMap (fun ir =>
            logsOf (printPullRequests.repository (successfulClient repos prs revs) org
              repositories ir.1 ir.2 ()).trace)
      ∧ (∀ (i : Nat) (repository : Repository), prs org repository.GetName ≠ [] →
          logsOf (printPullRequests.repository (successfulClient repos prs revs) org
              repositories i repository ()).trace
            = specHeaderLine (if i + 1 = repositories.length then "└" else "├")
                repository.GetName
              :: (List.enumFrom 0 (prs org repository.GetName)).flatMap (fun jp =>
                  logsOf (printPullRequests.pullRequest (successfulClient repos prs revs) org
                    repository (if i + 1 = repositories.length then " " else "│")
                    (prs org repository.GetName) jp.1 jp.2 ()).trace))
      ∧ (∀ (repository : Repository) (basePipe : String) (pullRequests : List PullRequest)
          (j : Nat) (pullRequest : PullRequest),
          (logsOf (printPullRequests.pullRequest (successfulClient repos prs revs) org
              repository basePipe pullRequests j pullRequest ()).trace).head?
            = some (specTitleLine basePipe
                (if j + 1 = pullRequests.length then "└" else "├") pullRequest.GetTitle)) := by
  have hbody : ∀ (i : Nat) (repository : Repository),
      logsOf (printPullRequests.repository (successfulClient repos prs revs) org repositories i
          repository ()).trace
        = specRepositoryBlock (decide (i + 1 = repositories.length)) repository.GetName
            (prs org repository.GetName) (fun p => revs org repository.GetName p.GetNumber) := by
    intro i repository
    obtain ⟨t, ht, hlogs⟩ := repository_successful repos prs revs org repositories i repository
    rw [ht]
    exact hlogs
  refine ⟨?_, ?_, ?_⟩
  · obtain ⟨t, ht, hlogs⟩ := repositories_successful repos prs revs org repositories
      repositories 0
    unfold printPullRequests
    rw [ht]
    simp only [hlogs, hbody]
  · intro i repository hne
    rw [hbody]
    simp only [pullRequest_successful]
    unfold specRepositoryBlock
    cases hp : prs org repository.GetName with
    | nil => exact absurd hp hne
    | cons p rest => simp
  · intro repository basePipe pullRequests j pullRequest
    rw [pullRequest_successful]
    simp [specPullRequestBlock]

/-- C6: in every run of `main` in which some API call fails, the run ends by
`os.Exit(1)`, and its trace ends with the first failing call followed by the logged error
message: no call is issued and no line is printed after them. -/
theorem main_fails_fast {σ : Type} (fuel : Nat) (NewClient : String → Client σ)
    (osArgs : List String) (osGetenv : String → String) (s : σ)
    (h : noFailure (main fuel NewClient osArgs osGetenv s).trace = false) :
    (main fuel NewClient osArgs osGetenv s).outcome = .exit 1
      ∧ ∃ pre c msg,
        (main fuel NewClient osArgs osGetenv s).trace
            = pre ++ [Event.call c (some msg), Event.log (errorLine msg)]
          ∧ noFailure pre = true
          ∧ callsOf (main fuel NewClient osArgs osGetenv s).trace = callsOf pre ++ [c]
          ∧ logsOf (main fuel NewClient osArgs osGetenv s).trace
              = logsOf pre ++ [errorLine msg] := by
  rcases main_failFast fuel NewClient osArgs osGetenv s with hclean | ⟨hexit, pre, c, msg, ht, hpre⟩
  · rw [hclean] at h
    cases h
  · refine ⟨hexit, pre, c, msg, ht, hpre, ?_, ?_⟩
    · rw [ht, callsOf_append]
      rfl
    · rw [ht, logsOf_append]
      rfl

/-- C6 at a service whose reviewers endpoint fails. -/
theorem main_fails_fast_witness :
    noFailure (main 1 (fun _ => failingReviewersClient) ["pr", "org"] (fun _ => "key") ()).trace
        = false
      ∧ (main 1 (fun _ => failingReviewersClient) ["pr", "org"] (fun _ => "key") ()).outcome
        = .exit 1 :=
  ⟨by decide,
    (main_fails_fast 1 (fun _ => failingReviewersClient) ["pr", "org"] (fun _ => "key") ()
      (by decide)).1⟩

/-- C7: when the repository-list endpoint answers `f page` to a request for `page` and the
next-page indicators followed from the first request (page 0, page size 100) reach 0 at
the `n`-th request for the first time, `getGithubRepositories` returns after exactly `n`
requests, the `k`-th of which (from 0) asks for the page `pageAt f k`, that is for the
page the previous answer pointed to. -/
theorem getGithubRepositories_requests (f : Int → List Repository × Response)
    (prs : String → String → List PullRequest) (revs : String → String → Int → Reviewers)
    (org : String) (n fuel : Nat) (hn : 0 < n)
    (hlast : (f (pageAt f (n - 1))).2.NextPage = 0)
    (hmore : ∀ k, k + 1 < n → (f (pageAt f k)).2.NextPage ≠ 0) (hfuel : n ≤ fuel) :
    (∃ l, (getGithubRepositories fuel
          (successfulClient (fun _ opts => f opts.ListOptions.Page) prs revs) org ()).outcome
        = .ok l)
      ∧ callsOf (getGithubRepositories fuel
          (successfulClient (fun _ opts => f opts.ListOptions.Page) prs revs) org ()).trace
        = (List.range n).map (fun k => Call.RepositoriesListByOrg org ⟨⟨pageAt f k, 100⟩⟩)
      ∧ (callsOf (getGithubRepositories fuel
          (successfulClient (fun _ opts => f opts.ListOptions.Page) prs revs) org ()).trace).length
        = n := by
  obtain ⟨d, rfl⟩ : ∃ d, n = d + 1 := ⟨n - 1, by omega⟩
  obtain ⟨l, hl⟩ := loop_paged f prs revs org d 0 fuel []
    (by simpa using hlast) (fun j hj => by simpa using hmore j (by omega)) hfuel
  have hpage : pageAt f 0 = 0 := rfl
  rw [hpage] at hl
  have hcalls : callsOf (getGithubRepositories fuel
      (successfulClient (fun _ opts => f opts.ListOptions.Page) prs revs) org ()).trace
      = (List.range (d + 1)).map
          (fun k => Call.RepositoriesListByOrg org ⟨⟨pageAt f k, 100⟩⟩) := by
    unfold getGithubRepositories
    rw [bind_ok hl]
    simp only [pure_run, List.append_nil, Nat.zero_add]
    exact callsOf_map_call (fun k => Call.RepositoriesListByOrg org ⟨⟨pageAt f k, 100⟩⟩) _
  refine ⟨⟨sortSort l, ?_⟩, hcalls, ?_⟩
  · unfold getGithubRepositories
    rw [bind_ok hl]
    rfl
  · rw [hcalls]
    simp

/-- C7 at an endpoint with two pages: two requests, for page 0 and for page 2. -/
theorem getGithubRepositories_requests_witness :
    callsOf (getGithubRepositories 2
        (successfulClient (fun _ opts => twoPageEndpoint opts.ListOptions.Page) (fun _ _ => [])
          (fun _ _ _ => ⟨[], []⟩)) "org" ()).trace
      = [Call.RepositoriesListByOrg "org" ⟨⟨0, 100⟩⟩, Call.RepositoriesListByOrg "org" ⟨⟨2, 100⟩⟩] :=
  (getGithubRepositories_requests twoPageEndpoint (fun _ _ => []) (fun _ _ _ => ⟨[], []⟩) "org"
    2 2 (by decide) (by decide)
    (fun k hk => by
      have hk0 : k = 0 := by omega
      subst hk0
      decide)
    (by decide)).2.1.trans (by decide)

/-- C8 as stated fails: a run in which the reviewers call fails has already printed a
repository header line. -/
theorem main_prints_before_failure :
    noFailure (main 1 (fun _ => failingReviewersClient) ["pr", "org"] (fun _ => "key") ()).trace
        = false
      ∧ logsOf (main 1 (fun _ => failingReviewersClient) ["pr", "org"] (fun _ => "key") ()).trace
        = ["└ a:\n", "\tError: boom\n"] := by
  decide

/-- C8, amended: in every run of `main` in which some API call fails, the output is made
of the lines printed before the failing call followed by the logged error message of that
call, which is the last line; when the failing call is a repository-list call the error
message is the only line of the output. -/
theorem main_failure_output {σ : Type} (fuel : Nat) (NewClient : String → Client σ)
    (osArgs : List String) (osGetenv : String → String) (s : σ)
    (h : noFailure (main fuel NewClient osArgs osGetenv s).trace = false) :
    (∃ pre c msg,
        (main fuel NewClient osArgs osGetenv s).trace
            = pre ++ [Event.call c (some msg), Event.log (errorLine msg)]
          ∧ noFailure pre = true
          ∧ logsOf (main fuel NewClient osArgs osGetenv s).trace
              = logsOf pre ++ [errorLine msg])
      ∧ ∀ org opts msg, Event.call (.RepositoriesListByOrg org opts) (some msg)
          ∈ (main fuel NewClient osArgs osGetenv s).trace →
        logsOf (main fuel NewClient osArgs osGetenv s).trace = [errorLine msg] := by
  refine ⟨?_, fun org opts msg hmem =>
    main_repositories_failure fuel NewClient osArgs osGetenv s org opts msg hmem⟩
  rcases main_failFast fuel NewClient osArgs osGetenv s with hclean | ⟨-, pre, c, msg, ht, hpre⟩
  · rw [hclean] at h
    cases h
  · refine ⟨pre, c, msg, ht, hpre, ?_⟩
    rw [ht, logsOf_append]
    rfl

/-- C8, amended, at a service whose repository-list endpoint fails: the error message is
the whole output. -/
theorem main_failure_output_witness :
    noFailure (main 1 (fun _ => failingRepositoriesClient) ["pr", "org"] (fun _ => "key")
        ()).trace = false
      ∧ logsOf (main 1 (fun _ => failingRepositoriesClient) ["pr", "org"] (fun _ => "key")
        ()).trace = [errorLine "boom"] :=
  ⟨by decide,
    (main_failure_output 1 (fun _ => failingRepositoriesClient) ["pr", "org"] (fun _ => "key") ()
      (by decide)).2 "org" ⟨⟨0, 100⟩⟩ "boom" (by decide)⟩

/-- C9 as stated fails: a repository reported on two pages appears twice in the result. -/
theorem getGithubRepositories_keeps_duplicates :
    isPagination duplicatePages = true
      ∧ (getGithubRepositories 2 scriptedClient "org" (duplicatePages.map .ok)).outcome
        = .ok [repoNamed "a", repoNamed "a"]
      ∧ ¬ (([repoNamed "a", repoNamed "a"] : List Repository).map Repository.GetName).Nodup := by
  decide

/-- C9, amended: `getGithubRepositories` neither drops nor merges repositories: every
repository occurs in the result as often as in the fetched pages, so the names of the
result are pairwise different exactly when the names reported over all pages are. -/
theorem getGithubRepositories_multiplicities (org : String)
    (pages : List (List Repository × Response)) (fuel : Nat)
    (hpages : isPagination pages = true) (hfuel : pages.length ≤ fuel) :
    ∃ l, (getGithubRepositories fuel scriptedClient org (pages.map .ok)).outcome = .ok l
      ∧ (∀ r, l.count r = (pages.flatMap Prod.fst).count r)
      ∧ ((l.map Repository.GetName).Nodup
          ↔ ((pages.flatMap Prod.fst).map Repository.GetName).Nodup) :=
  ⟨sortSort (pages.flatMap Prod.fst), getGithubRepositories_scripted org pages fuel hpages hfuel,
    fun r => (sortSort_perm _).count_eq r, ((sortSort_perm _).map _).nodup_iff⟩

/-- C9, amended, at two pages with different repositories. -/
theorem getGithubRepositories_multiplicities_witness :
    isPagination twoPages = true ∧ twoPages.length ≤ 2
      ∧ ∃ l, (getGithubRepositories 2 scriptedClient "org" (twoPages.map .ok)).outcome = .ok l
        ∧ (∀ r, l.count r = (twoPages.flatMap Prod.fst).count r)
        ∧ ((l.map Repository.GetName).Nodup
            ↔ ((twoPages.flatMap Prod.fst).map Repository.GetName).Nodup) :=
  ⟨by decide, by decide,
    getGithubRepositories_multiplicities "org" twoPages 2 (by decide) (by decide)⟩

theorem repository_head
    (repos : String → RepositoryListByOrgOptions → List Repository × Response)
    (prs : String → String → List PullRequest) (revs : String → String → Int → Reviewers)
    (org : String) (repositories : List Repository) (i : Nat) (repository : Repository) :
    (logsOf (printPullRequests.repository (successfulClient repos prs revs) org repositories i
        repository ()).trace).head?
      = if (prs org repository.GetName).isEmpty then none
        else some (specHeaderLine (if i + 1 = repositories.length then "└" else "├")
          repository.GetName) := by
  obtain ⟨t, ht, hlogs⟩ := repository_successful repos prs revs org repositories i repository
  rw [ht]
  simp only [hlogs]
  unfold specRepositoryBlock
  cases prs org repository.GetName with
  | nil => rfl
  | cons p rest => simp

theorem headerLines_inner
    (repos : String → RepositoryListByOrgOptions → List Repository × Response)
    (prs : String → String → List PullRequest) (revs : String → String → Int → Reviewers)
    (org : String) (repositories : List Repository) : ∀ (l : List Repository) (k : Nat),
    k + l.length < repositories.length →
    (List.enumFrom k l).filterMap (fun ir =>
        (logsOf (printPullRequests.repository (successfulClient repos prs revs) org repositories
          ir.1 ir.2 ()).trace).head?)
      = (l.filter (fun r => !(prs org r.GetName).isEmpty)).map
          (fun r => specHeaderLine "├" r.GetName)
  | [], _, _ => rfl
  | r :: l, k, h => by
    have ih := headerLines_inner repos prs revs org repositories l (k + 1)
      (by simp at h ⊢; omega)
    have hk : ¬ k + 1 = repositories.length := by simp at h; omega
    rw [List.enumFrom_cons, List.filterMap_cons, ih, repository_head]
    cases hp : (prs org r.GetName).isEmpty <;> simp [hp, hk]

/-- C10, amended: against successful answers, the header line of a repository carries the
terminal glyph exactly when the repository is the last of the list.  The header lines
printed for a list `pre ++ [last]` are the non-terminal header lines of the repositories of
`pre` that have open pull requests, followed by the terminal header line of `last` if it
has open pull requests: the last header line printed carries the terminal glyph when the
last repository of the list prints, and no header line carries it when that repository has
no open pull request. -/
theorem printPullRequests_header_glyphs
    (repos : String → RepositoryListByOrgOptions → List Repository × Response)
    (prs : String → String → List PullRequest) (revs : String → String → Int → Reviewers)
    (org : String) (pre : List Repository) (last : Repository) :
    headerLines (successfulClient repos prs revs) org (pre ++ [last])
      = (pre.filter (fun r => !(prs org r.GetName).isEmpty)).map
          (fun r => specHeaderLine "├" r.GetName)
        ++ (if (prs org last.GetName).isEmpty then []
            else [specHeaderLine "└" last.GetName]) := by
  unfold headerLines
  rw [List.enumFrom_append, List.filterMap_append,
    headerLines_inner repos prs revs org (pre ++ [last]) pre 0 (by simp)]
  congr 1
  rw [List.enumFrom_cons, List.enumFrom_nil, List.filterMap_cons, List.filterMap_nil,
    repository_head]
  cases hp : (prs org last.GetName).isEmpty <;> simp [hp]

/-- C10 as stated fails: when the last repository of the list has no open pull request,
the only header line printed, hence the last one, carries the non-terminal glyph. -/
theorem printPullRequests_last_header_not_terminal :
    logsOf (printPullRequests exampleClient "org" [repoNamed "a", repoNamed "b"] ()).trace
        = ["├ a:\n", "│ ├ PR: one\n", "│ │ ├ Owner: alice\n", "│ │ ├ Reviewer 1: bob\n",
            "│ │ └ Reviewer 2: carol\n", "│ └ PR: two\n", "│   ├ Owner: alice\n",
            "│   ├ Reviewer 1: bob\n", "│   └ Assignee: dave\n"]
      ∧ headerLines exampleClient "org" [repoNamed "a", repoNamed "b"] = ["├ a:\n"]
      ∧ (headerLines exampleClient "org" [repoNamed "a", repoNamed "b"]).getLast?
        ≠ some "└ a:\n" := by
  decide

end PR
